import Mathlib

/-!
Verification of the Rayforce query-execution core against its specification.

The C sources under src/core (sort.c, aggr.c, join.c, pool.c, heap.c,
error.c/error.h, hash.h) are shallowly embedded below: machine integers become
Nat/Int with explicit reductions modulo 2^w where the C wraps, vectors become
lists, stateful loops become folds with explicit state, and fallible code
returns Except/Option.  Where a helper of this repository is not present under
src (only declared or called there), the corresponding definition is modelled
from the specification and says so in its doc comment.
-/

set_option maxHeartbeats 1000000
set_option maxRecDepth 8000

namespace Rayforce

/-! ### Generic counting-scatter machinery

Every counting / radix sorting pass in src/core/sort.c has the same shape:
a histogram over bucket indices, a prefix-sum over the buckets in some fixed
bucket enumeration order, and a scatter loop `ov[pos[bucket(x)]++] = x`.
`scatterRun` is the literal scatter loop (state = the `pos` cursor array and
the partially written output array); `bucketSeq` is the closed form it
computes: the buckets listed in enumeration order, each bucket keeping the
input order of its members.  The bridge is proved once and reused by every
sort variant. -/

/-- Closed form of one stable counting pass: the elements of `xs`, grouped by
`digit` into the buckets of `order` (in that bucket order), each bucket keeping
the relative order of `xs`. -/
def bucketSeq (order : List Nat) (digit : Nat → Nat) (xs : List Nat) : List Nat :=
  order.flatMap fun b => xs.filter fun i => digit i == b

/-- Number of elements of `xs` in bucket `b`. -/
def cntd (digit : Nat → Nat) (xs : List Nat) (b : Nat) : Nat :=
  (xs.filter fun i => digit i == b).length

theorem bucketSeq_nil (order : List Nat) (digit : Nat → Nat) :
    bucketSeq order digit [] = [] := by
  simp [bucketSeq]

theorem mem_bucketSeq {order : List Nat} {digit : Nat → Nat} {xs : List Nat} {j : Nat}
    (h : j ∈ bucketSeq order digit xs) : j ∈ xs ∧ digit j ∈ order := by
  rcases List.mem_flatMap.mp h with ⟨b, hb, hj⟩
  have h1 := List.of_mem_filter hj
  have h2 := List.mem_of_mem_filter hj
  exact ⟨h2, by simpa [Nat.beq_eq] using (of_decide_eq_true h1 : digit j = b) ▸ hb⟩

theorem bucketSeq_congr_filter {order : List Nat} {digit : Nat → Nat} {xs ys : List Nat}
    (h : ∀ b ∈ order, xs.filter (fun i => digit i == b) = ys.filter (fun i => digit i == b)) :
    bucketSeq order digit xs = bucketSeq order digit ys := by
  unfold bucketSeq
  induction order with
  | nil => rfl
  | cons b rest ih =>
      simp only [List.flatMap_cons]
      rw [h b (List.mem_cons_self b rest), ih (fun b2 hb2 => h b2 (List.mem_cons_of_mem b hb2))]

/-- A bucket pass permutes its input as long as every element lands in a listed
bucket and no bucket is listed twice. -/
theorem bucketSeq_perm {order : List Nat} {digit : Nat → Nat} {xs : List Nat}
    (hnd : order.Nodup) (hcov : ∀ i ∈ xs, digit i ∈ order) :
    List.Perm (bucketSeq order digit xs) xs := by
  induction order generalizing xs with
  | nil =>
      have : xs = [] := by
        cases xs with
        | nil => rfl
        | cons a t => exact absurd (hcov a (List.mem_cons_self a t)) (List.not_mem_nil _)
      simp [this, bucketSeq]
  | cons b rest ih =>
      have hndr : rest.Nodup := (List.nodup_cons.mp hnd).2
      have hbnr : b ∉ rest := (List.nodup_cons.mp hnd).1
      have hsplit : bucketSeq (b :: rest) digit xs
          = xs.filter (fun i => digit i == b) ++ bucketSeq rest digit xs := by
        simp [bucketSeq]
      have hcong : bucketSeq rest digit xs
          = bucketSeq rest digit (xs.filter (fun i => !(digit i == b))) := by
        apply bucketSeq_congr_filter
        intro b2 hb2
        rw [List.filter_filter]
        apply List.filter_congr
        intro i hi
        have hne : b2 ≠ b := fun hEq => hbnr (hEq ▸ hb2)
        cases hdb : (digit i == b2) with
        | false => simp
        | true =>
            have : digit i = b2 := by simpa [Nat.beq_eq] using hdb
            simp [this, Nat.beq_eq, hne]
      have hcov2 : ∀ i ∈ xs.filter (fun i => !(digit i == b)), digit i ∈ rest := by
        intro i hi
        have h1 := List.of_mem_filter hi
        have h2 := List.mem_of_mem_filter hi
        have hne : ¬ digit i = b := by
          intro hEq
          simp [hEq] at h1
        have := hcov i h2
        rcases List.mem_cons.mp this with hEq | hmem
        · exact absurd hEq hne
        · exact hmem
      have hperm2 : List.Perm (bucketSeq rest digit xs) (xs.filter (fun i => !(digit i == b))) := by
        rw [hcong]; exact ih hndr hcov2
      have hstep : List.Perm (bucketSeq (b :: rest) digit xs)
          (xs.filter (fun i => digit i == b) ++ xs.filter (fun i => !(digit i == b))) := by
        rw [hsplit]; exact List.Perm.append_left _ hperm2
      exact hstep.trans (List.filter_append_perm _ xs)

theorem bucketSeq_length {order : List Nat} {digit : Nat → Nat} {xs : List Nat}
    (hnd : order.Nodup) (hcov : ∀ i ∈ xs, digit i ∈ order) :
    (bucketSeq order digit xs).length = xs.length :=
  (bucketSeq_perm hnd hcov).length_eq

/-- Refinement of an order relation by a bucket pass: if `xs` is pairwise `r`
and the buckets are enumerated pairwise `q`, the output is pairwise
"earlier bucket, or same bucket and previously `r`" — the stability lemma. -/
theorem bucketSeq_pairwise {order : List Nat} {digit : Nat → Nat} {xs : List Nat}
    {r : Nat → Nat → Prop} {q : Nat → Nat → Prop}
    (hxs : xs.Pairwise r) (hord : order.Pairwise q) :
    (bucketSeq order digit xs).Pairwise
      (fun i j => q (digit i) (digit j) ∨ (digit i = digit j ∧ r i j)) := by
  induction order with
  | nil => simp [bucketSeq]
  | cons b rest ih =>
      have hsplit : bucketSeq (b :: rest) digit xs
          = xs.filter (fun i => digit i == b) ++ bucketSeq rest digit xs := by
        simp [bucketSeq]
      rw [hsplit]
      apply List.pairwise_append.mpr
      refine ⟨?_, ih hord.of_cons, ?_⟩
      · have hpf : (xs.filter (fun i => digit i == b)).Pairwise r := hxs.filter _
        have hpf2 := List.Pairwise.and_mem.mp hpf
        apply hpf2.imp
        intro i j hij
        rcases hij with ⟨hi, hj, hr⟩
        right
        have hdi : digit i = b := by
          have := List.of_mem_filter hi
          simpa [Nat.beq_eq] using this
        have hdj : digit j = b := by
          have := List.of_mem_filter hj
          simpa [Nat.beq_eq] using this
        exact ⟨hdi.trans hdj.symm, hr⟩
      · intro i hi j hj
        have hdi : digit i = b := by
          have := List.of_mem_filter hi
          simpa [Nat.beq_eq] using this
        have hdj : digit j ∈ rest := (mem_bucketSeq hj).2
        left
        rw [hdi]
        exact (List.pairwise_cons.mp hord).1 (digit j) hdj

/-- One step of the C scatter loop `ov[pos[digit(i)]++] = i` (src/core/sort.c,
all counting/radix scatter loops): the state is the bucket cursor array `pos`
and the partially written output array `out`. -/
def scatterStep (digit : Nat → Nat) (st : (Nat → Nat) × List (Option Nat)) (i : Nat) :
    (Nat → Nat) × List (Option Nat) :=
  ((fun b => if b = digit i then st.1 b + 1 else st.1 b), st.2.set (st.1 (digit i)) (some i))

/-- The whole scatter loop over `xs`, starting from cursor array `pos` and
output array `out`. -/
def scatterRun (digit : Nat → Nat) (xs : List Nat) (pos : Nat → Nat)
    (out : List (Option Nat)) : List (Option Nat) :=
  (xs.foldl (scatterStep digit) (pos, out)).2

theorem scatterRun_nil (digit : Nat → Nat) (pos : Nat → Nat) (out : List (Option Nat)) :
    scatterRun digit [] pos out = out := rfl

theorem scatterRun_cons (digit : Nat → Nat) (x : Nat) (xs : List Nat) (pos : Nat → Nat)
    (out : List (Option Nat)) :
    scatterRun digit (x :: xs) pos out
      = scatterRun digit xs (fun b => if b = digit x then pos b + 1 else pos b)
          (out.set (pos (digit x)) (some x)) := rfl

theorem cntd_cons (digit : Nat → Nat) (x : Nat) (xs : List Nat) (b : Nat) :
    cntd digit (x :: xs) b
      = if digit x = b then cntd digit xs b + 1 else cntd digit xs b := by
  by_cases h : digit x = b
  · simp [cntd, List.filter_cons, h]
  · simp [cntd, List.filter_cons, h]

theorem cntd_pos_self (digit : Nat → Nat) (x : Nat) (xs : List Nat) :
    0 < cntd digit (x :: xs) (digit x) := by
  rw [cntd_cons]
  simp

/-- Correctness of the scatter loop, region form.  If the target regions
`[pos b, pos b + cntd b)` are pairwise disjoint and inside the output array,
then after the loop region `b` holds exactly the bucket-`b` elements of `xs`
in input order, and every slot outside all regions is untouched. -/
theorem scatterRun_spec (digit : Nat → Nat) :
    ∀ (xs : List Nat) (pos : Nat → Nat) (out : List (Option Nat)),
    (∀ b b2, b ≠ b2 → ∀ s, (pos b ≤ s ∧ s < pos b + cntd digit xs b) →
        ¬ (pos b2 ≤ s ∧ s < pos b2 + cntd digit xs b2)) →
    (∀ b, pos b + cntd digit xs b ≤ out.length) →
    ((scatterRun digit xs pos out).length = out.length
     ∧ (∀ b j, j < cntd digit xs b →
          (scatterRun digit xs pos out).getD (pos b + j) none
            = some ((xs.filter fun i => digit i == b).getD j 0))
     ∧ (∀ s, (∀ b, ¬ (pos b ≤ s ∧ s < pos b + cntd digit xs b)) →
          (scatterRun digit xs pos out).getD s none = out.getD s none)) := by
  intro xs
  induction xs with
  | nil =>
      intro pos out _ _
      refine ⟨rfl, ?_, ?_⟩
      · intro b j hj
        simp [cntd] at hj
      · intro s _
        rfl
  | cons x rest ih =>
      intro pos out hdisj hbound
      set d := digit x with hd
      have hcnt_d : cntd digit (x :: rest) d = cntd digit rest d + 1 := by
        rw [cntd_cons]; simp
      have hcnt_ne : ∀ b, b ≠ d → cntd digit (x :: rest) b = cntd digit rest b := by
        intro b hb
        rw [cntd_cons]
        have : ¬ digit x = b := by
          rw [← hd]
          exact fun h => hb h.symm
        simp [this]
      set pos1 : Nat → Nat := fun b => if b = d then pos b + 1 else pos b with hpos1
      set out1 := out.set (pos d) (some x) with hout1
      -- the shrunken regions sit inside the original ones
      have hsub : ∀ b s, (pos1 b ≤ s ∧ s < pos1 b + cntd digit rest b) →
          (pos b ≤ s ∧ s < pos b + cntd digit (x :: rest) b) := by
        intro b s hs
        by_cases hb : b = d
        · subst hb
          rw [hcnt_d]
          simp only [hpos1, if_pos rfl] at hs
          omega
        · rw [hcnt_ne b hb]
          simp only [hpos1, if_neg hb] at hs
          exact hs
      have hdisj1 : ∀ b b2, b ≠ b2 → ∀ s, (pos1 b ≤ s ∧ s < pos1 b + cntd digit rest b) →
          ¬ (pos1 b2 ≤ s ∧ s < pos1 b2 + cntd digit rest b2) := by
        intro b b2 hne s hs hs2
        exact hdisj b b2 hne s (hsub b s hs) (hsub b2 s hs2)
      have hbound1 : ∀ b, pos1 b + cntd digit rest b ≤ out1.length := by
        intro b
        rw [hout1, List.length_set]
        by_cases hb : b = d
        · subst hb
          have := hbound d
          rw [hcnt_d] at this
          simp only [hpos1, if_pos rfl]
          omega
        · have := hbound b
          rw [hcnt_ne b hb] at this
          simpa [hpos1, if_neg hb] using this
      obtain ⟨ihlen, ihreg, ihunt⟩ := ih pos1 out1 hdisj1 hbound1
      have hrun : scatterRun digit (x :: rest) pos out = scatterRun digit rest pos1 out1 := by
        rw [scatterRun_cons]
      have hposd_lt : pos d < out.length := by
        have := hbound d
        rw [hcnt_d] at this
        omega
      refine ⟨?_, ?_, ?_⟩
      · rw [hrun, ihlen, hout1, List.length_set]
      · intro b j hj
        by_cases hb : b = d
        · subst hb
          cases j with
          | zero =>
              -- slot pos d is untouched by the tail run and holds x
              have huntd : ∀ b2, ¬ (pos1 b2 ≤ pos d ∧ pos d < pos1 b2 + cntd digit rest b2) := by
                intro b2 hs
                by_cases hb2 : b2 = d
                · subst hb2
                  simp only [hpos1, if_pos rfl] at hs
                  omega
                · have hin2 := hsub b2 (pos d) hs
                  have hind : pos d ≤ pos d ∧ pos d < pos d + cntd digit (x :: rest) d := by
                    rw [hcnt_d]; omega
                  exact hdisj d b2 (fun h => hb2 h.symm) (pos d) hind hin2
              rw [hrun, Nat.add_zero]
              rw [ihunt (pos d) huntd]
              have : out1.getD (pos d) none = some x := by
                rw [hout1]
                simp [List.getD_eq_getElem?_getD, List.getElem?_set_self, hposd_lt]
              rw [this]
              simp [List.filter_cons, hd]
          | succ j2 =>
              rw [hcnt_d] at hj
              have hj2 : j2 < cntd digit rest d := by omega
              have := ihreg d j2 hj2
              rw [hrun]
              have harith : pos d + (j2 + 1) = pos1 d + j2 := by
                simp only [hpos1, if_pos rfl]
                omega
              rw [harith, this]
              simp [List.filter_cons, hd]
        · rw [hcnt_ne b hb] at hj
          have := ihreg b j hj
          rw [hrun]
          have harith : pos b + j = pos1 b + j := by
            simp only [hpos1, if_neg hb]
          rw [harith, this]
          have : (x :: rest).filter (fun i => digit i == b) = rest.filter (fun i => digit i == b) := by
            simp only [List.filter_cons]
            have hne2 : ¬ digit x = b := by
              rw [← hd]
              exact fun h => hb h.symm
            simp [hne2]
          rw [this]
      · intro s hunt
        have hunt1 : ∀ b, ¬ (pos1 b ≤ s ∧ s < pos1 b + cntd digit rest b) := by
          intro b hs
          exact hunt b (hsub b s hs)
        rw [hrun, ihunt s hunt1, hout1]
        have hne : pos d ≠ s := by
          intro hEq
          apply hunt d
          rw [← hEq, hcnt_d]
          omega
        simp [List.getD_eq_getElem?_getD, List.getElem?_set_ne hne]

/-! ### Chunked scatter

The parallel sorts of src/core/sort.c split the input into `n` contiguous
chunks (`pool_map`), give every worker its own cursor array, and let the
workers scatter concurrently into disjoint regions.  Because the write
regions are disjoint by construction, the result equals running the chunks
one after another; `multiScatterAux` is that canonical serialisation. -/

/-- Scatter chunk after chunk, chunk `k` using cursor array `posf (w+k)`. -/
def multiScatterAux (digit : Nat → Nat) (posf : Nat → Nat → Nat) :
    List (List Nat) → Nat → List (Option Nat) → List (Option Nat)
  | [], _, out => out
  | c :: cs, w, out => multiScatterAux digit posf cs (w + 1) (scatterRun digit c (posf w) out)

/-- Region-form correctness of the chunked scatter: chunk `k`'s bucket-`b`
region receives exactly the bucket-`b` elements of chunk `k`, in chunk order;
slots outside all regions are untouched. -/
theorem multiScatterAux_spec (digit : Nat → Nat) (posf : Nat → Nat → Nat) :
    ∀ (cs : List (List Nat)) (w : Nat) (out : List (Option Nat)),
    (∀ k b, k < cs.length → posf (w + k) b + cntd digit (cs.getD k []) b ≤ out.length) →
    (∀ k k2 b b2, k < cs.length → k2 < cs.length → (k ≠ k2 ∨ b ≠ b2) →
       ∀ s, (posf (w + k) b ≤ s ∧ s < posf (w + k) b + cntd digit (cs.getD k []) b) →
         ¬ (posf (w + k2) b2 ≤ s ∧ s < posf (w + k2) b2 + cntd digit (cs.getD k2 []) b2)) →
    ((multiScatterAux digit posf cs w out).length = out.length
     ∧ (∀ k b j, k < cs.length → j < cntd digit (cs.getD k []) b →
          (multiScatterAux digit posf cs w out).getD (posf (w + k) b + j) none
            = some (((cs.getD k []).filter fun i => digit i == b).getD j 0))
     ∧ (∀ s, (∀ k b, k < cs.length →
            ¬ (posf (w + k) b ≤ s ∧ s < posf (w + k) b + cntd digit (cs.getD k []) b)) →
          (multiScatterAux digit posf cs w out).getD s none = out.getD s none)) := by
  intro cs
  induction cs with
  | nil =>
      intro w out _ _
      refine ⟨rfl, ?_, ?_⟩
      · intro k b j hk
        simp at hk
      · intro s _
        rfl
  | cons c cs ih =>
      intro w out hbound hdisj
      have hb0 : ∀ b, posf w b + cntd digit c b ≤ out.length := by
        intro b
        have := hbound 0 b (by simp)
        simpa using this
      have hd0 : ∀ b b2, b ≠ b2 → ∀ s, (posf w b ≤ s ∧ s < posf w b + cntd digit c b) →
          ¬ (posf w b2 ≤ s ∧ s < posf w b2 + cntd digit c b2) := by
        intro b b2 hne s hs hs2
        have := hdisj 0 0 b b2 (by simp) (by simp) (Or.inr hne) s (by simpa using hs)
        exact this (by simpa using hs2)
      obtain ⟨len1, reg1, unt1⟩ := scatterRun_spec digit c (posf w) out hd0 hb0
      set out1 := scatterRun digit c (posf w) out with hout1
      have hbound2 : ∀ k b, k < cs.length →
          posf (w + 1 + k) b + cntd digit (cs.getD k []) b ≤ out1.length := by
        intro k b hk
        rw [len1]
        have := hbound (k + 1) b (by simpa using Nat.succ_lt_succ hk)
        have harith : w + (k + 1) = w + 1 + k := by omega
        rw [harith] at this
        simpa using this
      have hdisj2 : ∀ k k2 b b2, k < cs.length → k2 < cs.length → (k ≠ k2 ∨ b ≠ b2) →
          ∀ s, (posf (w + 1 + k) b ≤ s ∧ s < posf (w + 1 + k) b + cntd digit (cs.getD k []) b) →
            ¬ (posf (w + 1 + k2) b2 ≤ s ∧ s < posf (w + 1 + k2) b2 + cntd digit (cs.getD k2 []) b2) := by
        intro k k2 b b2 hk hk2 hne s hs hs2
        have h1 : w + 1 + k = w + (k + 1) := by omega
        have h2 : w + 1 + k2 = w + (k2 + 1) := by omega
        rw [h1] at hs
        rw [h2] at hs2
        have := hdisj (k + 1) (k2 + 1) b b2 (by simpa using Nat.succ_lt_succ hk)
          (by simpa using Nat.succ_lt_succ hk2)
          (by rcases hne with h | h
              · exact Or.inl (by omega)
              · exact Or.inr h) s (by simpa using hs)
        exact this (by simpa using hs2)
      obtain ⟨len2, reg2, unt2⟩ := ih (w + 1) out1 hbound2 hdisj2
      have hms : multiScatterAux digit posf (c :: cs) w out
          = multiScatterAux digit posf cs (w + 1) out1 := rfl
      refine ⟨?_, ?_, ?_⟩
      · rw [hms, len2, len1]
      · intro k b j hk hj
        cases k with
        | zero =>
            simp only [List.getD_cons_zero] at hj ⊢
            -- the tail run leaves chunk 0's region untouched
            have huntslot : ∀ k2 b2, k2 < cs.length →
                ¬ (posf (w + 1 + k2) b2 ≤ posf w b + j
                    ∧ posf w b + j < posf (w + 1 + k2) b2 + cntd digit (cs.getD k2 []) b2) := by
              intro k2 b2 hk2 hs2
              have h2 : w + 1 + k2 = w + (k2 + 1) := by omega
              rw [h2] at hs2
              have hin : posf (w + 0) b ≤ posf w b + j
                  ∧ posf w b + j < posf (w + 0) b + cntd digit ((c :: cs).getD 0 []) b := by
                simp only [Nat.add_zero, List.getD_cons_zero]
                omega
              exact hdisj 0 (k2 + 1) b b2 (by simp) (by simpa using Nat.succ_lt_succ hk2)
                (Or.inl (by omega)) (posf w b + j) hin (by simpa using hs2)
            rw [hms]
            simp only [Nat.add_zero]
            rw [unt2 _ huntslot]
            exact reg1 b j hj
        | succ k2 =>
            simp only [List.getD_cons_succ] at hj ⊢
            have harith : w + (k2 + 1) = w + 1 + k2 := by omega
            rw [hms, harith]
            exact reg2 k2 b j (by simpa using Nat.lt_of_succ_lt_succ hk) hj
      · intro s hunt
        have hunt2 : ∀ k b, k < cs.length →
            ¬ (posf (w + 1 + k) b ≤ s ∧ s < posf (w + 1 + k) b + cntd digit (cs.getD k []) b) := by
          intro k b hk
          have harith : w + 1 + k = w + (k + 1) := by omega
          rw [harith]
          have := hunt (k + 1) b (by simpa using Nat.succ_lt_succ hk)
          simpa using this
        have hunt1 : ∀ b, ¬ (posf w b ≤ s ∧ s < posf w b + cntd digit c b) := by
          intro b
          have := hunt 0 b (by simp)
          simpa using this
        rw [hms, unt2 s hunt2]
        exact unt1 s hunt1

/-! ### Output layout

The prefix-sum phase of every counting/radix pass lays the write regions out
back to back: bucket-major, then (for the parallel variants) worker-minor
inside each bucket.  `segsOf` is that region list, `layStart` the prefix-sum
of region lengths — exactly what the C prefix-sum loops compute into the
`pos` arrays. -/

/-- Start offset of the `k`-th region in a region list. -/
def layStart (segs : List (List Nat)) (k : Nat) : Nat :=
  ((segs.take k).map List.length).sum

/-- Region list of a chunked pass: for each bucket of `order` in order, the
bucket-`b` elements of each chunk in chunk order. -/
def segsOf (order : List Nat) (digit : Nat → Nat) (chunks : List (List Nat)) :
    List (List Nat) :=
  order.flatMap fun b => chunks.map fun c => c.filter fun i => digit i == b

/-- The cursor start for bucket `b` of worker `w`: the prefix-sum the C code
computes by summing the histograms bucket-by-bucket and walking the workers
inside each bucket (e.g. src/core/sort.c:279-287, 440-449, 986-994). -/
def segStart (order : List Nat) (digit : Nat → Nat) (chunks : List (List Nat))
    (b w : Nat) : Nat :=
  layStart (segsOf order digit chunks) (order.indexOf b * chunks.length + w)

theorem layStart_succ (segs : List (List Nat)) (k : Nat) :
    layStart segs (k + 1) = layStart segs k + (segs.getD k []).length := by
  by_cases h : k < segs.length
  · unfold layStart
    rw [List.take_succ, List.map_append, List.sum_append]
    rw [List.getElem?_eq_getElem h]
    simp [List.getD_eq_getElem?_getD, List.getElem?_eq_getElem h]
  · have h1 : segs.length ≤ k := Nat.le_of_not_lt h
    unfold layStart
    rw [List.take_of_length_le h1, List.take_of_length_le (by omega)]
    have hnone : segs[k]? = none := List.getElem?_eq_none (by omega)
    simp [List.getD_eq_getElem?_getD, hnone]

theorem layStart_mono (segs : List (List Nat)) {j k : Nat} (h : j ≤ k) :
    layStart segs j ≤ layStart segs k := by
  induction k with
  | zero =>
      have : j = 0 := by omega
      simp [this]
  | succ k2 ih =>
      by_cases hj : j = k2 + 1
      · simp [hj]
      · have := ih (by omega)
        rw [layStart_succ]
        omega

theorem layStart_disjoint (segs : List (List Nat)) {j k : Nat} (h : j < k) :
    layStart segs j + (segs.getD j []).length ≤ layStart segs k := by
  rw [← layStart_succ]
  exact layStart_mono segs h

theorem layStart_total (segs : List (List Nat)) {k : Nat} (h : segs.length ≤ k) :
    layStart segs k = segs.flatten.length := by
  unfold layStart
  rw [List.take_of_length_le h, List.length_flatten]

/-- Reassembly: an array whose `k`-th region holds exactly the `k`-th segment
is the concatenation of the segments. -/
theorem layAssemble : ∀ (segs : List (List Nat)) (res : List (Option Nat)),
    res.length = segs.flatten.length →
    (∀ k j, k < segs.length → j < (segs.getD k []).length →
       res.getD (layStart segs k + j) none = some ((segs.getD k []).getD j 0)) →
    res = segs.flatten.map some := by
  intro segs
  induction segs with
  | nil =>
      intro res h1 _
      simp at h1
      simpa using h1
  | cons s rest ih =>
      intro res h1 h2
      have hlen : res.length = s.length + rest.flatten.length := by
        rw [h1]
        simp
      have hstart0 : layStart (s :: rest) 0 = 0 := rfl
      have hhead : ∀ j, j < s.length → res.getD j none = some (s.getD j 0) := by
        intro j hj
        have := h2 0 j (by simp) (by simpa using hj)
        simpa [hstart0] using this
      have hlaycons : ∀ k, layStart (s :: rest) (k + 1) = s.length + layStart rest k := by
        intro k
        unfold layStart
        rw [List.take_succ_cons]
        simp
      have htail : res.drop s.length = rest.flatten.map some := by
        apply ih
        · rw [List.length_drop, hlen]
          omega
        · intro k j hk hj
          have := h2 (k + 1) j (by simpa using Nat.succ_lt_succ hk) (by simpa using hj)
          rw [hlaycons k] at this
          rw [List.getD_eq_getElem?_getD, List.getElem?_drop]
          rw [List.getD_eq_getElem?_getD] at this
          have harith : s.length + (layStart rest k + j) = s.length + layStart rest k + j := by
            omega
          rw [harith]
          simpa using this
      have hheadtake : res.take s.length = s.map some := by
        apply List.ext_getElem
        · rw [List.length_take, List.length_map]
          omega
        · intro i hi hi2
          have hi3 : i < s.length := by
            simpa using hi2
          have := hhead i hi3
          rw [List.getD_eq_getElem?_getD, List.getElem?_eq_getElem (by omega : i < res.length)] at this
          have hres : res[i] = some (s.getD i 0) := by
            simpa using this
          have hTk : (res.take s.length)[i] = res[i] := List.getElem_take res
          rw [hTk, hres]
          simp [List.getD_eq_getElem?_getD, List.getElem?_eq_getElem hi3]
      have : res = res.take s.length ++ res.drop s.length := (List.take_append_drop _ res).symm
      rw [this, hheadtake, htail]
      simp

theorem segsOf_length (order : List Nat) (digit : Nat → Nat) (chunks : List (List Nat)) :
    (segsOf order digit chunks).length = order.length * chunks.length := by
  unfold segsOf
  induction order with
  | nil => simp
  | cons b rest ih =>
      simp only [List.flatMap_cons, List.length_append, List.length_map, ih, List.length_cons]
      ring

theorem segsOf_getD (order : List Nat) (digit : Nat → Nat) (chunks : List (List Nat)) :
    ∀ (k w : Nat), k < order.length → w < chunks.length →
    (segsOf order digit chunks).getD (k * chunks.length + w) []
      = (chunks.getD w []).filter fun i => digit i == order.getD k 0 := by
  induction order with
  | nil =>
      intro k w hk _
      simp at hk
  | cons b rest ih =>
      intro k w hk hw
      cases k with
      | zero =>
          unfold segsOf
          simp only [List.flatMap_cons, Nat.zero_mul, Nat.zero_add]
          rw [List.getD_eq_getElem?_getD,
              List.getElem?_append_left (by simpa using hw), ← List.getD_eq_getElem?_getD]
          rw [List.getD_eq_getElem?_getD, List.getElem?_map, List.getElem?_eq_getElem hw]
          simp [List.getD_eq_getElem?_getD, List.getElem?_eq_getElem hw]
      | succ k2 =>
          have hk2 : k2 < rest.length := by simpa using Nat.lt_of_succ_lt_succ hk
          have harith : (k2 + 1) * chunks.length + w
              = chunks.length + (k2 * chunks.length + w) := by ring
          unfold segsOf
          simp only [List.flatMap_cons]
          rw [harith, List.getD_eq_getElem?_getD,
              List.getElem?_append_right (by simp)]
          simp only [List.length_map, Nat.add_sub_cancel_left]
          rw [← List.getD_eq_getElem?_getD]
          have := ih k2 w hk2 hw
          unfold segsOf at this
          rw [this]
          simp

theorem segsOf_flatten (order : List Nat) (digit : Nat → Nat) (chunks : List (List Nat)) :
    (segsOf order digit chunks).flatten = bucketSeq order digit chunks.flatten := by
  unfold segsOf bucketSeq
  induction order with
  | nil => rfl
  | cons b rest ih =>
      simp only [List.flatMap_cons, List.flatten_append]
      rw [ih]
      congr 1
      induction chunks with
      | nil => rfl
      | cons c cs ih2 => simp [List.filter_append, ih2]

theorem indexOf_getD_self {order : List Nat} {b : Nat} (h : b ∈ order) :
    order.getD (order.indexOf b) 0 = b := by
  have h1 : order.indexOf b < order.length := List.indexOf_lt_length.mpr h
  rw [List.getD_eq_getElem?_getD, List.getElem?_eq_getElem h1]
  simpa using List.indexOf_get h1

theorem getD_mem_of_lt {order : List Nat} {k : Nat} (hk : k < order.length) :
    order.getD k 0 ∈ order := by
  rw [List.getD_eq_getElem?_getD, List.getElem?_eq_getElem hk]
  exact List.getElem_mem hk

theorem mul_add_div_lt {i k W : Nat} (hW : 0 < W) (hk : k < W) :
    (i * W + k) / W = i ∧ (i * W + k) % W = k := by
  constructor
  · rw [Nat.mul_comm, Nat.mul_add_div hW, Nat.div_eq_of_lt hk, Nat.add_zero]
  · rw [Nat.mul_comm, Nat.mul_add_mod, Nat.mod_eq_of_lt hk]

/-- The chunked scatter with the bucket-major / worker-minor prefix-sum cursor
layout computes exactly one stable bucket pass over the concatenated input. -/
theorem multiScatter_eq_bucketSeq (order : List Nat) (digit : Nat → Nat)
    (chunks : List (List Nat)) (hW : 0 < chunks.length) (hnd : order.Nodup)
    (hcov : ∀ i ∈ chunks.flatten, digit i ∈ order) :
    multiScatterAux digit (fun w b => segStart order digit chunks b w) chunks 0
        (List.replicate chunks.flatten.length none)
      = (bucketSeq order digit chunks.flatten).map some := by
  set W := chunks.length with hWdef
  set segs := segsOf order digit chunks with hsegs
  set n := chunks.flatten.length with hn
  have hsegslen : segs.length = order.length * W := segsOf_length order digit chunks
  have htot : segs.flatten.length = n := by
    rw [hsegs, segsOf_flatten]
    exact bucketSeq_length hnd hcov
  -- counts inside single chunks
  have hchunkmem : ∀ k, k < W → ∀ i ∈ chunks.getD k [], i ∈ chunks.flatten := by
    intro k hk i hi
    apply List.mem_flatten.mpr
    refine ⟨chunks.getD k [], ?_, hi⟩
    rw [List.getD_eq_getElem?_getD, List.getElem?_eq_getElem hk]
    exact List.getElem_mem hk
  have hcnt0 : ∀ b, b ∉ order → ∀ k, k < W → cntd digit (chunks.getD k []) b = 0 := by
    intro b hb k hk
    have hfil : (chunks.getD k []).filter (fun i => digit i == b) = [] := by
      apply List.filter_eq_nil_iff.mpr
      intro i hi
      intro hdig
      have hi2 : i ∈ chunks.getD k [] := hi
      have hdb : digit i = b := by simpa using hdig
      have hmem : digit i ∈ order := hcov i (hchunkmem k hk i hi2)
      rw [hdb] at hmem
      exact hb hmem
    unfold cntd
    rw [hfil]
    rfl
  have hseg_id : ∀ b, b ∈ order → ∀ k, k < W →
      segs.getD (order.indexOf b * W + k) []
        = (chunks.getD k []).filter fun i => digit i == b := by
    intro b hb k hk
    have h1 : order.indexOf b < order.length := List.indexOf_lt_length.mpr hb
    have := segsOf_getD order digit chunks (order.indexOf b) k h1 hk
    rw [indexOf_getD_self hb] at this
    exact this
  have hseg_cnt : ∀ b, b ∈ order → ∀ k, k < W →
      (segs.getD (order.indexOf b * W + k) []).length = cntd digit (chunks.getD k []) b := by
    intro b hb k hk
    rw [hseg_id b hb k hk]
    rfl
  have hKlt : ∀ b, b ∈ order → ∀ k, k < W → order.indexOf b * W + k < segs.length := by
    intro b hb k hk
    have h1 : order.indexOf b < order.length := List.indexOf_lt_length.mpr hb
    rw [hsegslen]
    calc order.indexOf b * W + k < order.indexOf b * W + W := by omega
    _ = (order.indexOf b + 1) * W := by ring
    _ ≤ order.length * W := Nat.mul_le_mul_right W h1
  -- the boundary hypothesis of the chunked-scatter spec
  have hbound : ∀ k b, k < W →
      segStart order digit chunks b (0 + k) + cntd digit (chunks.getD k []) b
        ≤ (List.replicate n (none : Option Nat)).length := by
    intro k b hk
    rw [List.length_replicate, Nat.zero_add]
    by_cases hb : b ∈ order
    · rw [← hseg_cnt b hb k hk]
      unfold segStart
      rw [← layStart_succ]
      have h2 := layStart_mono segs (Nat.succ_le_of_lt (hKlt b hb k hk))
      rw [layStart_total segs (Nat.le_refl _)] at h2
      rw [htot] at h2
      exact h2
    · rw [hcnt0 b hb k hk, Nat.add_zero]
      unfold segStart
      have h1 : order.indexOf b = order.length := by
        rw [List.indexOf_eq_length]
        exact hb
      have h2 : segs.length ≤ order.indexOf b * W + k := by
        rw [hsegslen, h1]
        omega
      rw [layStart_total segs h2, htot]
  -- disjointness: distinct (bucket, worker) targets never overlap
  have hdisj : ∀ k k2 b b2, k < W → k2 < W → (k ≠ k2 ∨ b ≠ b2) →
      ∀ s, (segStart order digit chunks b (0 + k) ≤ s
            ∧ s < segStart order digit chunks b (0 + k) + cntd digit (chunks.getD k []) b) →
        ¬ (segStart order digit chunks b2 (0 + k2) ≤ s
            ∧ s < segStart order digit chunks b2 (0 + k2) + cntd digit (chunks.getD k2 []) b2) := by
    intro k k2 b b2 hk hk2 hne s hs hs2
    rw [Nat.zero_add] at hs hs2
    by_cases hb : b ∈ order
    · by_cases hb2 : b2 ∈ order
      · set K := order.indexOf b * W + k with hK
        set K2 := order.indexOf b2 * W + k2 with hK2
        have hKne : K ≠ K2 := by
          intro hEq
          have hdiv : K / W = order.indexOf b ∧ K % W = k := by
            rw [hK]
            exact mul_add_div_lt hW hk
          have hdiv2 : K2 / W = order.indexOf b2 ∧ K2 % W = k2 := by
            rw [hK2]
            exact mul_add_div_lt hW hk2
          have hkk : k = k2 := by
            rw [← hdiv.2, ← hdiv2.2, hEq]
          have hii : order.indexOf b = order.indexOf b2 := by
            rw [← hdiv.1, ← hdiv2.1, hEq]
          have hbb : b = b2 := by
            rw [← indexOf_getD_self hb, ← indexOf_getD_self hb2, hii]
          rcases hne with h | h
          · exact h hkk
          · exact h hbb
        have hr1 : layStart segs K ≤ s ∧ s < layStart segs K + (segs.getD K []).length := by
          rw [hseg_cnt b hb k hk]
          exact hs
        have hr2 : layStart segs K2 ≤ s ∧ s < layStart segs K2 + (segs.getD K2 []).length := by
          rw [hseg_cnt b2 hb2 k2 hk2]
          exact hs2
        rcases Nat.lt_or_ge K K2 with hlt | hge
        · have := layStart_disjoint segs hlt
          omega
        · have hlt2 : K2 < K := by omega
          have := layStart_disjoint segs hlt2
          omega
      · rw [hcnt0 b2 hb2 k2 hk2] at hs2
        omega
    · rw [hcnt0 b hb k hk] at hs
      omega
  obtain ⟨hlen, hreg, _⟩ := multiScatterAux_spec digit
    (fun w b => segStart order digit chunks b w) chunks 0
    (List.replicate n none)
    (by intro k b hk
        have := hbound k b hk
        simpa using this)
    (by intro k k2 b b2 hk hk2 hne s h1 h2
        exact hdisj k k2 b b2 hk hk2 hne s h1 h2)
  have hfinal : multiScatterAux digit (fun w b => segStart order digit chunks b w) chunks 0
      (List.replicate n none) = segs.flatten.map some := by
    apply layAssemble
    · rw [hlen, List.length_replicate, htot]
    · intro K j hK hj
      set k := K / W with hk
      set w := K % W with hw
      have hwlt : w < W := Nat.mod_lt K hW
      have hklt : k < order.length := by
        rw [hk]
        apply Nat.div_lt_of_lt_mul
        rw [Nat.mul_comm]
        rw [hsegslen] at hK
        exact hK
      set b := order.getD k 0 with hb
      have hbmem : b ∈ order := getD_mem_of_lt hklt
      have hidx : order.indexOf b = k := by
        rw [hb]
        have : order.getD k 0 = order[k] := by
          rw [List.getD_eq_getElem?_getD, List.getElem?_eq_getElem hklt]
          rfl
        rw [this]
        exact List.indexOf_getElem hnd k hklt
      have hKdec : K = order.indexOf b * W + w := by
        rw [hidx, hk, hw, Nat.mul_comm]
        exact (Nat.div_add_mod K W).symm
      have hj2 : j < cntd digit (chunks.getD w []) b := by
        rw [← hseg_cnt b hbmem w hwlt, ← hKdec]
        exact hj
      have := hreg w b j hwlt hj2
      rw [Nat.zero_add] at this
      have hstart : segStart order digit chunks b w = layStart segs K := by
        unfold segStart
        rw [← hKdec]
      rw [hstart] at this
      rw [this, hKdec, hseg_id b hbmem w hwlt]
  rw [hfinal, hsegs, segsOf_flatten]

/-! ### Sort passes -/

/-- Reading the fully written output array back as a plain index vector. -/
def fromSome (l : List (Option Nat)) : List Nat :=
  l.map fun o => o.getD 0

/-- One full counting/radix pass: histogram, prefix-sum cursor layout,
chunked scatter, read back. -/
def sortPass (order : List Nat) (digit : Nat → Nat) (chunks : List (List Nat)) : List Nat :=
  fromSome (multiScatterAux digit (fun w b => segStart order digit chunks b w) chunks 0
    (List.replicate chunks.flatten.length none))

theorem sortPass_eq (order : List Nat) (digit : Nat → Nat) (chunks : List (List Nat))
    (hW : 0 < chunks.length) (hnd : order.Nodup)
    (hcov : ∀ i ∈ chunks.flatten, digit i ∈ order) :
    sortPass order digit chunks = bucketSeq order digit chunks.flatten := by
  unfold sortPass fromSome
  rw [multiScatter_eq_bucketSeq order digit chunks hW hnd hcov]
  simp [List.map_map, Function.comp_def]

/-- Split `xs` into `n` chunks: `n - 1` chunks of `chunk` elements, the last
chunk takes the remainder (the `pool_map` split, src/core/pool.c:630-653). -/
def chunksOf (xs : List Nat) (chunk : Nat) : Nat → List (List Nat)
  | 0 => [xs]
  | 1 => [xs]
  | n + 1 => xs.take chunk :: chunksOf (xs.drop chunk) chunk n

theorem chunksOf_flatten (xs : List Nat) (chunk : Nat) : ∀ n, (chunksOf xs chunk n).flatten = xs := by
  intro n
  induction n generalizing xs with
  | zero => simp [chunksOf]
  | succ n2 ih =>
      cases n2 with
      | zero => simp [chunksOf]
      | succ n3 =>
          show (xs.take chunk :: chunksOf (xs.drop chunk) chunk (n3 + 1)).flatten = xs
          rw [List.flatten_cons, ih]
          exact List.take_append_drop chunk xs

theorem chunksOf_length_pos (xs : List Nat) (chunk : Nat) : ∀ n, 0 < (chunksOf xs chunk n).length := by
  intro n
  cases n with
  | zero => simp [chunksOf]
  | succ n2 =>
      cases n2 with
      | zero => simp [chunksOf]
      | succ n3 =>
          show 0 < (xs.take chunk :: chunksOf (xs.drop chunk) chunk (n3 + 1)).length
          simp

/-! ### Stability composition for multi-pass radix sort -/

/-- Stable order by `key` modulo `M`: smaller residue first; equal residues
keep index order. -/
def modOrd (key : Nat → Nat) (M : Nat) (i j : Nat) : Prop :=
  key i % M < key j % M ∨ (key i % M = key j % M ∧ i < j)

theorem modOrd_one (key : Nat → Nat) (i j : Nat) (h : i < j) : modOrd key 1 i j := by
  right
  simp [Nat.mod_one, h]

/-- One stable pass on digit `key / M % 2^w` refines `modOrd key M` into
`modOrd key (M * 2^w)`. -/
theorem pass_pairwise (key : Nat → Nat) (M w : Nat) (hM : 0 < M) (xs : List Nat)
    (hxs : xs.Pairwise (modOrd key M)) :
    (bucketSeq (List.range (2 ^ w)) (fun i => key i / M % 2 ^ w) xs).Pairwise
      (modOrd key (M * 2 ^ w)) := by
  have h := @bucketSeq_pairwise (List.range (2 ^ w)) (fun i => key i / M % 2 ^ w) xs
    (modOrd key M) (fun a b => a < b) hxs (List.pairwise_lt_range (2 ^ w))
  apply h.imp
  intro i j hij
  dsimp only at hij
  have hmodi : key i % (M * 2 ^ w) = key i % M + M * (key i / M % 2 ^ w) := Nat.mod_mul
  have hmodj : key j % (M * 2 ^ w) = key j % M + M * (key j / M % 2 ^ w) := Nat.mod_mul
  have hib : key i % M < M := Nat.mod_lt _ hM
  rcases hij with hlt | ⟨heq, hr⟩
  · -- strictly earlier bucket
    left
    rw [hmodi, hmodj]
    calc key i % M + M * (key i / M % 2 ^ w) < M + M * (key i / M % 2 ^ w) := by omega
    _ = M * (key i / M % 2 ^ w + 1) := by ring
    _ ≤ M * (key j / M % 2 ^ w) := Nat.mul_le_mul_left M (by omega)
    _ ≤ key j % M + M * (key j / M % 2 ^ w) := by omega
  · -- same bucket: previous order decides
    rcases hr with hlt2 | ⟨heq2, hij2⟩
    · left
      rw [hmodi, hmodj, heq]
      omega
    · right
      constructor
      · rw [hmodi, hmodj, heq, heq2]
      · exact hij2

theorem pass_perm (key : Nat → Nat) (M w : Nat) (hw : 0 < 2 ^ w) (xs : List Nat) :
    List.Perm (bucketSeq (List.range (2 ^ w)) (fun i => key i / M % 2 ^ w) xs) xs :=
  bucketSeq_perm (List.nodup_range (2 ^ w)) fun i _ => List.mem_range.mpr (Nat.mod_lt _ hw)

/-- A sorted list under the final `modOrd` is non-decreasing in `key` once the
modulus covers the key range. -/
theorem modOrd_le (key : Nat → Nat) (M : Nat) {i j : Nat}
    (hi : key i < M) (hj : key j < M) (h : modOrd key M i j) : key i ≤ key j := by
  rcases h with h | ⟨h, _⟩
  · rw [Nat.mod_eq_of_lt hi, Nat.mod_eq_of_lt hj] at h
    omega
  · rw [Nat.mod_eq_of_lt hi, Nat.mod_eq_of_lt hj] at h
    omega

/-- LSB-first chain of radix passes with `w`-bit digits of `key`; pass `p`
sorts on digit `key / 2^(w*p) % 2^w`.  `chunksFor` is the chunk decomposition
each pass uses (one chunk for the serial sorts, the pool split for the
parallel ones). -/
def radixPasses (key : Nat → Nat) (w : Nat) (chunksFor : Nat → List Nat → List (List Nat)) :
    Nat → List Nat → List Nat
  | 0, xs => xs
  | p + 1, xs =>
      sortPass (List.range (2 ^ w)) (fun i => key i / 2 ^ (w * p) % 2 ^ w)
        (chunksFor p (radixPasses key w chunksFor p xs))

theorem radixPasses_perm (key : Nat → Nat) (w : Nat)
    (chunksFor : Nat → List Nat → List (List Nat))
    (hc : ∀ p xs, (chunksFor p xs).flatten = xs ∧ 0 < (chunksFor p xs).length) :
    ∀ (P : Nat) (xs : List Nat), List.Perm (radixPasses key w chunksFor P xs) xs := by
  intro P
  induction P with
  | zero => intro xs; exact List.Perm.refl xs
  | succ p ih =>
      intro xs
      show List.Perm (sortPass (List.range (2 ^ w)) (fun i => key i / 2 ^ (w * p) % 2 ^ w)
        (chunksFor p (radixPasses key w chunksFor p xs))) xs
      rw [sortPass_eq _ _ _ (hc p _).2 (List.nodup_range (2 ^ w))
        (fun i _ => List.mem_range.mpr (Nat.mod_lt _ (Nat.pos_pow_of_pos w (by omega))))]
      rw [(hc p _).1]
      exact (pass_perm key (2 ^ (w * p)) w (Nat.pos_pow_of_pos w (by omega)) _).trans (ih xs)

theorem radixPasses_pairwise (key : Nat → Nat) (w : Nat)
    (chunksFor : Nat → List Nat → List (List Nat))
    (hc : ∀ p xs, (chunksFor p xs).flatten = xs ∧ 0 < (chunksFor p xs).length) :
    ∀ (P : Nat) (xs : List Nat), xs.Pairwise (modOrd key 1) →
      (radixPasses key w chunksFor P xs).Pairwise (modOrd key (2 ^ (w * P))) := by
  intro P
  induction P with
  | zero =>
      intro xs hxs
      simpa [Nat.mul_zero, pow_zero] using hxs
  | succ p ih =>
      intro xs hxs
      show (sortPass (List.range (2 ^ w)) (fun i => key i / 2 ^ (w * p) % 2 ^ w)
        (chunksFor p (radixPasses key w chunksFor p xs))).Pairwise _
      rw [sortPass_eq _ _ _ (hc p _).2 (List.nodup_range (2 ^ w))
        (fun i _ => List.mem_range.mpr (Nat.mod_lt _ (Nat.pos_pow_of_pos w (by omega))))]
      rw [(hc p _).1]
      have hstep := pass_pairwise key (2 ^ (w * p)) w (Nat.pos_pow_of_pos (w * p) (by omega))
        (radixPasses key w chunksFor p xs) (ih xs hxs)
      have hmul : 2 ^ (w * p) * 2 ^ w = 2 ^ (w * (p + 1)) := by
        rw [← pow_add]
        ring_nf
      rw [hmul] at hstep
      exact hstep

/-- The full radix chain started on the identity permutation sorts the indices
`0, …, n-1` stably by `key` as soon as `w*P` bits cover the key range. -/
theorem radixPasses_sorted (key : Nat → Nat) (w : Nat)
    (chunksFor : Nat → List Nat → List (List Nat))
    (hc : ∀ p xs, (chunksFor p xs).flatten = xs ∧ 0 < (chunksFor p xs).length)
    (P n : Nat) (hkey : ∀ i, i < n → key i < 2 ^ (w * P)) :
    (radixPasses key w chunksFor P (List.range n)).Pairwise
      (fun i j => key i < key j ∨ (key i = key j ∧ i < j)) := by
  have h0 : (List.range n).Pairwise (modOrd key 1) := by
    apply (List.pairwise_lt_range n).imp
    intro i j hij
    exact modOrd_one key i j hij
  have h1 := radixPasses_pairwise key w chunksFor hc P (List.range n) h0
  have hmem : ∀ i ∈ radixPasses key w chunksFor P (List.range n), i < n := by
    intro i hi
    have := (radixPasses_perm key w chunksFor hc P (List.range n)).mem_iff.mp hi
    exact List.mem_range.mp this
  apply List.Pairwise.imp_of_mem ?_ h1
  intro a b ha hb hab
  rcases hab with h | ⟨h, h2⟩
  · left
    rw [Nat.mod_eq_of_lt (hkey a (hmem a ha)), Nat.mod_eq_of_lt (hkey b (hmem b hb))] at h
    exact h
  · right
    rw [Nat.mod_eq_of_lt (hkey a (hmem a ha)), Nat.mod_eq_of_lt (hkey b (hmem b hb))] at h
    exact ⟨h, h2⟩

/-! ### Embedding of src/core/sort.c

Vectors are lists of `Int` (for F64 the entry is the IEEE-754 bit pattern,
`0 ≤ p < 2^64`).  Sorting functions return the permutation as a list of row
indices.  The `pos` cursor arrays built by the C histogram / prefix-sum loops
are represented by `segStart` (the closed form of those prefix sums), and the
scatter loops by `scatterRun` / `multiScatterAux` via `sortPass`. -/

/-- Sort thresholds (src/core/sort.c:36-45). -/
def SMALL_VEC_THRESHOLD : Nat := 128 * 1024

/-- Modelled from the spec: `RAY_PAGE_SIZE` lives in rayforce.h which is not
under src; §4.5 speaks of pages and the usual page size, 4096 bytes. -/
def RAY_PAGE_SIZE : Nat := 4096

def PARALLEL_SORT_THRESHOLD_U8 : Nat := 16 * RAY_PAGE_SIZE

def PARALLEL_COUNTING_SORT_THRESHOLD : Nat := 512 * 1024

def PARALLEL_RADIX_SORT_THRESHOLD : Nat := 768 * 1024

def COUNTING_SORT_MAX_RANGE_I32 : Int := 512 * 1024

def COUNTING_SORT_MAX_RANGE_I64 : Int := 512 * 1024

/-- Modelled from the spec: the NULL sentinels (§3, "Each has a sentinel NULL
(e.g. I64 MIN)"); rayforce.h is not under src. -/
def NULL_I64 : Int := -(2 ^ 63)

def NULL_I32 : Int := -(2 ^ 31)

def NULL_I16 : Int := -(2 ^ 15)

/-- Modelled from the spec: attribute bits ASC/DESC/DISTINCT/PARTED (§3);
their numeric values are not observable through the claims, only bit tests. -/
def ATTR_ASC : Nat := 1

def ATTR_DESC : Nat := 2

def ATTR_DISTINCT : Nat := 4

def ATTR_PARTED : Nat := 8

/-- The worker pool as seen by the sort/aggregation code: the executor count
and whether the caller is already inside a parallel run (src/core/pool.c). -/
structure PoolCfg where
  executors : Nat
  rcSync : Bool

def POOL_SPLIT_THRESHOLD : Nat := RAY_PAGE_SIZE * 4

def GROUP_SPLIT_THRESHOLD : Nat := 100000

/-- Embedding of pool_split_by (src/core/pool.c:594-605). -/
def pool_split_by (cfg : PoolCfg) (inputLen groupsLen : Nat) : Nat :=
  if inputLen < POOL_SPLIT_THRESHOLD then 1
  else if cfg.rcSync then 1
  else if inputLen ≤ cfg.executors then 1
  else if GROUP_SPLIT_THRESHOLD ≤ groupsLen then 1
  else cfg.executors

/-- Embedding of pool_get_executors_count (src/core/pool.c:607-612). -/
def pool_get_executors_count (cfg : PoolCfg) : Nat :=
  cfg.executors

/-- Vector element kinds covered by the sort embedding: B8/U8/C8 share byte
storage, DATE/TIME share I32, TIMESTAMP shares I64 (src/core/sort.c:2171-2196).
SYMBOL, LIST and DICT are not embedded: their comparison goes through the
interned-string table and polymorphic compare, which are not under src. -/
inductive VKind where
  | KU8
  | KI16
  | KI32
  | KI64
  | KF64
deriving DecidableEq

/-- A typed vector: kind, payload and attribute bits. -/
structure RVec where
  kind : VKind
  data : List Int
  attrs : Nat

/-- A sort result: the permutation and the attribute bits the C sets on it. -/
structure SortRes where
  idx : List Nat
  attrs : Nat
deriving DecidableEq

/-- The biased key the radix/counting code uses for i64: the C XORs the sign
bit of the two's-complement bit pattern (`^ 0x8000000000000000`), which for an
i64 value x equals x + 2^63. -/
def key64 (x : Int) : Nat :=
  (x + 2 ^ 63).toNat

/-- Sign-bit-flipped key for i32 (`^ 0x80000000`). -/
def key32 (x : Int) : Nat :=
  (x + 2 ^ 31).toNat

/-- Sign-bit-flipped key for i16 (`^ 0x8000`, src/core/sort.c:322). -/
def key16 (x : Int) : Nat :=
  (x + 2 ^ 15).toNat

/-- NaN test on an IEEE-754 double bit pattern: exponent all ones and nonzero
mantissa (`ISNANF64`, declared in rayforce.h). -/
def ISNANF64 (p : Nat) : Bool :=
  decide (p / 2 ^ 52 % 2 ^ 11 = 2 ^ 11 - 1) && decide (p % 2 ^ 52 ≠ 0)

/-- Embedding of f64_to_sortable_u64 (src/core/sort.c:2027-2046): NaNs map to
0 and sort first; negative values have all bits inverted, others get the sign
bit set. -/
def f64_to_sortable_u64 (p : Nat) : Nat :=
  if ISNANF64 p then 0
  else if 2 ^ 63 ≤ p then 2 ^ 64 - 1 - p
  else p + 2 ^ 63

/-- Min/max/null summary of a column.  Modelled from the spec: index.c /
index.h are not under src (only sort.c calls `index_scope_i32/i64`); §4.4
dispatches on the value range and keeps "a dedicated null partition", so the
scope is the minimum and maximum over the non-null values, their range
max-min+1, and the null count. -/
structure IndexScope where
  min : Int
  range : Int
  nullCount : Nat

def index_scope (nullv : Int) (data : List Int) : IndexScope :=
  let nn := data.filter fun v => !(v == nullv)
  match nn with
  | [] => ⟨0, 0, data.length⟩
  | x :: rest =>
      ⟨rest.foldl min x, rest.foldl max x - rest.foldl min x + 1,
       (data.filter fun v => v == nullv).length⟩

/-- One chunk: the decomposition the serial sorts use. -/
def serialCf : Nat → List Nat → List (List Nat) :=
  fun _ xs => [xs]

/-- The pool_map chunking: `n` chunks of `len / n` rows, remainder in the
last chunk (src/core/pool.c:630-653). -/
def poolCf (cfg : PoolCfg) (len : Nat) : Nat → List Nat → List (List Nat) :=
  fun _ xs => chunksOf xs (len / pool_split_by cfg len 0) (pool_split_by cfg len 0)

/-- A pass whose cursor layout is computed from one bucket mapping but whose
scatter indexes the cursors with another; the correct passes use the same
mapping for both (`sortPass`), the i32/radix parallel descending scatters do
not (see `parallel_counting_sort_i32`). -/
def mismatchPass (ordLay : List Nat) (dgLay dgSc : Nat → Nat)
    (chunks : List (List Nat)) : List Nat :=
  fromSome (multiScatterAux dgSc (fun w b => segStart ordLay dgLay chunks b w) chunks 0
    (List.replicate chunks.flatten.length none))

/-! #### u8 -/

def dgU8 (data : List Int) (i : Nat) : Nat :=
  (data.getD i 0).toNat

/-- Embedding of parallel_counting_sort_u8 (src/core/sort.c:238-295): chunked
histograms, bucket-major/worker-minor prefix layout (ascending buckets for
asc > 0, descending for desc), chunked scatter. -/
def parallel_counting_sort_u8 (cfg : PoolCfg) (data : List Int) (asc : Bool) : List Nat :=
  let len := data.length
  let n := pool_split_by cfg len 0
  let chunks := chunksOf (List.range len) (len / n) n
  sortPass (if asc then List.range 256 else (List.range 256).reverse) (dgU8 data) chunks

/-- Embedding of ray_sort_asc_u8 (src/core/sort.c:479-501): one counting pass
over 256 buckets; parallel variant above the threshold. -/
def ray_sort_asc_u8 (cfg : PoolCfg) (data : List Int) : List Nat :=
  let len := data.length
  if PARALLEL_SORT_THRESHOLD_U8 ≤ len then parallel_counting_sort_u8 cfg data true
  else sortPass (List.range 256) (dgU8 data) [List.range len]

/-- Embedding of ray_sort_desc_u8 (src/core/sort.c:2199-2221): suffix-sum
cursor layout, i.e. the buckets in descending order. -/
def ray_sort_desc_u8 (cfg : PoolCfg) (data : List Int) : List Nat :=
  let len := data.length
  if PARALLEL_SORT_THRESHOLD_U8 ≤ len then parallel_counting_sort_u8 cfg data false
  else sortPass ((List.range 256).reverse) (dgU8 data) [List.range len]

/-! #### i16 -/

def dg16 (data : List Int) (i : Nat) : Nat :=
  key16 (data.getD i 0)

/-- Embedding of parallel_counting_sort_i16 (src/core/sort.c:375-477): 65536
value buckets plus a separate null partition; nulls go first ascending and
last descending. -/
def parallel_counting_sort_i16 (cfg : PoolCfg) (data : List Int) (asc : Bool) : List Nat :=
  let len := data.length
  let n := pool_split_by cfg len 0
  let chunks := chunksOf (List.range len) (len / n) n
  if asc then
    sortPass (List.range 65537)
      (fun i => if data.getD i 0 == NULL_I16 then 0 else dg16 data i + 1) chunks
  else
    sortPass ((List.range 65536).reverse ++ [65536])
      (fun i => if data.getD i 0 == NULL_I16 then 65536 else dg16 data i) chunks

/-- Embedding of ray_sort_asc_i16 (src/core/sort.c:503-562): parallel
counting above 512k, one 65536-bucket counting pass for medium arrays
(the null sentinel is the smallest i16 and lands in bucket 0), and a
2-pass 8-bit LSB radix sort for small arrays. -/
def ray_sort_asc_i16 (cfg : PoolCfg) (data : List Int) : List Nat :=
  let len := data.length
  if PARALLEL_COUNTING_SORT_THRESHOLD ≤ len then parallel_counting_sort_i16 cfg data true
  else if SMALL_VEC_THRESHOLD ≤ len then
    sortPass (List.range 65536) (dg16 data) [List.range len]
  else
    radixPasses (dg16 data) 8 serialCf 2 (List.range len)

/-- Descending chain of radix passes: the C desc radix passes keep the digit
but lay the buckets out with suffix sums, i.e. in descending bucket order
(e.g. src/core/sort.c:2249-2280). -/
def radixPassesRev (key : Nat → Nat) (w : Nat) (chunksFor : Nat → List Nat → List (List Nat)) :
    Nat → List Nat → List Nat
  | 0, xs => xs
  | p + 1, xs =>
      sortPass ((List.range (2 ^ w)).reverse) (fun i => key i / 2 ^ (w * p) % 2 ^ w)
        (chunksFor p (radixPassesRev key w chunksFor p xs))

/-- Descending chain of radix passes in the complemented-digit style: the C
writes bucket `2^w - 1 - digit` with an ascending prefix-sum layout
(e.g. src/core/sort.c:1438-1548). -/
def radixPassesCompl (key : Nat → Nat) (w : Nat) (chunksFor : Nat → List Nat → List (List Nat)) :
    Nat → List Nat → List Nat
  | 0, xs => xs
  | p + 1, xs =>
      sortPass (List.range (2 ^ w)) (fun i => 2 ^ w - 1 - key i / 2 ^ (w * p) % 2 ^ w)
        (chunksFor p (radixPassesCompl key w chunksFor p xs))

/-- Embedding of ray_sort_desc_i16 (src/core/sort.c:2223-2281). -/
def ray_sort_desc_i16 (cfg : PoolCfg) (data : List Int) : List Nat :=
  let len := data.length
  if PARALLEL_COUNTING_SORT_THRESHOLD ≤ len then parallel_counting_sort_i16 cfg data false
  else if SMALL_VEC_THRESHOLD ≤ len then
    sortPass ((List.range 65536).reverse) (dg16 data) [List.range len]
  else
    radixPassesRev (dg16 data) 8 serialCf 2 (List.range len)

/-! #### i32 -/

def dg32 (data : List Int) (i : Nat) : Nat :=
  key32 (data.getD i 0)

/-- Embedding of counting_sort_asc_i32 (src/core/sort.c:565-598): nulls go to
the leading `null_count` slots, value `v` to bucket `v - min` laid out after
them in ascending order. -/
def counting_sort_asc_i32 (data : List Int) (minv : Int) (rng : Nat) : List Nat :=
  sortPass (List.range (rng + 1))
    (fun i => if data.getD i 0 == NULL_I32 then 0 else (data.getD i 0 - minv + 1).toNat)
    [List.range data.length]

/-- Embedding of counting_sort_desc_i32 (src/core/sort.c:601-634): value `v`
goes to bucket `max - v` (so values descend), nulls to the trailing slots. -/
def counting_sort_desc_i32 (data : List Int) (minv : Int) (rng : Nat) : List Nat :=
  sortPass (List.range (rng + 1))
    (fun i => if data.getD i 0 == NULL_I32 then rng
              else (minv + (rng : Int) - 1 - data.getD i 0).toNat)
    [List.range data.length]

/-- Embedding of radix8_sort_asc_i32 (src/core/sort.c:637-700): 4 stable
8-bit passes over the sign-flipped pattern. -/
def radix8_sort_asc_i32 (data : List Int) : List Nat :=
  radixPasses (dg32 data) 8 serialCf 4 (List.range data.length)

/-- Embedding of radix8_sort_desc_i32 (src/core/sort.c:703-767): 4 passes on
the complemented digit `255 - d`. -/
def radix8_sort_desc_i32 (data : List Int) : List Nat :=
  radixPassesCompl (dg32 data) 8 serialCf 4 (List.range data.length)

/-- Embedding of radix16_sort_asc_i32 (src/core/sort.c:770-808): 2 stable
16-bit passes. -/
def radix16_sort_asc_i32 (data : List Int) : List Nat :=
  radixPasses (dg32 data) 16 serialCf 2 (List.range data.length)

/-- Embedding of radix16_sort_desc_i32 (src/core/sort.c:811-849): 2 passes on
the complemented digit `65535 - d`. -/
def radix16_sort_desc_i32 (data : List Int) : List Nat :=
  radixPassesCompl (dg32 data) 16 serialCf 2 (List.range data.length)

/-- Embedding of parallel_counting_sort_i32 (src/core/sort.c:855-1021).
Ascending: nulls first (bucket 0), then value buckets `v - min + 1` in
ascending order — cursor layout and scatter agree.  Descending: the histogram
and cursor layout use the unreflected bucket `v - min` (prefix-summed in
descending bucket order, nulls last), but the scatter loop
(src/core/sort.c:917) indexes the cursors with the reflected bucket
`range - 1 - (v - min)` — layout and scatter use different bucket maps. -/
def parallel_counting_sort_i32 (cfg : PoolCfg) (data : List Int) (minv : Int)
    (rng : Nat) (asc : Bool) : List Nat :=
  let len := data.length
  let n := pool_split_by cfg len 0
  let chunks := chunksOf (List.range len) (len / n) n
  if asc then
    sortPass (List.range (rng + 1))
      (fun i => if data.getD i 0 == NULL_I32 then 0 else (data.getD i 0 - minv + 1).toNat)
      chunks
  else
    mismatchPass ((List.range rng).reverse ++ [rng])
      (fun i => if data.getD i 0 == NULL_I32 then rng else (data.getD i 0 - minv).toNat)
      (fun i => if data.getD i 0 == NULL_I32 then rng else rng - 1 - (data.getD i 0 - minv).toNat)
      chunks

/-- Embedding of parallel_radix16_sort_i32 (src/core/sort.c:1101-1206).  The
per-pass worker histograms always count the plain digit
(src/core/sort.c:1054-1063); ascending scatters agree with that layout, but
the descending scatters index the cursors with the reflected bucket
`65535 - digit` (src/core/sort.c:1084, 1094). -/
def parallel_radix16_sort_i32_chain (cfg : PoolCfg) (data : List Int) (asc : Bool) :
    Nat → List Nat → List Nat
  | 0, xs => xs
  | p + 1, xs =>
      let prev := parallel_radix16_sort_i32_chain cfg data asc p xs
      let chunks := poolCf cfg data.length p prev
      if asc then
        sortPass (List.range 65536) (fun i => dg32 data i / 2 ^ (16 * p) % 65536) chunks
      else
        mismatchPass (List.range 65536) (fun i => dg32 data i / 2 ^ (16 * p) % 65536)
          (fun i => 65535 - dg32 data i / 2 ^ (16 * p) % 65536) chunks

def parallel_radix16_sort_i32 (cfg : PoolCfg) (data : List Int) (asc : Bool) : List Nat :=
  parallel_radix16_sort_i32_chain cfg data asc 2 (List.range data.length)

/-- Embedding of ray_sort_asc_i32 (src/core/sort.c:1208-1228). -/
def ray_sort_asc_i32 (cfg : PoolCfg) (data : List Int) : List Nat :=
  let len := data.length
  let scope := index_scope NULL_I32 data
  if len < SMALL_VEC_THRESHOLD then
    if scope.range ≤ COUNTING_SORT_MAX_RANGE_I32 then
      counting_sort_asc_i32 data scope.min scope.range.toNat
    else radix8_sort_asc_i32 data
  else
    let nw := pool_get_executors_count cfg
    if scope.range ≤ COUNTING_SORT_MAX_RANGE_I32 ∨ scope.range ≤ (len : Int) / (nw : Int) then
      parallel_counting_sort_i32 cfg data scope.min scope.range.toNat true
    else if len < PARALLEL_RADIX_SORT_THRESHOLD then radix16_sort_asc_i32 data
    else parallel_radix16_sort_i32 cfg data true

/-- Embedding of ray_sort_desc_i32 (src/core/sort.c:2283-2303). -/
def ray_sort_desc_i32 (cfg : PoolCfg) (data : List Int) : List Nat :=
  let len := data.length
  let scope := index_scope NULL_I32 data
  if len < SMALL_VEC_THRESHOLD then
    if scope.range ≤ COUNTING_SORT_MAX_RANGE_I32 then
      counting_sort_desc_i32 data scope.min scope.range.toNat
    else radix8_sort_desc_i32 data
  else
    let nw := pool_get_executors_count cfg
    if scope.range ≤ COUNTING_SORT_MAX_RANGE_I32 ∨ scope.range ≤ (len : Int) / (nw : Int) then
      parallel_counting_sort_i32 cfg data scope.min scope.range.toNat false
    else if len < PARALLEL_RADIX_SORT_THRESHOLD then radix16_sort_desc_i32 data
    else parallel_radix16_sort_i32 cfg data false

/-! #### i64 -/

def dg64 (data : List Int) (i : Nat) : Nat :=
  key64 (data.getD i 0)

/-- Embedding of counting_sort_asc_i64 (src/core/sort.c:1234-1276): nulls
first, then value buckets `v - min` ascending. -/
def counting_sort_asc_i64 (data : List Int) (minv : Int) (rng : Nat) : List Nat :=
  sortPass (List.range (rng + 1))
    (fun i => if data.getD i 0 == NULL_I64 then 0 else (data.getD i 0 - minv + 1).toNat)
    [List.range data.length]

/-- Embedding of counting_sort_desc_i64 (src/core/sort.c:1278-1320): value
buckets `v - min` laid out by a descending prefix sum, nulls last. -/
def counting_sort_desc_i64 (data : List Int) (minv : Int) (rng : Nat) : List Nat :=
  sortPass ((List.range rng).reverse ++ [rng])
    (fun i => if data.getD i 0 == NULL_I64 then rng else (data.getD i 0 - minv).toNat)
    [List.range data.length]

/-- Embedding of radix8_sort_asc_i64 (src/core/sort.c:1326-1436): 8 stable
8-bit passes. -/
def radix8_sort_asc_i64 (data : List Int) : List Nat :=
  radixPasses (dg64 data) 8 serialCf 8 (List.range data.length)

/-- Embedding of radix8_sort_desc_i64 (src/core/sort.c:1438-1548): 8 passes
on the complemented digit. -/
def radix8_sort_desc_i64 (data : List Int) : List Nat :=
  radixPassesCompl (dg64 data) 8 serialCf 8 (List.range data.length)

/-- Embedding of radix16_sort_asc_i64 (src/core/sort.c:1554-1625): 4 stable
16-bit passes. -/
def radix16_sort_asc_i64 (data : List Int) : List Nat :=
  radixPasses (dg64 data) 16 serialCf 4 (List.range data.length)

/-- Embedding of radix16_sort_desc_i64 (src/core/sort.c:1627-1697): 4 passes
on the complemented digit `65535 - d`. -/
def radix16_sort_desc_i64 (data : List Int) : List Nat :=
  radixPassesCompl (dg64 data) 16 serialCf 4 (List.range data.length)

/-- Embedding of parallel_counting_sort_i64 (src/core/sort.c:1703-1859):
bucket `v - min` for both layout and scatter (unlike i32, no reflection);
ascending lays nulls first then buckets ascending, descending lays buckets
by the descending prefix sum and nulls last. -/
def parallel_counting_sort_i64 (cfg : PoolCfg) (data : List Int) (minv : Int)
    (rng : Nat) (asc : Bool) : List Nat :=
  let len := data.length
  let n := pool_split_by cfg len 0
  let chunks := chunksOf (List.range len) (len / n) n
  if asc then
    sortPass (List.range (rng + 1))
      (fun i => if data.getD i 0 == NULL_I64 then 0 else (data.getD i 0 - minv + 1).toNat)
      chunks
  else
    sortPass ((List.range rng).reverse ++ [rng])
      (fun i => if data.getD i 0 == NULL_I64 then rng else (data.getD i 0 - minv).toNat)
      chunks

/-- Embedding of parallel_radix16_sort_i64 (src/core/sort.c:1940-2024): like
the i32 version, the descending scatter reflects the bucket while the
histogram layout does not (src/core/sort.c:1922, 1933). -/
def parallel_radix16_sort_i64_chain (cfg : PoolCfg) (data : List Int) (asc : Bool) :
    Nat → List Nat → List Nat
  | 0, xs => xs
  | p + 1, xs =>
      let prev := parallel_radix16_sort_i64_chain cfg data asc p xs
      let chunks := poolCf cfg data.length p prev
      if asc then
        sortPass (List.range 65536) (fun i => dg64 data i / 2 ^ (16 * p) % 65536) chunks
      else
        mismatchPass (List.range 65536) (fun i => dg64 data i / 2 ^ (16 * p) % 65536)
          (fun i => 65535 - dg64 data i / 2 ^ (16 * p) % 65536) chunks

def parallel_radix16_sort_i64 (cfg : PoolCfg) (data : List Int) (asc : Bool) : List Nat :=
  parallel_radix16_sort_i64_chain cfg data asc 4 (List.range data.length)

/-- Embedding of ray_sort_asc_i64 (src/core/sort.c:2048-2068). -/
def ray_sort_asc_i64 (cfg : PoolCfg) (data : List Int) : List Nat :=
  let len := data.length
  let scope := index_scope NULL_I64 data
  if len < SMALL_VEC_THRESHOLD then
    if scope.range ≤ COUNTING_SORT_MAX_RANGE_I64 then
      counting_sort_asc_i64 data scope.min scope.range.toNat
    else radix8_sort_asc_i64 data
  else
    let nw := pool_get_executors_count cfg
    if scope.range ≤ COUNTING_SORT_MAX_RANGE_I64 ∨ scope.range ≤ (len : Int) / (nw : Int) then
      parallel_counting_sort_i64 cfg data scope.min scope.range.toNat true
    else if len < PARALLEL_RADIX_SORT_THRESHOLD then radix16_sort_asc_i64 data
    else parallel_radix16_sort_i64 cfg data true

/-- Embedding of ray_sort_desc_i64 (src/core/sort.c:2305-2325). -/
def ray_sort_desc_i64 (cfg : PoolCfg) (data : List Int) : List Nat :=
  let len := data.length
  let scope := index_scope NULL_I64 data
  if len < SMALL_VEC_THRESHOLD then
    if scope.range ≤ COUNTING_SORT_MAX_RANGE_I64 then
      counting_sort_desc_i64 data scope.min scope.range.toNat
    else radix8_sort_desc_i64 data
  else
    let nw := pool_get_executors_count cfg
    if scope.range ≤ COUNTING_SORT_MAX_RANGE_I64 ∨ scope.range ≤ (len : Int) / (nw : Int) then
      parallel_counting_sort_i64 cfg data scope.min scope.range.toNat false
    else if len < PARALLEL_RADIX_SORT_THRESHOLD then radix16_sort_desc_i64 data
    else parallel_radix16_sort_i64 cfg data false

/-! #### f64 -/

def dgF64 (data : List Int) (i : Nat) : Nat :=
  f64_to_sortable_u64 (data.getD i 0).toNat

/-- Embedding of ray_sort_asc_f64 (src/core/sort.c:2070-2140): 4 stable
16-bit passes over the sortable bit pattern. -/
def ray_sort_asc_f64 (data : List Int) : List Nat :=
  radixPasses (dgF64 data) 16 serialCf 4 (List.range data.length)

/-- Embedding of ray_sort_desc_f64 (src/core/sort.c:2327-2390): suffix-sum
layout, i.e. each pass lays the buckets out in descending order. -/
def ray_sort_desc_f64 (data : List Int) : List Nat :=
  radixPassesRev (dgF64 data) 16 serialCf 4 (List.range data.length)

/-! #### dispatchers -/

def iotaAsc (n : Nat) : List Nat :=
  List.range n

def iotaDesc (n : Nat) : List Nat :=
  (List.range n).map fun i => n - 1 - i

/-- Embedding of ray_sort_asc (src/core/sort.c:2142-2197) over the embedded
kinds.  Only the empty, singleton and attribute fast paths set attribute bits
on the returned permutation; every generic path returns it with no
attributes. -/
def ray_sort_asc (cfg : PoolCfg) (v : RVec) : SortRes :=
  let len := v.data.length
  if len = 0 then ⟨[], 0⟩
  else if len = 1 then ⟨[0], ATTR_ASC ||| ATTR_DISTINCT⟩
  else if v.attrs &&& ATTR_ASC ≠ 0 then ⟨iotaAsc len, ATTR_ASC ||| ATTR_DISTINCT⟩
  else if v.attrs &&& ATTR_DESC ≠ 0 then ⟨iotaDesc len, ATTR_DESC ||| ATTR_DISTINCT⟩
  else
    ⟨match v.kind with
     | .KU8 => ray_sort_asc_u8 cfg v.data
     | .KI16 => ray_sort_asc_i16 cfg v.data
     | .KI32 => ray_sort_asc_i32 cfg v.data
     | .KI64 => ray_sort_asc_i64 cfg v.data
     | .KF64 => ray_sort_asc_f64 v.data, 0⟩

/-- Embedding of ray_sort_desc (src/core/sort.c:2392-2447). -/
def ray_sort_desc (cfg : PoolCfg) (v : RVec) : SortRes :=
  let len := v.data.length
  if len = 0 then ⟨[], 0⟩
  else if len = 1 then ⟨[0], ATTR_DESC ||| ATTR_DISTINCT⟩
  else if v.attrs &&& ATTR_DESC ≠ 0 then ⟨iotaAsc len, ATTR_ASC ||| ATTR_DISTINCT⟩
  else if v.attrs &&& ATTR_ASC ≠ 0 then ⟨iotaDesc len, ATTR_DESC ||| ATTR_DISTINCT⟩
  else
    ⟨match v.kind with
     | .KU8 => ray_sort_desc_u8 cfg v.data
     | .KI16 => ray_sort_desc_i16 cfg v.data
     | .KI32 => ray_sort_desc_i32 cfg v.data
     | .KI64 => ray_sort_desc_i64 cfg v.data
     | .KF64 => ray_sort_desc_f64 v.data, 0⟩

/-! ### Additional scatter-loop facts

Used to analyse the descending i32 parallel counting scatter, whose write
regions are not disjoint (see `parallel_counting_sort_i32`), so the region
lemmas above do not apply to it. -/

theorem scatterRun_fst (digit : Nat → Nat) :
    ∀ (xs : List Nat) (pos : Nat → Nat) (out : List (Option Nat)),
    (xs.foldl (scatterStep digit) (pos, out)).1 = fun b => pos b + cntd digit xs b := by
  intro xs
  induction xs with
  | nil =>
      intro pos out
      funext b
      simp [cntd]
  | cons x rest ih =>
      intro pos out
      show (rest.foldl (scatterStep digit) (scatterStep digit (pos, out) x)).1 = _
      rw [ih]
      funext b
      by_cases hb : b = digit x
      · subst hb
        simp [scatterStep, cntd_cons]
        omega
      · have hne : ¬ digit x = b := fun h => hb h.symm
        simp [scatterStep, cntd_cons, hb, hne]

theorem scatterRun_append (digit : Nat → Nat) (as bs : List Nat) (pos : Nat → Nat)
    (out : List (Option Nat)) :
    scatterRun digit (as ++ bs) pos out
      = scatterRun digit bs (fun b => pos b + cntd digit as b) (scatterRun digit as pos out) := by
  unfold scatterRun
  rw [List.foldl_append]
  have h1 : as.foldl (scatterStep digit) (pos, out)
      = ((fun b => pos b + cntd digit as b), scatterRun digit as pos out) := by
    have := scatterRun_fst digit as pos out
    unfold scatterRun
    exact Prod.ext this rfl
  rw [h1]

theorem scatterRun_length (digit : Nat → Nat) :
    ∀ (xs : List Nat) (pos : Nat → Nat) (out : List (Option Nat)),
    (scatterRun digit xs pos out).length = out.length := by
  intro xs
  induction xs with
  | nil => intro pos out; rfl
  | cons x rest ih =>
      intro pos out
      rw [scatterRun_cons, ih, List.length_set]

/-- Consecutive writes `out[s] := x0, out[s+1] := x1, …` (writes past the end
of the array fall outside the model, like the past-the-buffer stores they
mirror). -/
def setSeq (out : List (Option Nat)) (s : Nat) : List Nat → List (Option Nat)
  | [] => out
  | x :: xs => setSeq (out.set s (some x)) (s + 1) xs

theorem setSeq_oob : ∀ (xs : List Nat) (out : List (Option Nat)) (s : Nat),
    out.length ≤ s → setSeq out s xs = out := by
  intro xs
  induction xs with
  | nil => intro out s _; rfl
  | cons x rest ih =>
      intro out s hs
      show setSeq (out.set s (some x)) (s + 1) rest = out
      rw [List.set_eq_of_length_le hs, ih out (s + 1) (by omega)]

theorem setSeq_length : ∀ (xs : List Nat) (out : List (Option Nat)) (s : Nat),
    (setSeq out s xs).length = out.length := by
  intro xs
  induction xs with
  | nil => intro out s; rfl
  | cons x rest ih =>
      intro out s
      show (setSeq (out.set s (some x)) (s + 1) rest).length = _
      rw [ih, List.length_set]

/-- A scatter run whose elements all map to the same bucket writes them to
consecutive slots starting at that bucket's cursor. -/
theorem scatterRun_const (digit : Nat → Nat) (d : Nat) :
    ∀ (xs : List Nat) (pos : Nat → Nat) (out : List (Option Nat)),
    (∀ i ∈ xs, digit i = d) →
    scatterRun digit xs pos out = setSeq out (pos d) xs := by
  intro xs
  induction xs with
  | nil => intro pos out _; rfl
  | cons x rest ih =>
      intro pos out hd
      have hx : digit x = d := hd x (List.mem_cons_self x rest)
      rw [scatterRun_cons]
      rw [ih _ _ (fun i hi => hd i (List.mem_cons_of_mem x hi))]
      show setSeq (out.set (pos (digit x)) (some x)) (if d = digit x then pos d + 1 else pos d) rest
        = setSeq (out.set (pos d) (some x)) (pos d + 1) rest
      rw [hx, if_pos rfl]

theorem layStart_le_total (segs : List (List Nat)) (k : Nat) :
    layStart segs k ≤ segs.flatten.length := by
  by_cases h : k ≤ segs.length
  · have := layStart_mono segs h
    rw [layStart_total segs (Nat.le_refl _)] at this
    exact this
  · rw [layStart_total segs (by omega)]

theorem foldl_min_replicate (b : Int) : ∀ (n : Nat) (a : Int),
    (List.replicate n b).foldl min a = if n = 0 then a else min a b := by
  intro n
  induction n with
  | zero => intro a; simp
  | succ n2 ih =>
      intro a
      rw [List.replicate_succ, List.foldl_cons, ih (min a b)]
      by_cases h : n2 = 0
      · simp [h]
      · simp [h, min_assoc, min_self]

theorem foldl_max_replicate (b : Int) : ∀ (n : Nat) (a : Int),
    (List.replicate n b).foldl max a = if n = 0 then a else max a b := by
  intro n
  induction n with
  | zero => intro a; simp
  | succ n2 ih =>
      intro a
      rw [List.replicate_succ, List.foldl_cons, ih (max a b)]
      by_cases h : n2 = 0
      · simp [h]
      · simp [h, max_assoc, max_self]

theorem filter_replicate_eq {α : Type} (p : α → Bool) (a : α) (n : Nat) :
    (List.replicate n a).filter p = if p a then List.replicate n a else [] := by
  induction n with
  | zero => simp
  | succ m ih =>
      rw [List.replicate_succ, List.filter_cons, ih]
      by_cases h : p a
      · simp [h, List.replicate_succ]
      · simp [h]

/-! ### C1: the descending i32 parallel counting sort at a concrete input

`c1_data` is 131072 i32 rows: row 0 is the NULL sentinel, rows 1..131070
hold 11, row 131071 holds 10.  The length equals `SMALL_VEC_THRESHOLD`, so
`ray_sort_desc` routes it to `parallel_counting_sort_i32` (range 2 ≤ 512k);
the descending cursor layout reverses the buckets but the scatter reflects
the bucket again, so the value-11 rows run through bucket 0's one-slot
region into the null region and past the array. -/

def c1_data : List Int := NULL_I32 :: (List.replicate 131070 11 ++ [10])

def c1_cfg : PoolCfg := ⟨1, false⟩

def c1_vec : RVec := ⟨VKind.KI32, c1_data, 0⟩

/-- The layout bucket mapping the histogram/prefix phase uses. -/
def c1_dgLay (i : Nat) : Nat :=
  if c1_data.getD i 0 == NULL_I32 then 2 else (c1_data.getD i 0 - 10).toNat

/-- The (reflected) bucket mapping the scatter loop actually indexes with. -/
def c1_dgSc (i : Nat) : Nat :=
  if c1_data.getD i 0 == NULL_I32 then 2 else 2 - 1 - (c1_data.getD i 0 - 10).toNat

/-- The output array the scatter produces: row 0 (the null) lands in the
last slot but is immediately overwritten by row 2; rows 3..131070 write past
the array; slots 1..131069 are never written. -/
def c1_out : List (Option Nat) :=
  ((((List.replicate 131072 (none : Option Nat)).set 131071 (some 0)).set 131070
      (some 1)).set 131071 (some 2)).set 0 (some 131071)

theorem c1_len : c1_data.length = 131072 := by
  rw [c1_data, List.length_cons, List.length_append, List.length_replicate]
  rfl

theorem c1_getD_zero : c1_data.getD 0 0 = NULL_I32 := rfl

theorem c1_getD_mid {i : Nat} (h1 : 1 ≤ i) (h2 : i ≤ 131070) : c1_data.getD i 0 = 11 := by
  obtain ⟨j, rfl⟩ : ∃ j, i = j + 1 := ⟨i - 1, by omega⟩
  show (NULL_I32 :: (List.replicate 131070 (11:Int) ++ [10])).getD (j + 1) 0 = 11
  rw [List.getD_cons_succ,
    List.getD_append _ _ _ j (by rw [List.length_replicate]; omega),
    List.getD_eq_getElem?_getD, List.getElem?_replicate, if_pos (by omega)]
  rfl

theorem c1_getD_last : c1_data.getD 131071 0 = 10 := by
  show (NULL_I32 :: (List.replicate 131070 (11:Int) ++ [10])).getD 131071 0 = 10
  rw [show (131071:Nat) = 131070 + 1 from rfl, List.getD_cons_succ,
    List.getD_eq_getElem?_getD,
    List.getElem?_append_right (le_of_eq (by rw [List.length_replicate])),
    List.length_replicate, show (131070 - 131070 : Nat) = 0 from rfl]
  rfl

theorem c1_dgLay_zero : c1_dgLay 0 = 2 := by
  rw [c1_dgLay, c1_getD_zero, if_pos (by simp)]

theorem c1_dgSc_zero : c1_dgSc 0 = 2 := by
  rw [c1_dgSc, c1_getD_zero, if_pos (by simp)]

theorem c1_dgLay_mid {i : Nat} (h1 : 1 ≤ i) (h2 : i ≤ 131070) : c1_dgLay i = 1 := by
  rw [c1_dgLay, c1_getD_mid h1 h2, if_neg (by decide)]
  decide

theorem c1_dgSc_mid {i : Nat} (h1 : 1 ≤ i) (h2 : i ≤ 131070) : c1_dgSc i = 0 := by
  rw [c1_dgSc, c1_getD_mid h1 h2, if_neg (by decide)]
  decide

theorem c1_dgLay_last : c1_dgLay 131071 = 0 := by
  rw [c1_dgLay, c1_getD_last, if_neg (by decide)]
  decide

theorem c1_dgSc_last : c1_dgSc 131071 = 1 := by
  rw [c1_dgSc, c1_getD_last, if_neg (by decide)]
  decide

theorem c1_range_eq : List.range 131072 = 0 :: (List.range' 1 131070 ++ [131071]) := by
  rw [List.range_eq_range' 131072]
  show List.range' 0 (131071 + 1) 1 = 0 :: (List.range' 1 131070 ++ [131071])
  rw [List.range'_succ]
  show 0 :: List.range' (0 + 1) (131070 + 1) 1 = 0 :: (List.range' 1 131070 ++ [131071])
  rw [List.range'_concat]

theorem c1_mem_mid {i : Nat} (h : i ∈ List.range' 1 131070) : 1 ≤ i ∧ i ≤ 131070 := by
  rw [List.mem_range'_1] at h
  omega

theorem c1_filter_one :
    (List.range 131072).filter (fun i => c1_dgLay i == 1) = List.range' 1 131070 := by
  have hmid : (List.range' 1 131070).filter (fun i => c1_dgLay i == 1)
      = List.range' 1 131070 :=
    List.filter_eq_self.mpr fun a ha => by
      obtain ⟨ha1, ha2⟩ := c1_mem_mid ha
      simp [c1_dgLay_mid ha1 ha2]
  have hlast : List.filter (fun i => c1_dgLay i == 1) [131071] = [] := by
    simp [c1_dgLay_last]
  rw [c1_range_eq, List.filter_cons, if_neg (by simp [c1_dgLay_zero]),
    List.filter_append, hmid, hlast, List.append_nil]

theorem c1_filter_zero :
    (List.range 131072).filter (fun i => c1_dgLay i == 0) = [131071] := by
  have hmid : (List.range' 1 131070).filter (fun i => c1_dgLay i == 0) = [] :=
    List.filter_eq_nil_iff.mpr fun a ha => by
      obtain ⟨ha1, ha2⟩ := c1_mem_mid ha
      simp [c1_dgLay_mid ha1 ha2]
  have hlast : List.filter (fun i => c1_dgLay i == 0) [131071] = [131071] := by
    simp [c1_dgLay_last]
  rw [c1_range_eq, List.filter_cons, if_neg (by simp [c1_dgLay_zero]),
    List.filter_append, hmid, hlast, List.nil_append]

theorem c1_filter_two :
    (List.range 131072).filter (fun i => c1_dgLay i == 2) = [0] := by
  have hmid : (List.range' 1 131070).filter (fun i => c1_dgLay i == 2) = [] :=
    List.filter_eq_nil_iff.mpr fun a ha => by
      obtain ⟨ha1, ha2⟩ := c1_mem_mid ha
      simp [c1_dgLay_mid ha1 ha2]
  have hlast : List.filter (fun i => c1_dgLay i == 2) [131071] = [] := by
    simp [c1_dgLay_last]
  rw [c1_range_eq, List.filter_cons, if_pos (by simp [c1_dgLay_zero]),
    List.filter_append, hmid, hlast, List.nil_append]

theorem c1_segs : segsOf [1, 0, 2] c1_dgLay [List.range 131072]
    = [List.range' 1 131070, [131071], [0]] := by
  simp only [segsOf, List.flatMap_cons, List.flatMap_nil, List.map_cons, List.map_nil,
    List.append_nil, List.cons_append, List.nil_append]
  rw [c1_filter_one, c1_filter_zero, c1_filter_two]

theorem c1_pos_one : segStart [1, 0, 2] c1_dgLay [List.range 131072] 1 0 = 0 := rfl

theorem c1_pos_zero : segStart [1, 0, 2] c1_dgLay [List.range 131072] 0 0 = 131070 := by
  rw [segStart, c1_segs,
    show ([1, 0, 2] : List Nat).indexOf 0 * [List.range 131072].length + 0 = 1 from rfl,
    layStart,
    show List.take 1 [List.range' 1 131070, [131071], ([0] : List Nat)]
      = [List.range' 1 131070] from rfl,
    List.map_cons, List.map_nil, List.length_range']
  rfl

theorem c1_pos_two : segStart [1, 0, 2] c1_dgLay [List.range 131072] 2 0 = 131071 := by
  rw [segStart, c1_segs,
    show ([1, 0, 2] : List Nat).indexOf 2 * [List.range 131072].length + 0 = 2 from rfl,
    layStart,
    show List.take 2 [List.range' 1 131070, [131071], ([0] : List Nat)]
      = [List.range' 1 131070, [131071]] from rfl,
    List.map_cons, List.map_cons, List.map_nil, List.length_range']
  rfl

theorem c1_cntd_mid_one : cntd c1_dgSc (List.range' 1 131070) 1 = 0 := by
  have hmid : (List.range' 1 131070).filter (fun i => c1_dgSc i == 1) = [] :=
    List.filter_eq_nil_iff.mpr fun a ha => by
      obtain ⟨ha1, ha2⟩ := c1_mem_mid ha
      simp [c1_dgSc_mid ha1 ha2]
  rw [cntd, hmid]
  rfl

theorem c1_scope : index_scope NULL_I32 c1_data = ⟨10, 2, 1⟩ := by
  have hfilter : c1_data.filter (fun v => !(v == NULL_I32))
      = (11 : Int) :: (List.replicate 131069 11 ++ [10]) := by
    show (NULL_I32 :: (List.replicate 131070 (11:Int) ++ [10])).filter (fun v => !(v == NULL_I32))
      = (11 : Int) :: (List.replicate 131069 11 ++ [10])
    rw [List.filter_cons, List.filter_append, filter_replicate_eq,
      if_neg (by simp), if_pos (by decide),
      show List.filter (fun v => !(v == NULL_I32)) [10] = [10] from by decide,
      show (131070:Nat) = 131069 + 1 from rfl, List.replicate_succ, List.cons_append]
  have hnull : c1_data.filter (fun v => v == NULL_I32) = [NULL_I32] := by
    show (NULL_I32 :: (List.replicate 131070 (11:Int) ++ [10])).filter (fun v => v == NULL_I32)
      = [NULL_I32]
    rw [List.filter_cons, List.filter_append, filter_replicate_eq,
      if_pos (by simp), if_neg (by decide),
      show List.filter (fun v => v == NULL_I32) [10] = [] from by decide]
    rfl
  have hmin : (List.replicate 131069 (11:Int) ++ [10]).foldl min 11 = 10 := by
    rw [List.foldl_append, foldl_min_replicate]
    norm_num
  have hmax : (List.replicate 131069 (11:Int) ++ [10]).foldl max 11 = 11 := by
    rw [List.foldl_append, foldl_max_replicate]
    norm_num
  rw [index_scope, hfilter]
  show (⟨(List.replicate 131069 (11:Int) ++ [10]).foldl min 11,
      (List.replicate 131069 (11:Int) ++ [10]).foldl max 11
        - (List.replicate 131069 (11:Int) ++ [10]).foldl min 11 + 1,
      (c1_data.filter fun v => v == NULL_I32).length⟩ : IndexScope) = ⟨10, 2, 1⟩
  rw [hmin, hmax, hnull]
  norm_num

theorem c1_split : pool_split_by c1_cfg 131072 0 = 1 := by
  rw [pool_split_by, if_neg (by norm_num [POOL_SPLIT_THRESHOLD, RAY_PAGE_SIZE]),
    if_neg (by norm_num [c1_cfg]), if_neg (by norm_num [c1_cfg]),
    if_neg (by norm_num [GROUP_SPLIT_THRESHOLD])]
  rfl

theorem setSeq_cons (out : List (Option Nat)) (s x : Nat) (xs : List Nat) :
    setSeq out s (x :: xs) = setSeq (out.set s (some x)) (s + 1) xs := rfl

theorem c1_mid_eq : List.range' 1 131070 = 1 :: 2 :: List.range' 3 131068 := by
  show List.range' 1 (131069 + 1) 1 = 1 :: 2 :: List.range' 3 131068
  rw [List.range'_succ]
  show 1 :: List.range' (1 + 1) (131068 + 1) 1 = 1 :: 2 :: List.range' 3 131068
  rw [List.range'_succ]

theorem c1_scatter_gen (f : Nat → Nat) (hf0 : f 0 = 131070) (hf1 : f 1 = 0)
    (hf2 : f 2 = 131071) :
    scatterRun c1_dgSc (List.range 131072) f (List.replicate 131072 none) = c1_out := by
  have hmid : ∀ i ∈ List.range' 1 131070, c1_dgSc i = 0 := fun i hi => by
    obtain ⟨h1, h2⟩ := c1_mem_mid hi
    exact c1_dgSc_mid h1 h2
  rw [c1_range_eq, scatterRun_cons, c1_dgSc_zero, hf2]
  rw [scatterRun_append, scatterRun_const c1_dgSc 0 _ _ _ hmid]
  rw [if_neg (show ¬ ((0:Nat) = 2) from by omega), hf0]
  rw [c1_mid_eq, setSeq_cons, setSeq_cons,
    show (131070 + 1 : Nat) = 131071 from rfl, show (131071 + 1 : Nat) = 131072 from rfl]
  have hle : ((((List.replicate 131072 (none : Option Nat)).set 131071 (some 0)).set 131070
      (some 1)).set 131071 (some 2)).length ≤ 131072 := by
    rw [List.length_set, List.length_set, List.length_set, List.length_replicate]
  rw [setSeq_oob _ _ _ hle]
  rw [scatterRun_cons, scatterRun_nil, c1_dgSc_last,
    if_neg (show ¬ ((1:Nat) = 2) from by omega), hf1, ← c1_mid_eq, c1_cntd_mid_one]
  rfl

theorem c1_scatter :
    scatterRun c1_dgSc (List.range 131072)
      (fun b => segStart [1, 0, 2] c1_dgLay [List.range 131072] b 0)
      (List.replicate 131072 none) = c1_out :=
  c1_scatter_gen _ c1_pos_zero c1_pos_one c1_pos_two

theorem c1_result : (ray_sort_desc c1_cfg c1_vec).idx = fromSome c1_out := by
  have hstep3 : parallel_counting_sort_i32 c1_cfg c1_data 10 2 false
      = fromSome c1_out := by
    simp only [parallel_counting_sort_i32]
    rw [if_neg (show ¬ (false = true) from by simp)]
    rw [c1_len, c1_split,
      show (131072 / 1 : Nat) = 131072 from rfl,
      show chunksOf (List.range 131072) 131072 1 = [List.range 131072] from rfl,
      mismatchPass,
      show ((List.range 2).reverse ++ [2] : List Nat) = [1, 0, 2] from by decide,
      show [List.range 131072].flatten.length = 131072 from by
        rw [List.flatten_cons, List.flatten_nil, List.append_nil, List.length_range]]
    exact congrArg fromSome c1_scatter
  have hstep2 : ray_sort_desc_i32 c1_cfg c1_data
      = parallel_counting_sort_i32 c1_cfg c1_data 10 2 false := by
    simp only [ray_sort_desc_i32]
    rw [c1_scope, c1_len]
    rw [if_neg (by norm_num [SMALL_VEC_THRESHOLD]),
      if_pos (Or.inl (by norm_num [COUNTING_SORT_MAX_RANGE_I32]))]
    rfl
  have hstep1 : ray_sort_desc c1_cfg c1_vec = ⟨ray_sort_desc_i32 c1_cfg c1_data, 0⟩ := by
    simp only [ray_sort_desc, c1_vec]
    rw [c1_len]
    rw [if_neg (by norm_num), if_neg (by norm_num),
      if_neg (by simp [ATTR_DESC]), if_neg (by simp [ATTR_ASC])]
  have hchain : ray_sort_desc c1_cfg c1_vec = ⟨fromSome c1_out, 0⟩ := by
    rw [hstep1, hstep2, hstep3]
  rw [hchain]

theorem c1_null_count : (c1_data.filter fun v => v == NULL_I32).length = 1 := by
  have hnull : c1_data.filter (fun v => v == NULL_I32) = [NULL_I32] := by
    show (NULL_I32 :: (List.replicate 131070 (11:Int) ++ [10])).filter (fun v => v == NULL_I32)
      = [NULL_I32]
    rw [List.filter_cons, List.filter_append, filter_replicate_eq,
      if_pos (by simp), if_neg (by decide),
      show List.filter (fun v => v == NULL_I32) [10] = [] from by decide]
    rfl
  rw [hnull]
  rfl

theorem c1_out_at (j : Nat) (hj : j = 1 ∨ j = 2) : c1_out[j]? = some none := by
  rw [c1_out,
    List.getElem?_set_ne (by omega),
    List.getElem?_set_ne (by omega),
    List.getElem?_set_ne (by omega),
    List.getElem?_set_ne (by omega),
    List.getElem?_replicate, if_pos (by omega)]

theorem c1_out_last : c1_out[(131071:Nat)]? = some (some 2) := by
  have hlt : (131071:Nat) < (((List.replicate 131072 (none : Option Nat)).set 131071
      (some 0)).set 131070 (some 1)).length := by
    rw [List.length_set, List.length_set, List.length_replicate]
    omega
  rw [c1_out, List.getElem?_set_ne (by omega), List.getElem?_set_self hlt]

theorem c1_out_len : c1_out.length = 131072 := by
  rw [c1_out, List.length_set, List.length_set, List.length_set, List.length_set,
    List.length_replicate]

/-- C1: refuted at a concrete input — for the 131072-row i32 vector whose
row 0 is the NULL sentinel, rows 1..131070 hold 11 and row 131071 holds 10,
`ray_sort_desc` (single executor) neither places the NULL last nor returns a
permutation: the final slot of the result names row 2 (value 11, non-null)
while the input holds exactly one NULL, and the result is not a permutation
of the row indices (the descending scatter loop reflects the bucket index
over a cursor layout that is already reversed, so the value-11 rows overrun
bucket 0's one-slot region, overwrite the null region and run past the
array). -/
theorem c1_sort_desc_nulls_not_last_and_not_perm :
    c1_data.getD 0 0 = NULL_I32
    ∧ (c1_data.filter fun v => v == NULL_I32).length = 1
    ∧ c1_data.length = 131072
    ∧ (ray_sort_desc c1_cfg c1_vec).idx.getD 131071 0 = 2
    ∧ c1_data.getD 2 0 = 11
    ∧ ¬ ((ray_sort_desc c1_cfg c1_vec).idx).Perm (List.range 131072) := by
  refine ⟨c1_getD_zero, c1_null_count, c1_len, ?_,
    c1_getD_mid (by norm_num) (by norm_num), ?_⟩
  · rw [c1_result, fromSome, List.getD_eq_getElem?_getD, List.getElem?_map, c1_out_last]
    rfl
  · intro hperm
    rw [c1_result] at hperm
    have hnd : (fromSome c1_out).Nodup := hperm.symm.nodup (List.nodup_range 131072)
    have hlen : (fromSome c1_out).length = 131072 := by
      rw [fromSome, List.length_map, c1_out_len]
    have e1 : (fromSome c1_out)[(1:Nat)]? = some 0 := by
      rw [fromSome, List.getElem?_map, c1_out_at 1 (Or.inl rfl)]
      rfl
    have e2 : (fromSome c1_out)[(2:Nat)]? = some 0 := by
      rw [fromSome, List.getElem?_map, c1_out_at 2 (Or.inr rfl)]
      rfl
    have hi : (1:Nat) < (fromSome c1_out).length := by rw [hlen]; norm_num
    have hj : (2:Nat) < (fromSome c1_out).length := by rw [hlen]; norm_num
    have g1 : (fromSome c1_out)[(1:Nat)] = 0 := by
      have h := List.getElem?_eq_getElem hi
      rw [e1] at h
      exact (Option.some.inj h).symm
    have g2 : (fromSome c1_out)[(2:Nat)] = 0 := by
      have h := List.getElem?_eq_getElem hj
      rw [e2] at h
      exact (Option.some.inj h).symm
    have h12 : (1:Nat) = 2 := hnd.getElem_inj_iff.mp (g1.trans g2.symm)
    norm_num at h12

/-! ### C7: attributes on sort results -/

/-- C7 counterexample: the 3-row i64 vector `[3, 1, 2]` with no attributes is
non-trivial (length > 1), yet the permutation `ray_sort_asc` returns does not
carry the ASC attribute — the generic dispatch paths
(src/core/sort.c:2171-2196) return the index vector with its allocation
default of no attributes; only the empty/singleton/fast paths set bits. -/
theorem c7_generic_result_lacks_asc_attr :
    1 < (⟨VKind.KI64, [3, 1, 2], 0⟩ : RVec).data.length
    ∧ (⟨VKind.KI64, [3, 1, 2], 0⟩ : RVec).attrs = 0
    ∧ (ray_sort_asc ⟨1, false⟩ ⟨VKind.KI64, [3, 1, 2], 0⟩).attrs &&& ATTR_ASC = 0 := by
  decide

/-- C7 (corrected): a non-trivial sort through the generic paths returns the
permutation with NO attribute bits at all (in particular the ASC attribute is
not set, contrary to the claim's first half); the second half does hold — on
a vector that already carries the ASC attribute, `ray_sort_asc` returns the
identity permutation `iota` with ASC and DISTINCT set, via the O(n) fast
path (src/core/sort.c:2156-2161). -/
theorem c7_sort_asc_attr_fast_path :
    (∀ (cfg : PoolCfg) (v : RVec), 1 < v.data.length → v.attrs = 0 →
      (ray_sort_asc cfg v).attrs = 0)
    ∧ (∀ (cfg : PoolCfg) (v : RVec), v.data.length ≠ 0 → v.attrs &&& ATTR_ASC ≠ 0 →
      ray_sort_asc cfg v = ⟨iotaAsc v.data.length, ATTR_ASC ||| ATTR_DISTINCT⟩) := by
  constructor
  · intro cfg v h1 h0
    simp only [ray_sort_asc]
    rw [if_neg (by omega), if_neg (by omega), if_neg (by rw [h0]; simp),
      if_neg (by rw [h0]; simp)]
  · intro cfg v hne hasc
    simp only [ray_sort_asc]
    by_cases hlen1 : v.data.length = 1
    · rw [if_neg hne, if_pos hlen1, hlen1]
      rfl
    · rw [if_neg hne, if_neg hlen1, if_pos hasc]

/-- Witness for `c7_sort_asc_attr_fast_path` at concrete inputs: the
unattributed 3-row vector `[3, 1, 2]` yields attribute bits 0, and the
ASC-attributed vector `[1, 2, 3]` yields the identity permutation with
ASC and DISTINCT via the fast path. -/
theorem c7_sort_asc_attr_fast_path_witness :
    (ray_sort_asc ⟨1, false⟩ ⟨VKind.KI64, [3, 1, 2], 0⟩).attrs = 0
    ∧ ray_sort_asc ⟨1, false⟩ ⟨VKind.KI64, [1, 2, 3], ATTR_ASC⟩
        = ⟨iotaAsc 3, ATTR_ASC ||| ATTR_DISTINCT⟩ :=
  ⟨c7_sort_asc_attr_fast_path.1 ⟨1, false⟩ ⟨VKind.KI64, [3, 1, 2], 0⟩
      (by decide) (by decide),
   c7_sort_asc_attr_fast_path.2 ⟨1, false⟩ ⟨VKind.KI64, [1, 2, 3], ATTR_ASC⟩
      (by decide) (by decide)⟩

/-! ## aggr.c — grouped aggregation

The value columns exercised by the claims are i64, so the embeddings cover
the `TYPE_I64` branches; key columns are i64 payloads (`TYPE_I64` and
`TYPE_SYMBOL` share `AS_I64` storage).  Machine u64/i64 arithmetic is
modelled on `Nat`/`Int` with explicit `% 2^64` where the C wraps.  The C's
group arrays are modelled as functions `Nat → _` updated pointwise; the C
initialises `first_rows`/`last_rows` to -1, which is never read for a valid
group id, so the model initialises them to 0. -/

/-- Error codes (src/core/error.h:15-29). -/
inductive ErrCode where
  | EC_OK
  | EC_TYPE
  | EC_ARITY
  | EC_LENGTH
  | EC_DOMAIN
  | EC_INDEX
  | EC_VALUE
  | EC_LIMIT
  | EC_OS
  | EC_PARSE
  | EC_NYI
  | EC_USER
deriving DecidableEq

/-- An aggregation result: an error object (the constructors in error.c set
`VM->err` with this code and return `ERR_OBJ`), an i64 vector, or an f64
vector.  f64 payloads are modelled as exact rationals; the only f64 value
the proved claims inspect is the literal `0.0` the C emits for an empty
group, which rationals represent exactly. -/
inductive AggRes where
  | err (code : ErrCode)
  | i64 (xs : List Int)
  | f64 (xs : List Rat)
deriving DecidableEq

/-- The query context as the aggregates see it: `VM->query_ctx` may be NULL
(`Option.none` at the caller), and its groupby key list may be `NULL_OBJ`
(`groupby = none`).  Key columns are i64 payloads. -/
structure QueryCtx where
  groupby : Option (List (List Int))

/-- Modelled from the spec: `INF_I64` (rayforce.h) is the i64 maximum, used
as the min-accumulator sentinel `AGG_I64_MAX` (src/core/aggr.c:42-43). -/
def INF_I64 : Int := 2 ^ 63 - 1

def PERFECT_HASH_THRESHOLD : Nat := 65536

def INITIAL_HT_CAPACITY : Nat := 4096

def PARALLEL_AGG_THRESHOLD : Nat := 100000

def MAX_AGG_WORKERS : Nat := 16

def U64_HASH_SEED : Nat := 0x9ddfea08eb382d69

/-- The u64 bit pattern of an i64 value (a C cast). -/
def u64_of_i64 (x : Int) : Nat := (x % (2 ^ 64 : Int)).toNat

/-- `ROTI64(k, 31) = (k << 31) | (k >> 33)` on u64. -/
def ROTI64_31 (k : Nat) : Nat := ((k * 2 ^ 31) % 2 ^ 64) ||| (k / 2 ^ 33)

/-- Embedding of hash_index_u64 (src/core/hash.h:86-97). -/
def hash_index_u64 (h k : Nat) : Nat :=
  let a := ((h ^^^ k) * U64_HASH_SEED) % 2 ^ 64
  let a2 := a ^^^ (a / 2 ^ 47)
  let b := ((ROTI64_31 k ^^^ a2) * U64_HASH_SEED) % 2 ^ 64
  let b2 := b ^^^ (b / 2 ^ 47)
  (b2 * U64_HASH_SEED) % 2 ^ 64

/-- Embedding of compute_composite_hash (src/core/aggr.c:117-151) over i64
key columns: FNV offset basis seed, one mix per key column. -/
def compute_composite_hash (keys : List (List Int)) (row : Nat) : Nat :=
  keys.foldl (fun h col => hash_index_u64 h (u64_of_i64 (col.getD row 0))) 0xcbf29ce484222325

/-- Embedding of keys_equal (src/core/aggr.c:154-190) over i64 key
columns. -/
def keys_equal (keys : List (List Int)) (r1 r2 : Nat) : Bool :=
  keys.all fun col => col.getD r1 0 == col.getD r2 0

/-- `HASH_SALT(h) = (u16)(h >> 48)` (src/core/aggr.c:60). -/
def HASH_SALT (h : Nat) : Nat := (h / 2 ^ 48) % 2 ^ 16

/-- Embedding of next_power_of_2 (src/core/aggr.c:105-114), the literal
bit-smear on `n - 1` (it agrees with the C for every n ≥ 1; the aggregation
code only calls it on capacities ≥ 4096). -/
def next_power_of_2 (n : Nat) : Nat :=
  let m0 := n - 1
  let m1 := m0 ||| (m0 / 2 ^ 1)
  let m2 := m1 ||| (m1 / 2 ^ 2)
  let m3 := m2 ||| (m2 / 2 ^ 4)
  let m4 := m3 ||| (m3 / 2 ^ 8)
  let m5 := m4 ||| (m4 / 2 ^ 16)
  let m6 := m5 ||| (m5 / 2 ^ 32)
  m6 + 1

/-- Pointwise array update, the model of `arr[a] = b`. -/
def updf {α : Type} (f : Nat → α) (a : Nat) (b : α) : Nat → α := fun x => if x = a then b else f x

theorem updf_self {α : Type} (f : Nat → α) (a : Nat) (b : α) : updf f a b a = b := by
  simp [updf]

theorem updf_ne {α : Type} (f : Nat → α) (a : Nat) (b : α) {x : Nat} (h : x ≠ a) :
    updf f a b x = f x := by
  simp [updf, h]

/-- The per-thread aggregation state local_agg_t (src/core/aggr.c:66-83):
open-addressing entries (slot ↦ (salt, group id)), group accumulator
arrays, and the group capacity `max_groups`. -/
structure LocalAgg where
  capacity : Nat
  count : Nat
  maxGroups : Nat
  entries : Nat → Option (Nat × Nat)
  firstRows : Nat → Nat
  lastRows : Nat → Nat
  groupHashes : Nat → Nat
  sumsI64 : Nat → Int
  sumsF64 : Nat → Rat
  counts : Nat → Nat
  minsI64 : Nat → Int
  maxsI64 : Nat → Int

/-- Embedding of local_agg_init (src/core/aggr.c:196-232). -/
def local_agg_init (capacity maxGroups : Nat) : LocalAgg :=
  { capacity := next_power_of_2 capacity
    count := 0
    maxGroups := maxGroups
    entries := fun _ => none
    firstRows := fun _ => 0
    lastRows := fun _ => 0
    groupHashes := fun _ => 0
    sumsI64 := fun _ => 0
    sumsF64 := fun _ => 0
    counts := fun _ => 0
    minsI64 := fun _ => INF_I64
    maxsI64 := fun _ => NULL_I64 }

/-- The linear-probing insert of local_agg_resize's rehash loop
(src/core/aggr.c:262-276), fuelled. -/
def ht_insert_probe : Nat → (Nat → Option (Nat × Nat)) → Nat → Nat → Nat → Nat →
    (Nat → Option (Nat × Nat))
  | 0, e, _, _, _, _ => e
  | fuel + 1, e, cap, idx, salt, gid =>
      match e idx with
      | none => updf e idx (some (salt, gid))
      | some _ => ht_insert_probe fuel e cap ((idx + 1) &&& (cap - 1)) salt gid

/-- Embedding of local_agg_resize (src/core/aggr.c:247-283): double the
capacity and rehash every occupied entry via the stored group hashes. -/
def local_agg_resize (st : LocalAgg) : LocalAgg :=
  let newCap := st.capacity * 2
  let newEntries := (List.range st.capacity).foldl
    (fun e slot =>
      match st.entries slot with
      | none => e
      | some sg =>
          let h := st.groupHashes sg.2
          ht_insert_probe (newCap + 1) e newCap (h &&& (newCap - 1)) (HASH_SALT h) sg.2)
    (fun _ => none)
  { st with capacity := newCap, entries := newEntries }

/-- Embedding of local_agg_find_or_create (src/core/aggr.c:286-333), fuelled
over the probe steps and the resize retry: probe from `idx`; an empty slot
creates a group (failing with `none`, the C's -1, when `count` has reached
`max_groups`, and resizing first when the load factor would exceed 70%); an
occupied slot with matching salt and equal keys at the group's first row
returns that group. -/
def local_agg_find_or_create (keys : List (List Int)) (row hash : Nat) :
    Nat → Nat → LocalAgg → LocalAgg × Option Nat
  | 0, _, st => (st, none)
  | fuel + 1, idx, st =>
      match st.entries idx with
      | none =>
          if st.maxGroups ≤ st.count then (st, none)
          else if st.capacity * 7 < (st.count + 1) * 10 then
            let st2 := local_agg_resize st
            local_agg_find_or_create keys row hash fuel (hash &&& (st2.capacity - 1)) st2
          else
            ({ st with
                count := st.count + 1
                entries := updf st.entries idx (some (HASH_SALT hash, st.count))
                firstRows := updf st.firstRows st.count row
                lastRows := updf st.lastRows st.count row
                groupHashes := updf st.groupHashes st.count hash },
              some st.count)
      | some sg =>
          if sg.1 == HASH_SALT hash && keys_equal keys (st.firstRows sg.2) row then
            ({ st with lastRows := updf st.lastRows sg.2 row }, some sg.2)
          else
            local_agg_find_or_create keys row hash fuel ((idx + 1) &&& (st.capacity - 1)) st

/-- One row of a fused hash-aggregate loop: hash the keys, find or create
the group, and apply the op-specific accumulation when a group id came
back. -/
def hashAggStep (keys : List (List Int)) (upd : LocalAgg → Nat → Nat → LocalAgg)
    (st : LocalAgg) (i : Nat) : LocalAgg :=
  let h := compute_composite_hash keys i
  let p := local_agg_find_or_create keys i h (st.capacity * 2 + 4) (h &&& (st.capacity - 1)) st
  match p.2 with
  | none => p.1
  | some g => upd p.1 g i

/-- A whole serial fused hash-aggregate loop over rows `0..nrows`. -/
def hashAggRun (keys : List (List Int)) (nrows maxGroups : Nat)
    (upd : LocalAgg → Nat → Nat → LocalAgg) : LocalAgg :=
  (List.range nrows).foldl (hashAggStep keys upd) (local_agg_init INITIAL_HT_CAPACITY maxGroups)

/-- Embedding of fused_sum_i64_hash (src/core/aggr.c:457-488): accumulate
non-null values into per-group sums, emit sums in group-id order. -/
def fused_sum_i64_hash (keys : List (List Int)) (val : List Int) : AggRes :=
  let fin := hashAggRun keys val.length (val.length / 10 + 1024) (fun st g i =>
    if val.getD i 0 == NULL_I64 then st
    else { st with sumsI64 := updf st.sumsI64 g (st.sumsI64 g + val.getD i 0) })
  AggRes.i64 ((List.range fin.count).map fun g => fin.sumsI64 g)

/-- The perfect_agg_t arrays used by the direct-indexed path
(src/core/aggr.c:88-100). -/
structure PerfectAgg where
  sums : Nat → Int
  counts : Nat → Nat
  firsts : Nat → Option Nat

/-- The accumulation loop of fused_sum_i64_perfect (src/core/aggr.c:384-425,
the 4x unrolling is the same per-row body): bucket `keys[i] - min_key` gets
`v` added when `v` is non-null, its count bumped likewise, and its first row
recorded. -/
def perfect_sum_state (kc val : List Int) (minK : Int) : PerfectAgg :=
  (List.range kc.length).foldl
    (fun st i =>
      let idx := (kc.getD i 0 - minK).toNat
      let v := val.getD i 0
      { sums := updf st.sums idx (st.sums idx + (if v == NULL_I64 then 0 else v))
        counts := updf st.counts idx (st.counts idx + (if v == NULL_I64 then 0 else 1))
        firsts := if (st.firsts idx).isNone then updf st.firsts idx (some i) else st.firsts })
    ⟨fun _ => 0, fun _ => 0, fun _ => none⟩

/-- Embedding of fused_sum_i64_perfect (src/core/aggr.c:384-455): run the
bucket loop, then emit the sums of the buckets with a positive count, in
ascending bucket (= key) order. -/
def fused_sum_i64_perfect (kc val : List Int) (minK : Int) (range : Nat) : AggRes :=
  let st := perfect_sum_state kc val minK
  AggRes.i64 (((List.range range).filter fun b => decide (0 < st.counts b)).map fun b => st.sums b)

/-- Embedding of pool_chunk_aligned (src/core/pool.c:616-628). -/
def pool_chunk_aligned (totalLen numWorkers elemSize : Nat) : Nat :=
  if numWorkers ≤ 1 ∨ elemSize = 0 then totalLen
  else
    let epp0 := RAY_PAGE_SIZE / elemSize
    let epp := if epp0 = 0 then 1 else epp0
    let totalPages := (totalLen + epp - 1) / epp
    let pagesPerChunk := (totalPages + numWorkers - 1) / numWorkers
    pagesPerChunk * epp

/-- Embedding of fused_sum_i64_parallel (src/core/aggr.c:573-628) together
with parallel_sum_worker and parallel_sum_merge (aggr.c:507-570): chunked
per-worker fused loops, then a sequential merge over the workers' groups via
the stored hashes and first rows. -/
def fused_sum_i64_parallel (cfg : PoolCfg) (keys : List (List Int)) (val : List Int) : AggRes :=
  let nrows := val.length
  let nworkers := min (pool_split_by cfg nrows 0) MAX_AGG_WORKERS
  if nworkers ≤ 1 then fused_sum_i64_hash keys val
  else
    let chunk := pool_chunk_aligned nrows nworkers 8
    let wmax := nrows / (10 * nworkers) + 1024
    let step := hashAggStep keys (fun st g i =>
      if val.getD i 0 == NULL_I64 then st
      else { st with sumsI64 := updf st.sumsI64 g (st.sumsI64 g + val.getD i 0) })
    let aggs := (List.range nworkers).map fun w =>
      (if w + 1 = nworkers then List.range' (w * chunk) (nrows - w * chunk)
       else List.range' (w * chunk) chunk).foldl step (local_agg_init INITIAL_HT_CAPACITY wmax)
    let merged := aggs.foldl
      (fun m wagg =>
        (List.range wagg.count).foldl
          (fun m2 i =>
            let h := wagg.groupHashes i
            let p := local_agg_find_or_create keys (wagg.firstRows i) h (m2.capacity * 2 + 4)
              (h &&& (m2.capacity - 1)) m2
            match p.2 with
            | none => p.1
            | some g =>
                { p.1 with sumsI64 := updf p.1.sumsI64 g (p.1.sumsI64 g + wagg.sumsI64 i) })
          m)
      (local_agg_init (INITIAL_HT_CAPACITY * nworkers) (wmax * nworkers))
    AggRes.i64 ((List.range merged.count).map fun g => merged.sumsI64 g)

/-- The min-scan of the key column (src/core/aggr.c:656-669, 721-727),
starting from the `AGG_I64_MAX` sentinel. -/
def key_scan_min (kc : List Int) (nrows : Nat) : Int :=
  (List.range nrows).foldl (fun m i => if kc.getD i 0 < m then kc.getD i 0 else m) INF_I64

/-- The max-scan of the key column, starting from `AGG_I64_MIN`. -/
def key_scan_max (kc : List Int) (nrows : Nat) : Int :=
  (List.range nrows).foldl (fun m i => if m < kc.getD i 0 then kc.getD i 0 else m) NULL_I64

/-- Embedding of aggr_sum (src/core/aggr.c:630-690): the DOMAIN guard on a
missing query context or groupby, the empty fast path, the single-key
perfect-hash dispatch on `0 < range ≤ 65536`, and the parallel-or-serial
hash fallback. -/
def aggr_sum (cfg : PoolCfg) (ctx : Option QueryCtx) (val : List Int) : AggRes :=
  match ctx with
  | none => AggRes.err ErrCode.EC_DOMAIN
  | some c =>
      match c.groupby with
      | none => AggRes.err ErrCode.EC_DOMAIN
      | some keys =>
          let nrows := val.length
          if nrows = 0 then AggRes.i64 []
          else if keys.length = 1 then
            let kc := keys.getD 0 []
            let minK := key_scan_min kc nrows
            let maxK := key_scan_max kc nrows
            let range := maxK - minK + 1
            if 0 < range ∧ range ≤ (PERFECT_HASH_THRESHOLD : Int) then
              fused_sum_i64_perfect kc val minK range.toNat
            else if PARALLEL_AGG_THRESHOLD ≤ nrows then fused_sum_i64_parallel cfg keys val
            else fused_sum_i64_hash keys val
          else if PARALLEL_AGG_THRESHOLD ≤ nrows then fused_sum_i64_parallel cfg keys val
          else fused_sum_i64_hash keys val

/-- The perfect-hash counting loop of aggr_count (src/core/aggr.c:738-743):
every row bumps its bucket, nulls included. -/
def perfect_count_state (kc : List Int) (nrows : Nat) (minK : Int) : Nat → Nat :=
  (List.range nrows).foldl
    (fun c i => updf c ((kc.getD i 0 - minK).toNat) (c ((kc.getD i 0 - minK).toNat) + 1))
    (fun _ => 0)

/-- The perfect-hash result extraction of aggr_count (src/core/aggr.c:745-760). -/
def perfect_count (kc val : List Int) (minK : Int) (range : Nat) : AggRes :=
  let c := perfect_count_state kc val.length minK
  AggRes.i64 (((List.range range).filter fun b => decide (0 < c b)).map fun b => (c b : Int))

/-- The hash-based counting loop of aggr_count (src/core/aggr.c:764-777). -/
def hash_count_state (keys : List (List Int)) (nrows : Nat) : LocalAgg :=
  hashAggRun keys nrows (nrows / 10 + 1024) (fun st g _ =>
    { st with counts := updf st.counts g (st.counts g + 1) })

def hash_count (keys : List (List Int)) (val : List Int) : AggRes :=
  let fin := hash_count_state keys val.length
  AggRes.i64 ((List.range fin.count).map fun g => (fin.counts g : Int))

/-- Embedding of aggr_count (src/core/aggr.c:692-777). -/
def aggr_count (ctx : Option QueryCtx) (val : List Int) : AggRes :=
  match ctx with
  | none => AggRes.err ErrCode.EC_DOMAIN
  | some c =>
      match c.groupby with
      | none => AggRes.err ErrCode.EC_DOMAIN
      | some keys =>
          let nrows := val.length
          if nrows = 0 then AggRes.i64 []
          else if keys.length = 1 then
            let kc := keys.getD 0 []
            let minK := key_scan_min kc nrows
            let maxK := key_scan_max kc nrows
            let range := maxK - minK + 1
            if 0 < range ∧ range ≤ (PERFECT_HASH_THRESHOLD : Int) then
              perfect_count kc val minK range.toNat
            else hash_count keys val
          else hash_count keys val

/-- Embedding of aggr_avg, i64 branch (src/core/aggr.c:895-955): per-group
sum and count over non-null values; emit `(f64)sum / count` (exact rational
here), or `0.0` for a group with no non-null values. -/
def hash_avg_state (keys : List (List Int)) (val : List Int) : LocalAgg :=
  hashAggRun keys val.length (val.length / 10 + 1024) (fun st g i =>
    if val.getD i 0 == NULL_I64 then st
    else { st with
        sumsI64 := updf st.sumsI64 g (st.sumsI64 g + val.getD i 0)
        counts := updf st.counts g (st.counts g + 1) })

def aggr_avg (ctx : Option QueryCtx) (val : List Int) : AggRes :=
  match ctx with
  | none => AggRes.err ErrCode.EC_DOMAIN
  | some c =>
      match c.groupby with
      | none => AggRes.err ErrCode.EC_DOMAIN
      | some keys =>
          if val.length = 0 then AggRes.f64 []
          else
            let fin := hash_avg_state keys val
            AggRes.f64 ((List.range fin.count).map fun g =>
              if 0 < fin.counts g then (fin.sumsI64 g : Rat) / (fin.counts g : Rat) else 0)

/-- Embedding of aggr_min, i64 branch (src/core/aggr.c:1018-1077): track the
minimum non-null value per group against the `AGG_I64_MAX` sentinel; a group
still at the sentinel emits `NULL_I64`. -/
def aggr_min (ctx : Option QueryCtx) (val : List Int) : AggRes :=
  match ctx with
  | none => AggRes.err ErrCode.EC_DOMAIN
  | some c =>
      match c.groupby with
      | none => AggRes.err ErrCode.EC_DOMAIN
      | some keys =>
          if val.length = 0 then AggRes.i64 []
          else
            let fin := hashAggRun keys val.length (val.length / 10 + 1024) (fun st g i =>
              let v := val.getD i 0
              if !(v == NULL_I64) && decide (v < st.minsI64 g) then
                { st with minsI64 := updf st.minsI64 g v }
              else st)
            AggRes.i64 ((List.range fin.count).map fun g =>
              if fin.minsI64 g == INF_I64 then NULL_I64 else fin.minsI64 g)

/-- Embedding of aggr_max, i64 branch (src/core/aggr.c:958-1016). -/
def aggr_max (ctx : Option QueryCtx) (val : List Int) : AggRes :=
  match ctx with
  | none => AggRes.err ErrCode.EC_DOMAIN
  | some c =>
      match c.groupby with
      | none => AggRes.err ErrCode.EC_DOMAIN
      | some keys =>
          if val.length = 0 then AggRes.i64 []
          else
            let fin := hashAggRun keys val.length (val.length / 10 + 1024) (fun st g i =>
              let v := val.getD i 0
              if !(v == NULL_I64) && decide (st.maxsI64 g < v) then
                { st with maxsI64 := updf st.maxsI64 g v }
              else st)
            AggRes.i64 ((List.range fin.count).map fun g =>
              if fin.maxsI64 g == NULL_I64 then NULL_I64 else fin.maxsI64 g)

/-- Embedding of aggr_first, i64 branch (src/core/aggr.c:779-835): the find
loop populates `first_rows`; emit the value at each group's first row. -/
def aggr_first (ctx : Option QueryCtx) (val : List Int) : AggRes :=
  match ctx with
  | none => AggRes.err ErrCode.EC_DOMAIN
  | some c =>
      match c.groupby with
      | none => AggRes.err ErrCode.EC_DOMAIN
      | some keys =>
          if val.length = 0 then AggRes.i64 []
          else
            let fin := hashAggRun keys val.length (val.length / 10 + 1024) (fun st _ _ => st)
            AggRes.i64 ((List.range fin.count).map fun g => val.getD (fin.firstRows g) 0)

/-- Embedding of aggr_last, i64 branch (src/core/aggr.c:837-893). -/
def aggr_last (ctx : Option QueryCtx) (val : List Int) : AggRes :=
  match ctx with
  | none => AggRes.err ErrCode.EC_DOMAIN
  | some c =>
      match c.groupby with
      | none => AggRes.err ErrCode.EC_DOMAIN
      | some keys =>
          if val.length = 0 then AggRes.i64 []
          else
            let fin := hashAggRun keys val.length (val.length / 10 + 1024) (fun st _ _ => st)
            AggRes.i64 ((List.range fin.count).map fun g => val.getD (fin.lastRows g) 0)

/-- Embedding of aggr_med (src/core/aggr.c:1079-1085): unconditionally
returns `err_domain(0, 0)`. -/
def aggr_med (ctx : Option QueryCtx) (val : List Int) : AggRes :=
  AggRes.err ErrCode.EC_DOMAIN

/-- Embedding of aggr_dev (src/core/aggr.c:1087-1093). -/
def aggr_dev (ctx : Option QueryCtx) (val : List Int) : AggRes :=
  AggRes.err ErrCode.EC_DOMAIN

/-- Embedding of aggr_collect (src/core/aggr.c:1095-1101). -/
def aggr_collect (ctx : Option QueryCtx) (val : List Int) : AggRes :=
  AggRes.err ErrCode.EC_DOMAIN

/-- Embedding of aggr_row (src/core/aggr.c:1103-1108). -/
def aggr_row (ctx : Option QueryCtx) (val : List Int) : AggRes :=
  AggRes.err ErrCode.EC_DOMAIN

/-! ### Generic fold and scan facts -/

theorem foldl_range_inv {α : Type} (P : Nat → α → Prop) (f : α → Nat → α) (n : Nat) (a : α)
    (h0 : P 0 a) (hstep : ∀ k b, k < n → P k b → P (k + 1) (f b k)) :
    P n ((List.range n).foldl f a) := by
  induction n with
  | zero => exact h0
  | succ m ih =>
      rw [List.range_succ, List.foldl_append]
      exact hstep m _ (Nat.lt_succ_self m) (ih (fun k b hk => hstep k b (Nat.lt_succ_of_lt hk)))

theorem getD_map_range (f : Nat → Int) {n a : Nat} (h : a < n) :
    ((List.range n).map f).getD a 0 = f a := by
  rw [List.getD_eq_getElem?_getD, List.getElem?_map, List.getElem?_range h]
  rfl

theorem int_sum_le_length (g : Nat → Int) :
    ∀ l : List Nat, (∀ x ∈ l, g x ≤ 1) → (l.map g).sum ≤ (l.length : Int) := by
  intro l
  induction l with
  | nil => intro _; simp
  | cons x rest ih =>
      intro h
      rw [List.map_cons, List.sum_cons, List.length_cons]
      have h1 := h x (List.mem_cons_self x rest)
      have h2 := ih fun y hy => h y (List.mem_cons_of_mem x hy)
      push_cast
      omega

theorem key_scan_min_le (kc : List Int) (nrows : Nat) :
    ∀ i, i < nrows → key_scan_min kc nrows ≤ kc.getD i 0 := by
  unfold key_scan_min
  apply foldl_range_inv (fun k m => ∀ i, i < k → m ≤ kc.getD i 0)
  · intro i hi
    omega
  · intro k b _ hP i hik
    by_cases hc : kc.getD k 0 < b
    · rw [if_pos hc]
      rcases Nat.lt_succ_iff_lt_or_eq.mp hik with h | h
      · exact le_trans (le_of_lt hc) (hP i h)
      · rw [h]
    · rw [if_neg hc]
      rcases Nat.lt_succ_iff_lt_or_eq.mp hik with h | h
      · exact hP i h
      · rw [h]; omega

theorem le_key_scan_max (kc : List Int) (nrows : Nat) :
    ∀ i, i < nrows → kc.getD i 0 ≤ key_scan_max kc nrows := by
  unfold key_scan_max
  apply foldl_range_inv (fun k m => ∀ i, i < k → kc.getD i 0 ≤ m)
  · intro i hi
    omega
  · intro k b _ hP i hik
    by_cases hc : b < kc.getD k 0
    · rw [if_pos hc]
      rcases Nat.lt_succ_iff_lt_or_eq.mp hik with h | h
      · exact le_trans (hP i h) (le_of_lt hc)
      · rw [h]
    · rw [if_neg hc]
      rcases Nat.lt_succ_iff_lt_or_eq.mp hik with h | h
      · exact hP i h
      · rw [h]; omega

theorem keys_equal_refl (keys : List (List Int)) (r : Nat) : keys_equal keys r r = true := by
  simp [keys_equal]

/-! ### Invariants of the open-addressing group table -/

/-- Every occupied entry names a live group. -/
def entriesWF (st : LocalAgg) : Prop :=
  ∀ slot s g, st.entries slot = some (s, g) → g < st.count

theorem ht_insert_probe_pred (P : Nat → Prop) :
    ∀ (fuel : Nat) (e : Nat → Option (Nat × Nat)) (cap idx salt gid : Nat),
    (∀ slot s g, e slot = some (s, g) → P g) → P gid →
    ∀ slot s g, ht_insert_probe fuel e cap idx salt gid slot = some (s, g) → P g := by
  intro fuel
  induction fuel with
  | zero =>
      intro e cap idx salt gid he _ slot s g h
      exact he slot s g h
  | succ f ih =>
      intro e cap idx salt gid he hgid slot s g h
      cases hidx : e idx with
      | none =>
          simp only [ht_insert_probe, hidx] at h
          by_cases hs : slot = idx
          · rw [hs, updf_self] at h
            cases h
            exact hgid
          · rw [updf_ne _ _ _ hs] at h
            exact he slot s g h
      | some sg =>
          simp only [ht_insert_probe, hidx] at h
          exact ih e cap ((idx + 1) &&& (cap - 1)) salt gid he hgid slot s g h

theorem local_agg_resize_fields (st : LocalAgg) :
    (local_agg_resize st).count = st.count
    ∧ (local_agg_resize st).maxGroups = st.maxGroups
    ∧ (local_agg_resize st).firstRows = st.firstRows
    ∧ (local_agg_resize st).lastRows = st.lastRows
    ∧ (local_agg_resize st).groupHashes = st.groupHashes
    ∧ (local_agg_resize st).sumsI64 = st.sumsI64
    ∧ (local_agg_resize st).sumsF64 = st.sumsF64
    ∧ (local_agg_resize st).counts = st.counts
    ∧ (local_agg_resize st).minsI64 = st.minsI64
    ∧ (local_agg_resize st).maxsI64 = st.maxsI64 :=
  ⟨rfl, rfl, rfl, rfl, rfl, rfl, rfl, rfl, rfl, rfl⟩

theorem local_agg_resize_wf (st : LocalAgg) (hwf : entriesWF st) :
    entriesWF (local_agg_resize st) := by
  intro slot s g h
  rw [show (local_agg_resize st).count = st.count from rfl]
  revert slot s g h
  show ∀ slot s g, (local_agg_resize st).entries slot = some (s, g) → g < st.count
  simp only [local_agg_resize]
  refine @foldl_range_inv (Nat → Option (Nat × Nat))
    (fun _ e => ∀ slot s g, e slot = some (s, g) → g < st.count) _ _ _ ?_ ?_
  · intro slot s g h
    cases h
  · intro k e _ hP
    cases hk : st.entries k with
    | none =>
        exact hP
    | some sg =>
        exact ht_insert_probe_pred (· < st.count) _ e _ _ _ _ hP
          (hwf k sg.1 sg.2 (by rw [hk]))

/-- Behavioural specification of `local_agg_find_or_create`: the accumulator
arrays and `max_groups` are untouched; existing groups keep their first
rows; the count either stays or grows by one new group whose first row is
the probing row; and any returned group id is live and agrees with the
probing row on the keys (at the group's first row). -/
theorem local_agg_find_or_create_spec (keys : List (List Int)) (row hash : Nat) :
    ∀ (fuel idx : Nat) (st : LocalAgg), entriesWF st →
    entriesWF (local_agg_find_or_create keys row hash fuel idx st).1
    ∧ (local_agg_find_or_create keys row hash fuel idx st).1.maxGroups = st.maxGroups
    ∧ (local_agg_find_or_create keys row hash fuel idx st).1.counts = st.counts
    ∧ (local_agg_find_or_create keys row hash fuel idx st).1.sumsI64 = st.sumsI64
    ∧ (local_agg_find_or_create keys row hash fuel idx st).1.sumsF64 = st.sumsF64
    ∧ (local_agg_find_or_create keys row hash fuel idx st).1.minsI64 = st.minsI64
    ∧ (local_agg_find_or_create keys row hash fuel idx st).1.maxsI64 = st.maxsI64
    ∧ (∀ g, g < st.count →
        (local_agg_find_or_create keys row hash fuel idx st).1.firstRows g = st.firstRows g)
    ∧ ((local_agg_find_or_create keys row hash fuel idx st).1.count = st.count
        ∨ ((local_agg_find_or_create keys row hash fuel idx st).1.count = st.count + 1
            ∧ st.count < st.maxGroups
            ∧ (local_agg_find_or_create keys row hash fuel idx st).2 = some st.count
            ∧ (local_agg_find_or_create keys row hash fuel idx st).1.firstRows st.count = row))
    ∧ (∀ g, (local_agg_find_or_create keys row hash fuel idx st).2 = some g →
        g < (local_agg_find_or_create keys row hash fuel idx st).1.count
        ∧ keys_equal keys ((local_agg_find_or_create keys row hash fuel idx st).1.firstRows g)
            row = true) := by
  intro fuel
  induction fuel with
  | zero =>
      intro idx st hwf
      refine ⟨hwf, rfl, rfl, rfl, rfl, rfl, rfl, fun g _ => rfl, Or.inl rfl, ?_⟩
      intro g h
      cases h
  | succ f ih =>
      intro idx st hwf
      rw [local_agg_find_or_create]
      cases hidx : st.entries idx with
      | none =>
          dsimp only
          by_cases hmax : st.maxGroups ≤ st.count
          · rw [if_pos hmax]
            refine ⟨hwf, rfl, rfl, rfl, rfl, rfl, rfl, fun g _ => rfl, Or.inl rfl, ?_⟩
            intro g h
            cases h
          · rw [if_neg hmax]
            by_cases hload : st.capacity * 7 < (st.count + 1) * 10
            · rw [if_pos hload]
              have hwf2 : entriesWF (local_agg_resize st) := local_agg_resize_wf st hwf
              have h2 := ih (hash &&& ((local_agg_resize st).capacity - 1))
                (local_agg_resize st) hwf2
              have hfields := local_agg_resize_fields st
              refine ⟨h2.1, ?_, ?_, ?_, ?_, ?_, ?_, ?_, ?_, ?_⟩
              · rw [h2.2.1, hfields.2.1]
              · rw [h2.2.2.1, hfields.2.2.2.2.2.2.2.1]
              · rw [h2.2.2.2.1, hfields.2.2.2.2.2.1]
              · rw [h2.2.2.2.2.1, hfields.2.2.2.2.2.2.1]
              · rw [h2.2.2.2.2.2.1, hfields.2.2.2.2.2.2.2.2.1]
              · rw [h2.2.2.2.2.2.2.1, hfields.2.2.2.2.2.2.2.2.2]
              · intro g hg
                rw [h2.2.2.2.2.2.2.2.1 g (by rw [hfields.1]; exact hg), hfields.2.2.1]
              · rcases h2.2.2.2.2.2.2.2.2.1 with h | ⟨ha, hb, hc, hd⟩
                · exact Or.inl (by rw [h, hfields.1])
                · refine Or.inr ⟨by rw [ha, hfields.1], ?_, ?_, ?_⟩
                  · rw [← hfields.1, ← hfields.2.1]; exact hb
                  · rw [hc, hfields.1]
                  · rw [← hfields.1]; exact hd
              · exact h2.2.2.2.2.2.2.2.2.2
            · rw [if_neg hload]
              refine ⟨?_, rfl, rfl, rfl, rfl, rfl, rfl, ?_, ?_, ?_⟩
              · intro slot s g h
                show g < st.count + 1
                by_cases hs : slot = idx
                · rw [hs] at h
                  rw [show ({ st with
                      count := st.count + 1
                      entries := updf st.entries idx (some (HASH_SALT hash, st.count))
                      firstRows := updf st.firstRows st.count row
                      lastRows := updf st.lastRows st.count row
                      groupHashes := updf st.groupHashes st.count hash } : LocalAgg).entries
                      = updf st.entries idx (some (HASH_SALT hash, st.count)) from rfl,
                    updf_self] at h
                  cases h
                  omega
                · rw [show ({ st with
                      count := st.count + 1
                      entries := updf st.entries idx (some (HASH_SALT hash, st.count))
                      firstRows := updf st.firstRows st.count row
                      lastRows := updf st.lastRows st.count row
                      groupHashes := updf st.groupHashes st.count hash } : LocalAgg).entries
                      = updf st.entries idx (some (HASH_SALT hash, st.count)) from rfl,
                    updf_ne _ _ _ hs] at h
                  exact Nat.lt_succ_of_lt (hwf slot s g h)
              · intro g hg
                exact updf_ne _ _ _ (by omega)
              · exact Or.inr ⟨rfl, by omega, rfl, updf_self _ _ _⟩
              · intro g h
                cases h
                refine ⟨Nat.lt_succ_self _, ?_⟩
                show keys_equal keys (updf st.firstRows st.count row st.count) row = true
                rw [updf_self]
                exact keys_equal_refl keys row
      | some sg =>
          dsimp only
          by_cases hmatch : (sg.1 == HASH_SALT hash
              && keys_equal keys (st.firstRows sg.2) row) = true
          · rw [if_pos hmatch]
            refine ⟨?_, rfl, rfl, rfl, rfl, rfl, rfl, fun g _ => rfl, Or.inl rfl, ?_⟩
            · intro slot s g h
              exact hwf slot s g h
            · intro g h
              cases h
              rcases (Bool.and_eq_true _ _).mp hmatch with ⟨_, hkeys⟩
              exact ⟨hwf idx sg.1 sg.2 (by rw [hidx]), hkeys⟩
          · rw [if_neg hmatch]
            exact ih ((idx + 1) &&& (st.capacity - 1)) st hwf

/-! ### C2: the group table caps out at max_groups and drops rows

`aggr_count`'s hash fallback sizes its group arrays at `nrows / 10 + 1024`
and `local_agg_find_or_create` returns -1 (here `none`) once that many
groups exist, silently dropping the row.  With 1139 rows of pairwise
distinct keys the cap is 1137, so two rows are dropped and the per-group
counts sum to 1137 ≠ 1139 — the groups do not partition the rows. -/

def c2_key : List Int := (List.range 1139).map fun i : Nat => 65537 * (i : Int)

def c2_val : List Int := List.replicate 1139 0

/-- The inductive invariant along the counting fold: the table is
well-formed, the group count respects the cap, every live group's first row
is an already-processed row, and — for pairwise-distinct keys — every
group's count is at most one (unassigned ids hold zero). -/
def countInv (nrows maxG : Nat) (k : Nat) (st : LocalAgg) : Prop :=
  entriesWF st
  ∧ st.maxGroups = maxG
  ∧ st.count ≤ maxG
  ∧ (∀ g, g < st.count → st.firstRows g < k ∧ st.firstRows g < nrows)
  ∧ (∀ g, g < st.count → st.counts g ≤ 1)
  ∧ (∀ g, st.count ≤ g → st.counts g = 0)

theorem hash_count_state_inv (keys : List (List Int)) (nrows : Nat)
    (hinj : ∀ a b, a < nrows → b < nrows → keys_equal keys a b = true → a = b) :
    countInv nrows (nrows / 10 + 1024) nrows (hash_count_state keys nrows) := by
  unfold hash_count_state hashAggRun
  refine @foldl_range_inv LocalAgg (countInv nrows (nrows / 10 + 1024)) _ _ _ ?_ ?_
  · refine ⟨?_, rfl, ?_, ?_, ?_, ?_⟩
    · intro slot s g h
      simp [local_agg_init] at h
    · show (local_agg_init INITIAL_HT_CAPACITY (nrows / 10 + 1024)).count ≤ nrows / 10 + 1024
      show 0 ≤ nrows / 10 + 1024
      omega
    · intro g hg
      exact absurd hg (by show ¬ (g < 0); omega)
    · intro g hg
      exact absurd hg (by show ¬ (g < 0); omega)
    · intro g _
      rfl
  · intro k st hk hP
    obtain ⟨hwf, hmaxg, hcle, hfr, hc1, hc0⟩ := hP
    have spec := local_agg_find_or_create_spec keys k (compute_composite_hash keys k)
      (st.capacity * 2 + 4) (compute_composite_hash keys k &&& (st.capacity - 1)) st hwf
    obtain ⟨swf, smax, scnts, _, _, _, _, sfr, scount, sres⟩ := spec
    show countInv nrows (nrows / 10 + 1024) (k + 1)
      (hashAggStep keys (fun st2 g _ => { st2 with counts := updf st2.counts g (st2.counts g + 1) })
        st k)
    rw [hashAggStep]
    cases hres : (local_agg_find_or_create keys k (compute_composite_hash keys k)
        (st.capacity * 2 + 4) (compute_composite_hash keys k &&& (st.capacity - 1)) st).2 with
    | none =>
        rcases scount with hsame | ⟨_, _, hsome, _⟩
        · refine ⟨swf, by rw [smax]; exact hmaxg, by rw [hsame]; exact hcle, ?_, ?_, ?_⟩
          · intro g hg
            rw [hsame] at hg
            rw [sfr g hg]
            exact ⟨Nat.lt_succ_of_lt (hfr g hg).1, (hfr g hg).2⟩
          · intro g hg
            rw [hsame] at hg
            rw [scnts]
            exact hc1 g hg
          · intro g hg
            rw [hsame] at hg
            rw [scnts]
            exact hc0 g hg
        · rw [hres] at hsome
          cases hsome
    | some g =>
        obtain ⟨hgc, hkeq⟩ := sres g hres
        rcases scount with hsame | ⟨hcnt1, hlt, hsome, hfrow⟩
        · exfalso
          rw [hsame] at hgc
          have hfix := sfr g hgc
          rw [hfix] at hkeq
          have := hinj (st.firstRows g) k (hfr g hgc).2 hk hkeq
          have := (hfr g hgc).1
          omega
        · have hgeq : g = st.count := by
            rw [hres] at hsome
            cases hsome
            rfl
          refine ⟨?_, ?_, ?_, ?_, ?_, ?_⟩
          · intro slot s g2 hh
            exact swf slot s g2 hh
          · show (local_agg_find_or_create keys k (compute_composite_hash keys k)
              (st.capacity * 2 + 4) (compute_composite_hash keys k &&& (st.capacity - 1))
              st).1.maxGroups = nrows / 10 + 1024
            rw [smax]
            exact hmaxg
          · show (local_agg_find_or_create keys k (compute_composite_hash keys k)
              (st.capacity * 2 + 4) (compute_composite_hash keys k &&& (st.capacity - 1))
              st).1.count ≤ nrows / 10 + 1024
            rw [hcnt1]
            rw [hmaxg] at hlt
            omega
          · intro g2 hg2
            show (local_agg_find_or_create keys k (compute_composite_hash keys k)
              (st.capacity * 2 + 4) (compute_composite_hash keys k &&& (st.capacity - 1))
              st).1.firstRows g2 < k + 1
              ∧ (local_agg_find_or_create keys k (compute_composite_hash keys k)
              (st.capacity * 2 + 4) (compute_composite_hash keys k &&& (st.capacity - 1))
              st).1.firstRows g2 < nrows
            rw [hcnt1] at hg2
            by_cases hg2c : g2 < st.count
            · rw [sfr g2 hg2c]
              exact ⟨Nat.lt_succ_of_lt (hfr g2 hg2c).1, (hfr g2 hg2c).2⟩
            · have : g2 = st.count := by omega
              rw [this, hfrow]
              exact ⟨Nat.lt_succ_self k, hk⟩
          · intro g2 hg2
            show updf (local_agg_find_or_create keys k (compute_composite_hash keys k)
              (st.capacity * 2 + 4) (compute_composite_hash keys k &&& (st.capacity - 1))
              st).1.counts g ((local_agg_find_or_create keys k (compute_composite_hash keys k)
              (st.capacity * 2 + 4) (compute_composite_hash keys k &&& (st.capacity - 1))
              st).1.counts g + 1) g2 ≤ 1
            rw [hcnt1] at hg2
            by_cases hg2g : g2 = g
            · rw [hg2g, updf_self, scnts, hgeq, hc0 st.count (Nat.le_refl _)]
            · rw [updf_ne _ _ _ hg2g, scnts]
              have : g2 < st.count := by omega
              exact hc1 g2 this
          · intro g2 hg2
            show updf (local_agg_find_or_create keys k (compute_composite_hash keys k)
              (st.capacity * 2 + 4) (compute_composite_hash keys k &&& (st.capacity - 1))
              st).1.counts g ((local_agg_find_or_create keys k (compute_composite_hash keys k)
              (st.capacity * 2 + 4) (compute_composite_hash keys k &&& (st.capacity - 1))
              st).1.counts g + 1) g2 = 0
            rw [hcnt1] at hg2
            have hne : g2 ≠ g := by omega
            rw [updf_ne _ _ _ hne, scnts]
            exact hc0 g2 (by omega)

theorem c2_keys_inj : ∀ a b, a < 1139 → b < 1139 → keys_equal [c2_key] a b = true → a = b := by
  intro a b ha hb h
  simp only [keys_equal, List.all_cons, List.all_nil, Bool.and_true, beq_iff_eq] at h
  rw [c2_key, getD_map_range _ ha, getD_map_range _ hb] at h
  omega

theorem c2_dispatch :
    aggr_count (some ⟨some [c2_key]⟩) c2_val = hash_count [c2_key] c2_val := by
  have hl : c2_val.length = 1139 := by rw [c2_val, List.length_replicate]
  have hmax : (65537 * 1138 : Int) ≤ key_scan_max c2_key 1139 := by
    have h := le_key_scan_max c2_key 1139 1138 (by norm_num)
    have hg : c2_key.getD 1138 0 = (65537 * 1138 : Int) := by
      rw [c2_key, getD_map_range _ (by norm_num : (1138 : Nat) < 1139)]
      norm_num
    rw [hg] at h
    exact h
  have hmin : key_scan_min c2_key 1139 ≤ 0 := by
    have h := key_scan_min_le c2_key 1139 0 (by norm_num)
    have hg : c2_key.getD 0 0 = (0 : Int) := by
      rw [c2_key, getD_map_range _ (by norm_num : (0 : Nat) < 1139)]
      norm_num
    rw [hg] at h
    exact h
  simp only [aggr_count]
  rw [hl, if_neg (by norm_num),
    if_pos (show ([c2_key] : List (List Int)).length = 1 from rfl),
    show ([c2_key] : List (List Int)).getD 0 [] = c2_key from rfl,
    if_neg (by
      intro hc
      have h2 := hc.2
      norm_num [PERFECT_HASH_THRESHOLD] at h2
      omega)]

/-- C2: refuted at a concrete input — grouping 1139 rows by a single i64 key
column with 1139 pairwise-distinct values (`65537 * i`, so the key range
exceeds the perfect-hash threshold and the hash path runs), the per-group
counts of `aggr_count` sum to at most 1137 < 1139: `local_agg_find_or_create`
fails with -1 once `count` reaches `max_groups = nrows / 10 + 1024 = 1137`
(src/core/aggr.c:300-305), so two rows belong to no group — the groups do
not partition the row set and the counts do not sum to the row count. -/
theorem c2_group_counts_do_not_cover_rows :
    c2_val.length = 1139
    ∧ ∃ out : List Int, aggr_count (some ⟨some [c2_key]⟩) c2_val = AggRes.i64 out
        ∧ out.sum ≤ 1137 := by
  have hl : c2_val.length = 1139 := by rw [c2_val, List.length_replicate]
  refine ⟨hl, ?_⟩
  obtain ⟨_, _, hcle, _, hc1, _⟩ := hash_count_state_inv [c2_key] 1139 c2_keys_inj
  refine ⟨(List.range (hash_count_state [c2_key] 1139).count).map
      (fun g => ((hash_count_state [c2_key] 1139).counts g : Int)), ?_, ?_⟩
  · refine Eq.trans c2_dispatch ?_
    simp only [hash_count]
    rw [hl]
  · have hcle2 : (hash_count_state [c2_key] 1139).count ≤ 1137 := by
      norm_num at hcle
      exact hcle
    refine le_trans (int_sum_le_length _ _ ?_) ?_
    · intro x hx
      exact_mod_cast hc1 x (List.mem_range.mp hx)
    · rw [List.length_range]
      exact_mod_cast hcle2

/-! ### C10: the DOMAIN guard on every aggregate -/

/-- C10: every aggregate (sum, count, avg, min, max, first, last) returns a
DOMAIN error when there is no current query context, and likewise when the
context's groupby key list is absent (src/core/aggr.c:638-641, 703-706,
786-789, 844-847, 904-907, 967-970, 1027-1030); the guard runs before any
work on the value column, which the pure embedding leaves untouched by
construction. -/
theorem c10_aggregates_domain_guard :
    ∀ (cfg : PoolCfg) (val : List Int),
      (aggr_sum cfg none val = AggRes.err ErrCode.EC_DOMAIN
        ∧ aggr_count none val = AggRes.err ErrCode.EC_DOMAIN
        ∧ aggr_avg none val = AggRes.err ErrCode.EC_DOMAIN
        ∧ aggr_min none val = AggRes.err ErrCode.EC_DOMAIN
        ∧ aggr_max none val = AggRes.err ErrCode.EC_DOMAIN
        ∧ aggr_first none val = AggRes.err ErrCode.EC_DOMAIN
        ∧ aggr_last none val = AggRes.err ErrCode.EC_DOMAIN)
      ∧ (aggr_sum cfg (some ⟨none⟩) val = AggRes.err ErrCode.EC_DOMAIN
        ∧ aggr_count (some ⟨none⟩) val = AggRes.err ErrCode.EC_DOMAIN
        ∧ aggr_avg (some ⟨none⟩) val = AggRes.err ErrCode.EC_DOMAIN
        ∧ aggr_min (some ⟨none⟩) val = AggRes.err ErrCode.EC_DOMAIN
        ∧ aggr_max (some ⟨none⟩) val = AggRes.err ErrCode.EC_DOMAIN
        ∧ aggr_first (some ⟨none⟩) val = AggRes.err ErrCode.EC_DOMAIN
        ∧ aggr_last (some ⟨none⟩) val = AggRes.err ErrCode.EC_DOMAIN) :=
  fun _ _ =>
    ⟨⟨rfl, rfl, rfl, rfl, rfl, rfl, rfl⟩, ⟨rfl, rfl, rfl, rfl, rfl, rfl, rfl⟩⟩

/-! ### C4: median, stddev, collect and row -/

/-- C4 counterexample: invoked inside a query (a context with a groupby key
list), median, stddev, collect and row return error code `EC_DOMAIN`, not
the `EC_NYI` the claim asserts — the stubs call `err_domain(0, 0)`, not
`err_nyi` (src/core/aggr.c:1079-1108). -/
theorem c4_stubs_domain_not_nyi :
    aggr_med (some ⟨some [[1]]⟩) [1] = AggRes.err ErrCode.EC_DOMAIN
    ∧ aggr_dev (some ⟨some [[1]]⟩) [1] = AggRes.err ErrCode.EC_DOMAIN
    ∧ aggr_collect (some ⟨some [[1]]⟩) [1] = AggRes.err ErrCode.EC_DOMAIN
    ∧ aggr_row (some ⟨some [[1]]⟩) [1] = AggRes.err ErrCode.EC_DOMAIN
    ∧ ErrCode.EC_DOMAIN ≠ ErrCode.EC_NYI :=
  ⟨rfl, rfl, rfl, rfl, by decide⟩

/-- C4 (corrected): the aggregate operations median, stddev, collect and
row each return an error whose code is `EC_DOMAIN` (they are stubs calling
`err_domain(0, 0)`), for every query context and value column — not
`ERR_NYI` as claimed. -/
theorem c4_med_dev_collect_row_domain :
    ∀ (ctx : Option QueryCtx) (val : List Int),
      aggr_med ctx val = AggRes.err ErrCode.EC_DOMAIN
      ∧ aggr_dev ctx val = AggRes.err ErrCode.EC_DOMAIN
      ∧ aggr_collect ctx val = AggRes.err ErrCode.EC_DOMAIN
      ∧ aggr_row ctx val = AggRes.err ErrCode.EC_DOMAIN :=
  fun _ _ => ⟨rfl, rfl, rfl, rfl⟩

/-! ### C6: the perfect-hash dispatch boundary -/

/-- C6: for a single i64/symbol key column, `aggr_sum` and `aggr_count`
take the perfect-hash path (a direct array indexed by `key - min`, emitting
groups in ascending key order) exactly when the scanned key range
`max - min + 1` is positive and at most `PERFECT_HASH_THRESHOLD = 65536`;
from 65537 onward they fall back to hash probing (`aggr_sum` through the
parallel-or-serial fused hash path, `aggr_count` through the serial one). -/
theorem c6_perfect_hash_dispatch :
    ∀ (cfg : PoolCfg) (kc val : List Int),
      val.length ≠ 0 →
      ((0 < key_scan_max kc val.length - key_scan_min kc val.length + 1 →
        key_scan_max kc val.length - key_scan_min kc val.length + 1 ≤ 65536 →
        aggr_sum cfg (some ⟨some [kc]⟩) val
          = fused_sum_i64_perfect kc val (key_scan_min kc val.length)
              (key_scan_max kc val.length - key_scan_min kc val.length + 1).toNat
        ∧ aggr_count (some ⟨some [kc]⟩) val
          = perfect_count kc val (key_scan_min kc val.length)
              (key_scan_max kc val.length - key_scan_min kc val.length + 1).toNat)
      ∧ (65537 ≤ key_scan_max kc val.length - key_scan_min kc val.length + 1 →
        aggr_sum cfg (some ⟨some [kc]⟩) val
          = (if PARALLEL_AGG_THRESHOLD ≤ val.length
              then fused_sum_i64_parallel cfg [kc] val
              else fused_sum_i64_hash [kc] val)
        ∧ aggr_count (some ⟨some [kc]⟩) val = hash_count [kc] val)) := by
  intro cfg kc val h0
  constructor
  · intro hpos hle
    constructor
    · simp only [aggr_sum]
      rw [if_neg h0, if_pos (show ([kc] : List (List Int)).length = 1 from rfl),
        show ([kc] : List (List Int)).getD 0 [] = kc from rfl,
        if_pos (⟨hpos, by norm_num [PERFECT_HASH_THRESHOLD]; exact hle⟩ :
          0 < key_scan_max kc val.length - key_scan_min kc val.length + 1
          ∧ key_scan_max kc val.length - key_scan_min kc val.length + 1
              ≤ (PERFECT_HASH_THRESHOLD : Int))]
    · simp only [aggr_count]
      rw [if_neg h0, if_pos (show ([kc] : List (List Int)).length = 1 from rfl),
        show ([kc] : List (List Int)).getD 0 [] = kc from rfl,
        if_pos (⟨hpos, by norm_num [PERFECT_HASH_THRESHOLD]; exact hle⟩ :
          0 < key_scan_max kc val.length - key_scan_min kc val.length + 1
          ∧ key_scan_max kc val.length - key_scan_min kc val.length + 1
              ≤ (PERFECT_HASH_THRESHOLD : Int))]
  · intro hge
    constructor
    · simp only [aggr_sum]
      rw [if_neg h0, if_pos (show ([kc] : List (List Int)).length = 1 from rfl),
        show ([kc] : List (List Int)).getD 0 [] = kc from rfl,
        if_neg (by
          intro hc
          have h2 := hc.2
          norm_num [PERFECT_HASH_THRESHOLD] at h2
          omega)]
    · simp only [aggr_count]
      rw [if_neg h0, if_pos (show ([kc] : List (List Int)).length = 1 from rfl),
        show ([kc] : List (List Int)).getD 0 [] = kc from rfl,
        if_neg (by
          intro hc
          have h2 := hc.2
          norm_num [PERFECT_HASH_THRESHOLD] at h2
          omega)]

/-- Witness for `c6_perfect_hash_dispatch`: the key column `[1, 65536]` has
range exactly 65536 and hits the perfect-hash path, while `[1, 65537]` has
range 65537 and falls to hash probing. -/
theorem c6_perfect_hash_dispatch_witness :
    aggr_sum ⟨1, false⟩ (some ⟨some [[1, 65536]]⟩) [5, 7]
      = fused_sum_i64_perfect [1, 65536] [5, 7] (key_scan_min [1, 65536] 2)
          (key_scan_max [1, 65536] 2 - key_scan_min [1, 65536] 2 + 1).toNat
    ∧ aggr_count (some ⟨some [[1, 65537]]⟩) [5, 7] = hash_count [[1, 65537]] [5, 7] :=
  ⟨((c6_perfect_hash_dispatch ⟨1, false⟩ [1, 65536] [5, 7] (by decide)).1
      (by decide) (by decide)).1,
   ((c6_perfect_hash_dispatch ⟨1, false⟩ [1, 65537] [5, 7] (by decide)).2
      (by decide)).2⟩

/-! ### C5: all-null groups -/

/-- C5 counterexample: summing the value column `[NULL, NULL, 5]` grouped by
the single key column `[1, 1, 2]` takes the perfect-hash path (range 2) and
returns just `[5]` — the group for key 1, whose values are all NULL, does
NOT appear in the result with sum 0 as claimed: the extraction loop
(src/core/aggr.c:427-445) skips buckets whose non-null count is zero. -/
theorem c5_perfect_sum_drops_all_null_group :
    aggr_sum ⟨1, false⟩ (some ⟨some [[1, 1, 2]]⟩) [NULL_I64, NULL_I64, 5]
      = AggRes.i64 [5] := by
  decide

/-- C5 (corrected): on the perfect-hash sum path a group whose values are
all NULL is omitted from the result entirely (its bucket count stays zero,
so the extraction filter drops it); the claimed behaviour does hold on the
hash paths, where every encountered group appears — with sum 0 under sum,
0.0 under avg, and the NULL sentinel under min and max, shown here on a
two-key-column group-by (which forces the hash path) whose first group has
only NULL values. -/
theorem c5_all_null_group_results :
    (∀ (kc val : List Int) (minK : Int) (range b : Nat),
      (∀ i, i < kc.length → (kc.getD i 0 - minK).toNat = b → val.getD i 0 = NULL_I64) →
      (perfect_sum_state kc val minK).counts b = 0
      ∧ fused_sum_i64_perfect kc val minK range
          = AggRes.i64 (((List.range range).filter
              fun b2 => decide (0 < (perfect_sum_state kc val minK).counts b2)).map
              fun b2 => (perfect_sum_state kc val minK).sums b2)
      ∧ b ∉ (List.range range).filter
          fun b2 => decide (0 < (perfect_sum_state kc val minK).counts b2))
    ∧ aggr_sum ⟨1, false⟩ (some ⟨some [[1, 1, 2], [7, 7, 9]]⟩) [NULL_I64, NULL_I64, 5]
        = AggRes.i64 [0, 5]
    ∧ aggr_avg (some ⟨some [[1, 1, 2], [7, 7, 9]]⟩) [NULL_I64, NULL_I64, 5]
        = AggRes.f64 [0, 5]
    ∧ aggr_min (some ⟨some [[1, 1, 2], [7, 7, 9]]⟩) [NULL_I64, NULL_I64, 5]
        = AggRes.i64 [NULL_I64, 5]
    ∧ aggr_max (some ⟨some [[1, 1, 2], [7, 7, 9]]⟩) [NULL_I64, NULL_I64, 5]
        = AggRes.i64 [NULL_I64, 5] := by
  refine ⟨?_, by decide, ?_, by decide, by decide⟩
  · intro kc val minK range b hnull
    have hcounts : (perfect_sum_state kc val minK).counts b = 0 := by
      unfold perfect_sum_state
      refine @foldl_range_inv PerfectAgg (fun _ st => st.counts b = 0) _ _ _ rfl ?_
      intro k st hk hst
      dsimp only
      by_cases hidx : (kc.getD k 0 - minK).toNat = b
      · have hv := hnull k hk hidx
        show updf st.counts ((kc.getD k 0 - minK).toNat)
            (st.counts ((kc.getD k 0 - minK).toNat)
              + (if val.getD k 0 == NULL_I64 then 0 else 1)) b = 0
        rw [hidx, updf_self, hst, hv]
        simp
      · show updf st.counts ((kc.getD k 0 - minK).toNat)
            (st.counts ((kc.getD k 0 - minK).toNat)
              + (if val.getD k 0 == NULL_I64 then 0 else 1)) b = 0
        rw [updf_ne _ _ _ (by intro hh; exact hidx hh.symm)]
        exact hst
    refine ⟨hcounts, rfl, ?_⟩
    intro hmem
    rw [List.mem_filter, hcounts] at hmem
    simp at hmem
  · have hc : (hash_avg_state [[1, 1, 2], [7, 7, 9]] [NULL_I64, NULL_I64, 5]).count = 2 := by
      decide
    have h0 : (hash_avg_state [[1, 1, 2], [7, 7, 9]] [NULL_I64, NULL_I64, 5]).counts 0 = 0 := by
      decide
    have h1 : (hash_avg_state [[1, 1, 2], [7, 7, 9]] [NULL_I64, NULL_I64, 5]).counts 1 = 1 := by
      decide
    have hs : (hash_avg_state [[1, 1, 2], [7, 7, 9]] [NULL_I64, NULL_I64, 5]).sumsI64 1 = 5 := by
      decide
    simp only [aggr_avg]
    rw [if_neg (by decide), hc, show List.range 2 = [0, 1] from rfl,
      List.map_cons, List.map_cons, List.map_nil, h0, h1, hs]
    norm_num

/-- Witness for `c5_all_null_group_results` at the counterexample's input:
bucket 0 (key 1) of the perfect-hash sum over keys `[1, 1, 2]` and values
`[NULL, NULL, 5]` has count 0 and is absent from the emitted buckets. -/
theorem c5_all_null_group_results_witness :
    (perfect_sum_state [1, 1, 2] [NULL_I64, NULL_I64, 5] 1).counts 0 = 0
    ∧ 0 ∉ (List.range 2).filter
        fun b2 => decide (0 < (perfect_sum_state [1, 1, 2] [NULL_I64, NULL_I64, 5] 1).counts b2) :=
  ⟨(c5_all_null_group_results.1 [1, 1, 2] [NULL_I64, NULL_I64, 5] 1 2 0 (by decide)).1,
   (c5_all_null_group_results.1 [1, 1, 2] [NULL_I64, NULL_I64, 5] 1 2 0 (by decide)).2.2⟩

/- ### Generic first-match facts about List.find? -/

/-- `find?` over an appended list: a hit in the left part wins. -/
theorem find?_append_of_some {α : Type} (p : α → Bool) (l₁ l₂ : List α) (a : α)
    (h : l₁.find? p = some a) : (l₁ ++ l₂).find? p = some a := by
  induction l₁ with
  | nil => exact absurd h (by simp)
  | cons x l ih =>
      cases hx : p x with
      | true =>
          rw [List.find?_cons_of_pos _ hx] at h
          rw [List.cons_append, List.find?_cons_of_pos _ hx]
          exact h
      | false =>
          rw [List.find?_cons_of_neg _ (by simp [hx])] at h
          rw [List.cons_append, List.find?_cons_of_neg _ (by simp [hx])]
          exact ih h

/-- `find?` over an appended list: no hit on the left defers to the right part. -/
theorem find?_append_of_none {α : Type} (p : α → Bool) (l₁ l₂ : List α)
    (h : l₁.find? p = none) : (l₁ ++ l₂).find? p = l₂.find? p := by
  induction l₁ with
  | nil => rfl
  | cons x l ih =>
      cases hx : p x with
      | true => rw [List.find?_cons_of_pos _ hx] at h; exact absurd h (by simp)
      | false =>
          rw [List.find?_cons_of_neg _ (by simp [hx])] at h
          rw [List.cons_append, List.find?_cons_of_neg _ (by simp [hx])]
          exact ih h

/-- `find?` over an appended list, case analysis form. -/
theorem find?_append_cases {α : Type} (p : α → Bool) (l₁ l₂ : List α) (a : α)
    (h : (l₁ ++ l₂).find? p = some a) :
    l₁.find? p = some a ∨ (l₁.find? p = none ∧ l₂.find? p = some a) := by
  cases hf : l₁.find? p with
  | some b =>
      left
      rw [find?_append_of_some p l₁ l₂ b hf] at h
      exact h
  | none =>
      right
      rw [find?_append_of_none p l₁ l₂ hf] at h
      exact ⟨rfl, h⟩

/-- A successful `find?` over `List.range n` returns the least index satisfying `p`. -/
theorem find_range_first (p : Nat → Bool) :
    ∀ n j, (List.range n).find? p = some j →
      j < n ∧ p j = true ∧ ∀ k, k < j → p k = false := by
  intro n
  induction n with
  | zero => intro j h; exact absurd h (by simp)
  | succ m ih =>
      intro j h
      rw [List.range_succ] at h
      rcases find?_append_cases p _ _ _ h with h1 | ⟨h1, h2⟩
      · obtain ⟨hlt, hp, hmin⟩ := ih j h1
        exact ⟨Nat.lt_succ_of_lt hlt, hp, hmin⟩
      · have hj : j = m := by
          have hmem := List.mem_of_find?_eq_some h2
          simpa using hmem
        subst hj
        refine ⟨Nat.lt_succ_self j, List.find?_some h2, ?_⟩
        intro k hk
        have hnot := List.find?_eq_none.mp h1 k (List.mem_range.mpr hk)
        exact Bool.not_eq_true _ ▸ Bool.of_not_eq_true hnot

/-- A failing `find?` over `List.range n` means no index below `n` satisfies `p`. -/
theorem find_range_none (p : Nat → Bool) (n : Nat)
    (h : (List.range n).find? p = none) : ∀ k, k < n → p k = false := by
  intro k hk
  have hnot := List.find?_eq_none.mp h k (List.mem_range.mpr hk)
  exact Bool.of_not_eq_true hnot

/-- `getD` of a map over `List.range` below the length. -/
theorem getD_map_range' {α : Type} (f : Nat → α) (d : α) {n a : Nat} (h : a < n) :
    ((List.range n).map f).getD a d = f a := by
  rw [List.getD_eq_getElem?_getD, List.getElem?_map, List.getElem?_range h]
  rfl

/-- `getD` of a map over `List.range` at or beyond the length gives the default. -/
theorem getD_map_range_ge {α : Type} (f : Nat → α) (d : α) {n a : Nat} (h : n ≤ a) :
    ((List.range n).map f).getD a d = d := by
  rw [List.getD_eq_getElem?_getD, List.getElem?_map,
    List.getElem?_eq_none (by rw [List.length_range]; exact h)]
  rfl

/- ### C3: left-join index build, join.c:189-227 -/

/-- `hashi64` (join.c:92-103) — textually the same mixer as aggr.c's
hash_index_u64; the claim's first-match property does not depend on the hash
values, which only route keys to hash-table slots. -/
def hashi64 (h k : Nat) : Nat := hash_index_u64 h k

/-- Per-row composite key: the tuple of key-column values at row `i`
(join.c `cmp_row` compares two rows by equality on every key column). -/
def rowKey (cols : List (List Int)) (i : Nat) : List Int :=
  cols.map fun c => c.getD i 0

/-- `precalc_hash` (join.c:153-167): per-row fold of `hashi64` over the key
columns, seeded with `0xa5b6c7d8e9f01234` (decorative for the claim). -/
def precalc_hash (cols : List (List Int)) (i : Nat) : Nat :=
  (rowKey cols i).foldl (fun acc v => hashi64 (u64_of_i64 v) acc) 0xa5b6c7d8e9f01234

/-- Modelled from the spec (§4.7): `ht_tab` / `ht_tab_next_with` are declared in
hash.h but their definitions are not under src/. The table maps a row key to the
first right row inserted with that key: `ht_tab_next_with` probes to the slot of
`key` and build_idx stores `i` there only while the slot still holds NULL_I64, so
later right rows with an equal key never overwrite it. -/
def ht_ins (tab : List (List Int × Nat)) (key : List Int) (j : Nat) :
    List (List Int × Nat) :=
  match tab.find? fun e => decide (e.1 = key) with
  | some _ => tab
  | none => tab ++ [(key, j)]

/-- Modelled from the spec (§4.7): `ht_tab_get_with` — look the key up, yielding
the stored right-row index when present. -/
def ht_lookup (tab : List (List Int × Nat)) (key : List Int) : Option Nat :=
  (tab.find? fun e => decide (e.1 = key)).map Prod.snd

/-- Reinterpret a 64-bit unsigned value as a signed i64 (two's complement),
as reading the hash scratch back through as_i64 does. -/
def i64_of_u64 (x : Nat) : Int := if x < 2 ^ 63 then (x : Int) else (x : Int) - 2 ^ 64

/-- `build_idx` (join.c:189-227). With `len == 1` the code delegates to
`ray_find` on the single column (modelled from the spec §4.7: index of the
first matching right value, or NULL_I64). Otherwise the result vector is
allocated as `vector_i64(maxi64(ll, rl))` (join.c:203) and doubles as the
per-row hash scratch: the right pass fills slots 0..rl-1 with right-row
hashes, the table is built over them (first insertion per key wins), then the
left pass and the probe loop overwrite only slots 0..ll-1 with the looked-up
right-row index or NULL_I64, and the vector is returned untruncated — so when
rl > ll the surplus slots ll..rl-1 still hold leftover right-row hashes. -/
def build_idx (lcols rcols : List (List Int)) (len : Nat) : List Int :=
  if len = 1 then
    let lc := lcols.getD 0 []
    let rc := rcols.getD 0 []
    (List.range lc.length).map fun i =>
      (Option.map (fun j : Nat => (j : Int))
        ((List.range rc.length).find? fun j =>
          decide (rc.getD j 0 = lc.getD i 0))).getD NULL_I64
  else
    let ll := (lcols.getD 0 []).length
    let rl := (rcols.getD 0 []).length
    let tab := (List.range rl).foldl (fun t j => ht_ins t (rowKey rcols j) j) []
    (List.range (max ll rl)).map fun i =>
      if i < ll then
        (Option.map (fun j : Nat => (j : Int))
          (ht_lookup tab (rowKey lcols i))).getD NULL_I64
      else i64_of_u64 (precalc_hash rcols i)

/-- The right-row table built by `build_idx` answers every lookup exactly as a
first-match scan of the right rows would. -/
theorem build_tab_lookup (rcols : List (List Int)) (n : Nat) :
    ∀ key, ht_lookup ((List.range n).foldl (fun t j => ht_ins t (rowKey rcols j) j) []) key
      = (List.range n).find? fun j => decide (rowKey rcols j = key) := by
  refine @foldl_range_inv (List (List Int × Nat))
    (fun m t => ∀ key, ht_lookup t key
      = (List.range m).find? fun j => decide (rowKey rcols j = key))
    _ n [] (fun key => rfl) ?_
  intro k t _ hP key
  rw [List.range_succ]
  have hkey' := hP (rowKey rcols k)
  show ht_lookup (ht_ins t (rowKey rcols k) k) key = _
  rw [ht_ins]
  cases hf : t.find? fun e => decide (e.1 = rowKey rcols k) with
  | some e0 =>
      have hsome : ((List.range k).find? fun j =>
          decide (rowKey rcols j = rowKey rcols k)).isSome = true := by
        rw [← hkey']
        rw [ht_lookup, hf]
        rfl
      cases hm : (List.range k).find? fun j => decide (rowKey rcols j = key) with
      | some j0 =>
          rw [find?_append_of_some _ _ _ _ hm]
          rw [← hm, ← hP key]
      | none =>
          rw [find?_append_of_none _ _ _ hm]
          by_cases hkk : rowKey rcols k = key
          · exfalso
            subst hkk
            rw [hm] at hsome
            exact Bool.false_ne_true hsome
          · rw [List.find?_cons_of_neg _ (by simpa using hkk), List.find?_nil]
            rw [← hm, ← hP key]
  | none =>
      have hnone : ((List.range k).find? fun j =>
          decide (rowKey rcols j = rowKey rcols k)) = none := by
        rw [← hkey', ht_lookup, hf]
        rfl
      rw [ht_lookup]
      cases hft : t.find? fun e => decide (e.1 = key) with
      | some e0 =>
          rw [find?_append_of_some _ _ _ _ hft]
          have hm : ((List.range k).find? fun j => decide (rowKey rcols j = key))
              = some e0.2 := by
            rw [← hP key, ht_lookup, hft]
            rfl
          rw [find?_append_of_some _ _ _ _ hm]
          rfl
      | none =>
          rw [find?_append_of_none _ _ _ hft]
          have hm : ((List.range k).find? fun j => decide (rowKey rcols j = key))
              = none := by
            rw [← hP key, ht_lookup, hft]
            rfl
          rw [find?_append_of_none _ _ _ hm]
          by_cases hkk : rowKey rcols k = key
          · rw [List.find?_cons_of_pos _ (by simpa using hkk),
              List.find?_cons_of_pos _ (by simpa using hkk)]
            rfl
          · rw [List.find?_cons_of_neg _ (by simpa using hkk),
              List.find?_cons_of_neg _ (by simpa using hkk), List.find?_nil]
            rfl

/-- A right-row index, as stored in the result, is never the NULL sentinel. -/
theorem natCast_ne_null_i64 (j : Nat) : (j : Int) ≠ NULL_I64 := by
  intro h
  have h0 : (0 : Int) ≤ (j : Int) := Int.natCast_nonneg j
  rw [h] at h0
  norm_num [NULL_I64] at h0

/-- C3 (amended): left-join index build (join.c:189-227). With a single key
column the output has one slot per left row and slot `i` holds the least right
row `j` whose value equals the left value, or NULL_I64 when none matches. With
composite keys (`len ≠ 1`) the result is the untruncated
`vector_i64(maxi64(ll, rl))` scratch: slots below len(L) hold the
first-inserted — i.e. least — right row whose whole key tuple equals left row
`i`'s key tuple (or NULL_I64 when none matches), and when |R| > |L| the
surplus slots still hold leftover right-row hashes. -/
theorem c3_build_idx_first_match (lcols rcols : List (List Int)) (i : Nat) :
    ((build_idx lcols rcols 1).length = (lcols.getD 0 []).length
      ∧ (∀ j : Nat, (build_idx lcols rcols 1).getD i NULL_I64 = (j : Int) →
          j < (rcols.getD 0 []).length
          ∧ (rcols.getD 0 []).getD j 0 = (lcols.getD 0 []).getD i 0
          ∧ ∀ k, k < j → (rcols.getD 0 []).getD k 0 ≠ (lcols.getD 0 []).getD i 0)
      ∧ (i < (lcols.getD 0 []).length →
          (build_idx lcols rcols 1).getD i NULL_I64 = NULL_I64 →
          ∀ k, k < (rcols.getD 0 []).length →
            (rcols.getD 0 []).getD k 0 ≠ (lcols.getD 0 []).getD i 0))
    ∧ (∀ len, len ≠ 1 →
        (build_idx lcols rcols len).length
          = max (lcols.getD 0 []).length (rcols.getD 0 []).length
        ∧ (i < (lcols.getD 0 []).length →
            ((∀ j : Nat, (build_idx lcols rcols len).getD i NULL_I64 = (j : Int) →
                j < (rcols.getD 0 []).length
                ∧ rowKey rcols j = rowKey lcols i
                ∧ ∀ k, k < j → rowKey rcols k ≠ rowKey lcols i)
             ∧ ((build_idx lcols rcols len).getD i NULL_I64 = NULL_I64 →
                ∀ k, k < (rcols.getD 0 []).length → rowKey rcols k ≠ rowKey lcols i)))
        ∧ ((lcols.getD 0 []).length ≤ i →
            i < max (lcols.getD 0 []).length (rcols.getD 0 []).length →
            (build_idx lcols rcols len).getD i NULL_I64
              = i64_of_u64 (precalc_hash rcols i))) := by
  constructor
  · have hunfold : build_idx lcols rcols 1
        = (List.range (lcols.getD 0 []).length).map fun i2 =>
            (Option.map (fun j : Nat => (j : Int))
              ((List.range (rcols.getD 0 []).length).find? fun j =>
                decide ((rcols.getD 0 []).getD j 0 = (lcols.getD 0 []).getD i2 0))).getD
              NULL_I64 := by
      rw [build_idx, if_pos rfl]
    refine ⟨by rw [hunfold, List.length_map, List.length_range], ?_, ?_⟩
    · intro j hj
      by_cases hi : i < (lcols.getD 0 []).length
      · rw [hunfold, getD_map_range' _ _ hi] at hj
        cases hf : (List.range (rcols.getD 0 []).length).find? fun j2 =>
            decide ((rcols.getD 0 []).getD j2 0 = (lcols.getD 0 []).getD i 0) with
        | some j2 =>
            rw [hf] at hj
            simp only [Option.map_some', Option.getD_some] at hj
            have hj2 : j2 = j := by exact_mod_cast hj
            obtain ⟨h1, h2, h3⟩ := find_range_first _ _ _ hf
            exact hj2 ▸ ⟨h1, of_decide_eq_true h2,
              fun k hk => of_decide_eq_false (h3 k hk)⟩
        | none =>
            rw [hf] at hj
            simp only [Option.map_none', Option.getD_none] at hj
            exact absurd hj.symm (natCast_ne_null_i64 j)
      · rw [hunfold, getD_map_range_ge _ _ (Nat.le_of_not_lt hi)] at hj
        exact absurd hj.symm (natCast_ne_null_i64 j)
    · intro hi hnone k hk
      rw [hunfold, getD_map_range' _ _ hi] at hnone
      cases hf : (List.range (rcols.getD 0 []).length).find? fun j2 =>
          decide ((rcols.getD 0 []).getD j2 0 = (lcols.getD 0 []).getD i 0) with
      | some j2 =>
          rw [hf] at hnone
          simp only [Option.map_some', Option.getD_some] at hnone
          exact absurd hnone (natCast_ne_null_i64 j2)
      | none =>
          exact of_decide_eq_false (find_range_none _ _ hf k hk)
  · intro len hlen
    have hunfold : build_idx lcols rcols len
        = (List.range (max (lcols.getD 0 []).length (rcols.getD 0 []).length)).map fun i2 =>
            if i2 < (lcols.getD 0 []).length then
              (Option.map (fun j : Nat => (j : Int))
                ((List.range (rcols.getD 0 []).length).find? fun j =>
                  decide (rowKey rcols j = rowKey lcols i2))).getD NULL_I64
            else i64_of_u64 (precalc_hash rcols i2) := by
      rw [build_idx, if_neg hlen]
      refine List.map_congr_left ?_
      intro a _
      by_cases ha : a < (lcols.getD 0 []).length
      · rw [if_pos ha, if_pos ha, build_tab_lookup]
      · rw [if_neg ha, if_neg ha]
    refine ⟨by rw [hunfold, List.length_map, List.length_range], ?_, ?_⟩
    · intro hi
      have hent : (build_idx lcols rcols len).getD i NULL_I64
          = (Option.map (fun j : Nat => (j : Int))
              ((List.range (rcols.getD 0 []).length).find? fun j =>
                decide (rowKey rcols j = rowKey lcols i))).getD NULL_I64 := by
        rw [hunfold,
          getD_map_range' _ _ (Nat.lt_of_lt_of_le hi (Nat.le_max_left _ _)), if_pos hi]
      constructor
      · intro j hj
        rw [hent] at hj
        cases hf : (List.range (rcols.getD 0 []).length).find? fun j2 =>
            decide (rowKey rcols j2 = rowKey lcols i) with
        | some j2 =>
            rw [hf] at hj
            simp only [Option.map_some', Option.getD_some] at hj
            have hj2 : j2 = j := by exact_mod_cast hj
            obtain ⟨h1, h2, h3⟩ := find_range_first _ _ _ hf
            exact hj2 ▸ ⟨h1, of_decide_eq_true h2,
              fun k hk => of_decide_eq_false (h3 k hk)⟩
        | none =>
            rw [hf] at hj
            simp only [Option.map_none', Option.getD_none] at hj
            exact absurd hj.symm (natCast_ne_null_i64 j)
      · intro hnone k hk
        rw [hent] at hnone
        cases hf : (List.range (rcols.getD 0 []).length).find? fun j2 =>
            decide (rowKey rcols j2 = rowKey lcols i) with
        | some j2 =>
            rw [hf] at hnone
            simp only [Option.map_some', Option.getD_some] at hnone
            exact absurd hnone (natCast_ne_null_i64 j2)
        | none =>
            exact of_decide_eq_false (find_range_none _ _ hf k hk)
    · intro hge hlt
      rw [hunfold, getD_map_range' _ _ hlt, if_neg (Nat.not_lt.mpr hge)]

/-- Witness for `c3_build_idx_first_match` at the spec's §8 scenario
(`L.k = [10,20,30]`, `R.k = [30,10,40]`, where `idx = [1, NULL, 0]`), a
two-column composite-key instance with a duplicated right key where the
first-inserted right row wins, and a composite instance with |R| > |L| whose
surplus slot holds the leftover right-row hash. -/
theorem c3_build_idx_first_match_witness :
    (1 < (([[30, 10, 40]] : List (List Int)).getD 0 []).length
      ∧ (([[30, 10, 40]] : List (List Int)).getD 0 []).getD 1 0
          = (([[10, 20, 30]] : List (List Int)).getD 0 []).getD 0 0
      ∧ ∀ k, k < 1 → (([[30, 10, 40]] : List (List Int)).getD 0 []).getD k 0
          ≠ (([[10, 20, 30]] : List (List Int)).getD 0 []).getD 0 0)
    ∧ (1 < (([[30, 10, 10], [3, 1, 1]] : List (List Int)).getD 0 []).length
      ∧ rowKey [[30, 10, 10], [3, 1, 1]] 1 = rowKey [[10, 20], [1, 2]] 0
      ∧ ∀ k, k < 1 → rowKey [[30, 10, 10], [3, 1, 1]] k ≠ rowKey [[10, 20], [1, 2]] 0)
    ∧ (build_idx [[10], [1]] [[30, 10, 10], [3, 1, 1]] 2).getD 1 NULL_I64
        = i64_of_u64 (precalc_hash [[30, 10, 10], [3, 1, 1]] 1) :=
  ⟨(c3_build_idx_first_match [[10, 20, 30]] [[30, 10, 40]] 0).1.2.1 1 (by decide),
   (((c3_build_idx_first_match [[10, 20], [1, 2]] [[30, 10, 10], [3, 1, 1]] 0).2 2
      (by decide)).2.1 (by decide)).1 1 (by decide),
   ((c3_build_idx_first_match [[10], [1]] [[30, 10, 10], [3, 1, 1]] 1).2 2
      (by decide)).2.2 (by decide) (by decide)⟩

/-- C3 counterexample to the claimed output shape: with composite keys and
|R| > |L| (here |L| = 1, |R| = 3) build_idx returns the untruncated
`vector_i64(maxi64(ll, rl))` scratch (join.c:203): the result has length 3,
not len(L) = 1, and its surplus slot 1 holds the leftover right-row hash —
neither a right-row index nor the NULL sentinel. -/
theorem c3_composite_result_oversized :
    (build_idx [[10], [1]] [[30, 10, 40], [3, 1, 4]] 2).length = 3
    ∧ (([[10], [1]] : List (List Int)).getD 0 []).length = 1
    ∧ (build_idx [[10], [1]] [[30, 10, 40], [3, 1, 4]] 2).getD 1 NULL_I64
        = i64_of_u64 (precalc_hash [[30, 10, 40], [3, 1, 4]] 1)
    ∧ (build_idx [[10], [1]] [[30, 10, 40], [3, 1, 4]] 2).getD 1 NULL_I64 ≠ NULL_I64
    ∧ (3 : Nat) ≠ 1 :=
  ⟨by decide, by decide, by decide, by decide, by decide⟩

/- ### C8: pool_run result collection, pool.c:515-592 -/

/-- A task result as seen by `pool_run`: an error object or an ok payload. -/
inductive PObj where
  | err : ErrCode → PObj
  | ok : Int → PObj
  deriving DecidableEq

/-- `IS_ERR` — the error-object test pool_run applies to each collected slot. -/
def IS_ERR : PObj → Bool
  | PObj.err _ => true
  | PObj.ok _ => false

/-- pool.c:545-560: completed results are popped in worker-scheduling order and
placed by task id (`ins_obj(&res, data.id, data.result)`) into a LIST pre-sized
to `tasks_count`. -/
def pool_collect (n : Nat) (received : List (Nat × PObj)) : List (Option PObj) :=
  received.foldl (fun res d => res.set d.1 (some d.2)) (List.replicate n none)

/-- pool.c:562-580: after collection, scan the slots in task-id order; the
first slot holding an ERR object is cloned and returned as the batch error
(dropping the remaining results); otherwise the collected list is returned. -/
def pool_run_collect (n : Nat) (received : List (Nat × PObj)) :
    Except PObj (List (Option PObj)) :=
  match (pool_collect n received).find? fun o => (o.map IS_ERR).getD false with
  | some (some e) => Except.error e
  | _ => Except.ok (pool_collect n received)

/-- Setting one slot of a range-tabulated list re-tabulates it pointwise. -/
theorem set_map_range {α : Type} (g : Nat → α) (n k : Nat) (v : α) (hk : k < n) :
    ((List.range n).map g).set k v
      = (List.range n).map fun i => if i = k then v else g i := by
  apply List.ext_getElem?
  intro j
  by_cases hj : j < n
  · by_cases hjk : j = k
    · subst hjk
      rw [List.getElem?_set_self (by rw [List.length_map, List.length_range]; exact hj),
        List.getElem?_map, List.getElem?_range hj]
      simp
    · rw [List.getElem?_set_ne (fun hh => hjk hh.symm), List.getElem?_map, List.getElem?_map,
        List.getElem?_range hj]
      simp [hjk]
  · have hlen : n ≤ j := Nat.le_of_not_lt hj
    rw [List.getElem?_eq_none (by rw [List.length_set, List.length_map, List.length_range]; exact hlen),
      List.getElem?_eq_none (by rw [List.length_map, List.length_range]; exact hlen)]

/-- Collecting the canonical in-order results fills every slot. -/
theorem pool_collect_canonical (n : Nat) (f : Nat → PObj) :
    pool_collect n ((List.range n).map fun i => (i, f i))
      = (List.range n).map fun i => some (f i) := by
  rw [pool_collect, List.foldl_map]
  have hbase : List.replicate n none
      = (List.range n).map fun i => if i < 0 then some (f i) else (none : Option PObj) := by
    rw [show ((List.range n).map fun i => if i < 0 then some (f i) else (none : Option PObj))
        = (List.range n).map fun _ => (none : Option PObj) from
      List.map_congr_left (fun a _ => by simp)]
    rw [show ((List.range n).map fun _ => (none : Option PObj))
        = List.replicate (List.range n).length none from List.map_const _ _]
    rw [List.length_range]
  have hstep : ∀ k b, k < n →
      b = ((List.range n).map fun i => if i < k then some (f i) else none) →
      (fun res i => res.set i (some (f i))) b k
        = (List.range n).map fun i => if i < k + 1 then some (f i) else none := by
    intro k b hk hb
    rw [hb]
    show ((List.range n).map fun i => if i < k then some (f i) else none).set k (some (f k))
        = (List.range n).map fun i => if i < k + 1 then some (f i) else none
    rw [set_map_range _ _ _ _ hk]
    refine List.map_congr_left ?_
    intro a _
    by_cases hak : a = k
    · subst hak
      rw [if_pos rfl, if_pos (Nat.lt_succ_self a)]
    · rw [if_neg hak]
      by_cases halt : a < k
      · rw [if_pos halt, if_pos (Nat.lt_succ_of_lt halt)]
      · rw [if_neg halt, if_neg (by omega)]
  have h : (List.range n).foldl (fun res i => res.set i (some (f i))) (List.replicate n none)
      = (List.range n).map fun i => if i < n then some (f i) else none :=
    @foldl_range_inv (List (Option PObj))
      (fun k res => res = (List.range n).map fun i => if i < k then some (f i) else none)
      (fun res i => res.set i (some (f i))) n (List.replicate n none) hbase hstep
  rw [h]
  refine List.map_congr_left ?_
  intro a ha
  rw [if_pos (List.mem_range.mp ha)]

/-- Collection is order-independent: any completion order that delivers each
task id exactly once yields the canonical id-indexed list. -/
theorem pool_collect_perm (n : Nat) (f : Nat → PObj) (received : List (Nat × PObj))
    (hperm : received.Perm ((List.range n).map fun i => (i, f i))) :
    pool_collect n received = (List.range n).map fun i => some (f i) := by
  have hcomm : ∀ x ∈ received, ∀ y ∈ received, ∀ z : List (Option PObj),
      (z.set x.1 (some x.2)).set y.1 (some y.2)
        = (z.set y.1 (some y.2)).set x.1 (some x.2) := by
    intro x hx y hy z
    have hx' := hperm.mem_iff.mp hx
    have hy' := hperm.mem_iff.mp hy
    rw [List.mem_map] at hx' hy'
    obtain ⟨a, _, hxa⟩ := hx'
    obtain ⟨b, _, hyb⟩ := hy'
    by_cases hab : a = b
    · subst hab
      rw [← hxa, ← hyb]
    · refine List.set_comm _ _ z ?_
      rw [← hxa, ← hyb]
      simpa using hab
  rw [pool_collect, hperm.foldl_eq' hcomm (List.replicate n none)]
  exact pool_collect_canonical n f

/-- `find?` over a mapped list probes the preimages in order. -/
theorem find?_map_general {α β : Type} (g : α → β) (p : β → Bool) (l : List α) :
    (l.map g).find? p = (l.find? fun a => p (g a)).map g := by
  induction l with
  | nil => rfl
  | cons a l ih =>
      cases hp : p (g a) with
      | true =>
          rw [List.map_cons, List.find?_cons_of_pos _ hp,
            List.find?_cons_of_pos l (show (fun x => p (g x)) a = true from hp)]
          rfl
      | false =>
          rw [List.map_cons, List.find?_cons_of_neg _ (by simp [hp]),
            List.find?_cons_of_neg l (show ¬(fun x => p (g x)) a = true from by simp [hp]), ih]

/-- C8: pool_run result collection (pool.c:515-592). Whenever the received
completion stream is a permutation of the batch's (id, result) pairs — i.e.
tasks complete in arbitrary worker-scheduling order, each exactly once — the
collected LIST is indexed by task id, so the caller observes the deterministic
list `[f 0, …, f (n-1)]`; if the scan finds an ERR result then the returned
error is the ERR result with the lowest task id, and when no result is an ERR
the whole collected list is returned. -/
theorem c8_pool_run_collects_by_id (n : Nat) (f : Nat → PObj) (received : List (Nat × PObj))
    (hperm : received.Perm ((List.range n).map fun i => (i, f i))) :
    pool_collect n received = ((List.range n).map fun i => some (f i))
    ∧ (∀ e, pool_run_collect n received = Except.error e →
        ∃ i, i < n ∧ f i = e ∧ IS_ERR (f i) = true ∧ ∀ k, k < i → IS_ERR (f k) = false)
    ∧ ((∀ i, i < n → IS_ERR (f i) = false) →
        pool_run_collect n received = Except.ok ((List.range n).map fun i => some (f i))) := by
  have hcol := pool_collect_perm n f received hperm
  have hrun : pool_run_collect n received
      = match ((List.range n).find? fun a => IS_ERR (f a)).map (fun i => some (f i)) with
        | some (some e) => Except.error e
        | _ => Except.ok ((List.range n).map fun i => some (f i)) := by
    rw [pool_run_collect, hcol, find?_map_general]
    rfl
  refine ⟨hcol, ?_, ?_⟩
  · intro e he
    rw [hrun] at he
    cases hfind : (List.range n).find? fun a => IS_ERR (f a) with
    | none =>
        rw [hfind] at he
        exact absurd he (by simp)
    | some i =>
        rw [hfind] at he
        obtain ⟨h1, h2, h3⟩ := find_range_first _ n i hfind
        refine ⟨i, h1, ?_, h2, h3⟩
        simpa using he
  · intro hok
    have hfind : ((List.range n).find? fun a => IS_ERR (f a)) = none := by
      refine List.find?_eq_none.mpr ?_
      intro x hx
      rw [hok x (List.mem_range.mp hx)]
      exact Bool.false_ne_true
    rw [hrun, hfind]
    rfl

/-- Witness scheduling order for `c8_pool_run_collects_by_id`: task 1 errors. -/
def c8f : Nat → PObj := fun i => if i = 1 then PObj.err ErrCode.EC_DOMAIN else PObj.ok i

/-- Out-of-order completion stream delivering each of tasks 0, 1, 2 once. -/
def c8rec : List (Nat × PObj) := [(2, c8f 2), (0, c8f 0), (1, c8f 1)]

/-- All-ok batch of two tasks, also completing out of order. -/
def c8g : Nat → PObj := fun i => PObj.ok i

/-- Completion stream for the all-ok batch. -/
def c8recg : List (Nat × PObj) := [(1, c8g 1), (0, c8g 0)]

/-- Witness for `c8_pool_run_collects_by_id`: a scrambled 3-task batch whose
task 1 errors yields that error (lowest erroring id), and a scrambled all-ok
2-task batch yields the id-indexed result list. -/
theorem c8_pool_run_collects_by_id_witness :
    (∃ i, i < 3 ∧ c8f i = PObj.err ErrCode.EC_DOMAIN ∧ IS_ERR (c8f i) = true
        ∧ ∀ k, k < i → IS_ERR (c8f k) = false)
    ∧ pool_run_collect 2 c8recg = Except.ok ((List.range 2).map fun i => some (c8g i)) :=
  ⟨(c8_pool_run_collects_by_id 3 c8f c8rec (by decide)).2.1
      (PObj.err ErrCode.EC_DOMAIN) (by rfl),
   (c8_pool_run_collects_by_id 2 c8g c8recg (by decide)).2.2 (by decide)⟩

/- ### C9: per-VM buddy heap, heap.c -/

/-- Modelled from the spec (§3.1): heap.h is not under src/, so the heap
constants and the block-header layout are taken from the spec's description of
the buddy allocator. `OBJ_SIZE` stands for `sizeof(struct obj_t)`, the header
charged on every allocation by BLOCKSIZE. -/
def OBJ_SIZE : Nat := 32

/-- Modelled from the spec: smallest block order. -/
def MIN_BLOCK_ORDER : Nat := 5

/-- Modelled from the spec: number of slab-cached orders `[MIN, MIN+K)`. -/
def SLAB_ORDERS : Nat := 4

/-- Modelled from the spec: bounded slab-stack capacity. -/
def SLAB_CACHE_SIZE : Nat := 64

/-- Modelled from the spec: orders at and above this are whole pools. -/
def MAX_BLOCK_ORDER : Nat := 25

/-- Modelled from the spec: largest poolable order; `alloc` fails above it. -/
def MAX_POOL_ORDER : Nat := 30

/-- BLOCKSIZE(s) = sizeof(struct obj_t) + s (heap.c:50). -/
def BLOCKSIZE (s : Nat) : Nat := OBJ_SIZE + s

/-- BSIZEOF(o) = 1 << o (heap.c:51). -/
def BSIZEOF (o : Nat) : Nat := 2 ^ o

/-- Number of binary digits of a 64-bit value, i.e. 64 - clzll(x). -/
def bitlen (x : Nat) : Nat :=
  (List.range 64).foldl (fun a b => if 2 ^ b ≤ x then b + 1 else a) 0

/-- ORDEROF(s) = 64 - clzll(s - 1) (heap.c:53). -/
def ORDEROF (s : Nat) : Nat := bitlen (s - 1)

/-- A block header (struct block_t, modelled from the spec since heap.h is not
under src/): owning pool id, byte offset inside the pool, current order, the
root order of its pool, file-backed flag and used flag. Offsets replace raw
addresses; BUDDYOF's XOR of the pool offset acts on `off`. -/
structure HBlock where
  pool : Nat
  off : Nat
  order : Nat
  pool_order : Nat
  backed : Bool
  used : Bool
  deriving DecidableEq

/-- The heap: per-order freelists, per-index slab stacks, the memstat system
and heap byte counters, and a fresh-pool counter standing in for mmap
addresses. The avail bitmask is represented by freelist non-emptiness, which
heap_insert_block/heap_remove_block keep in sync in heap.c. -/
structure Heap where
  freelist : Nat → List HBlock
  slabs : Nat → List HBlock
  system : Int
  heapBytes : Int
  nextPool : Nat

/-- A fresh heap (heap_create, heap.c:57-96: zeroed lists and counters). -/
def heap_init : Heap := ⟨fun _ => [], fun _ => [], 0, 0, 0⟩

/-- heap_insert_block (heap.c:184-198): push onto the order's freelist,
clearing `used` and stamping `order`. -/
def heap_insert_block (h : Heap) (b : HBlock) (order : Nat) : Heap :=
  { h with freelist := (updf h.freelist order
      ({ b with used := false, order := order } :: h.freelist order)) }

/-- heap_remove_block (heap.c:200-211): unlink one specific block. -/
def heap_remove_block (h : Heap) (b : HBlock) (order : Nat) : Heap :=
  { h with freelist := updf h.freelist order ((h.freelist order).erase b) }

/-- heap_add_pool (heap.c:124-174) with the model's mmap always succeeding
(so the file-backed fallback path is not taken): a fresh pool block at offset
0, pool_order stamped from the size, and memstat.system/heap grown by it. -/
def heap_add_pool (h : Heap) (size : Nat) : Heap × HBlock :=
  ({ h with
      system := h.system + size
      heapBytes := h.heapBytes + size
      nextPool := h.nextPool + 1 },
   { pool := h.nextPool
     off := 0
     order := 0
     pool_order := ORDEROF size
     backed := false
     used := false })

/-- heap_remove_pool (heap.c:176-182). -/
def heap_remove_pool (h : Heap) (size : Nat) : Heap :=
  { h with system := h.system - size, heapBytes := h.heapBytes - size }

/-- heap_split_block (heap.c:213-224): peel buddies off at orders i-1 down to
block_order; each buddy sits BSIZEOF(order) above the block in the same pool. -/
def heap_split_block (h : Heap) (b : HBlock) (block_order i : Nat) : Heap :=
  ((List.range' block_order (i - block_order)).reverse).foldl
    (fun hh o => heap_insert_block hh
      ⟨b.pool, b.off + BSIZEOF o, o, b.pool_order, false, false⟩ o) h

/-- heap_flush_slabs (heap.c:226-239): pop every slab-cached block back onto
its order's freelist, with no coalescing. -/
def heap_flush_slabs (h : Heap) : Heap :=
  (List.range SLAB_ORDERS).foldl
    (fun hh i =>
      (hh.slabs i).foldl (fun h2 b => heap_insert_block h2 b (MIN_BLOCK_ORDER + i))
        { hh with slabs := updf hh.slabs i [] })
    h

/-- The avail-bitmask scan `(AVAIL_MASK << order) & heap->avail` plus ctz
(heap.c:290, 313): the least order ≥ the requested one with a non-empty
freelist. -/
def find_avail (h : Heap) (order : Nat) : Option Nat :=
  (List.range' order (MAX_POOL_ORDER + 1 - order)).find? fun j => !(h.freelist j).isEmpty

/-- heap_alloc (heap.c:262-338): size guard; slab fast path; avail scan with
split; otherwise either a direct pool for order ≥ MAX_BLOCK_ORDER — note
heap.c:306 adds `size` to memstat.system a second time on top of
heap_add_pool's own increment — or a fresh MAX_BLOCK_ORDER pool that is
inserted, removed again and split. Returns the allocated block, or none on
size 0 / oversize. -/
def heap_alloc (h : Heap) (size : Nat) : Heap × Option HBlock :=
  if size = 0 ∨ BSIZEOF MAX_POOL_ORDER < size then (h, none)
  else
    let order := ORDEROF (BLOCKSIZE size)
    if MIN_BLOCK_ORDER ≤ order ∧ order ≤ MIN_BLOCK_ORDER + SLAB_ORDERS - 1
        ∧ h.slabs (order - MIN_BLOCK_ORDER) ≠ [] then
      match h.slabs (order - MIN_BLOCK_ORDER) with
      | b :: rest =>
          ({ h with slabs := updf h.slabs (order - MIN_BLOCK_ORDER) rest },
           some { b with used := true })
      | [] => (h, none)
    else
      match find_avail h order with
      | some i =>
          match h.freelist i with
          | b :: rest =>
              let h1 := { h with freelist := updf h.freelist i rest }
              let h2 := heap_split_block h1 b order i
              (h2, some ⟨b.pool, b.off, order, b.pool_order, false, true⟩)
          | [] => (h, none)
      | none =>
          if MAX_BLOCK_ORDER ≤ order then
            let psize := BSIZEOF order
            let hb := heap_add_pool h psize
            ({ hb.1 with system := hb.1.system + psize },
             some { hb.2 with order := order, used := true })
          else
            let hb := heap_add_pool h (BSIZEOF MAX_BLOCK_ORDER)
            let h2 := heap_insert_block hb.1 { hb.2 with order := MAX_BLOCK_ORDER }
              MAX_BLOCK_ORDER
            match h2.freelist MAX_BLOCK_ORDER with
            | bb :: rest =>
                let h3 := { h2 with freelist := updf h2.freelist MAX_BLOCK_ORDER rest }
                let h4 := heap_split_block h3 bb order MAX_BLOCK_ORDER
                (h4, some ⟨bb.pool, bb.off, order, bb.pool_order, false, true⟩)
            | [] => (h2, none)

/-- The buddy-merge loop of heap_free (heap.c:395-414). The buddy of a block
sits at offset `off XOR BSIZEOF(order)` of the same pool and is mergeable
exactly when it is on the freelist of that order (a used buddy, or one of a
different order, is not — heap.c:405). Fuel bounds the order climb. -/
def heap_free_merge : Nat → Heap → HBlock → Nat → Heap
  | 0, h, b, order => heap_insert_block h b order
  | fuel + 1, h, b, order =>
      if b.pool_order = order then heap_insert_block h b order
      else
        match (h.freelist order).find? fun x =>
            decide (x.pool = b.pool) && decide (x.off = b.off ^^^ BSIZEOF order) with
        | none => heap_insert_block h b order
        | some buddy =>
            heap_free_merge fuel (heap_remove_block h buddy order)
              { b with off := if (b.off ^^^ BSIZEOF order) < b.off
                  then b.off ^^^ BSIZEOF order else b.off }
              (order + 1)

/-- heap_free (heap.c:340-414) for the single-VM model (heap id 0, so the
foreign-block branch is never taken): invalid orders are ignored, file-backed
blocks unmap their pool, slab-order blocks go to the slab cache while it has
room, and everything else buddy-merges into the freelists. -/
def heap_free (h : Heap) (b : HBlock) : Heap :=
  if b.order < MIN_BLOCK_ORDER ∨ MAX_POOL_ORDER < b.order then h
  else if b.backed then heap_remove_pool h (BSIZEOF b.order)
  else if MIN_BLOCK_ORDER ≤ b.order ∧ b.order ≤ MIN_BLOCK_ORDER + SLAB_ORDERS - 1
      ∧ (h.slabs (b.order - MIN_BLOCK_ORDER)).length < SLAB_CACHE_SIZE then
    { h with slabs := (updf h.slabs (b.order - MIN_BLOCK_ORDER)
        (b :: h.slabs (b.order - MIN_BLOCK_ORDER))) }
  else heap_free_merge (MAX_POOL_ORDER + 1) h b b.order

/-- One order of the heap_gc sweep (heap.c:473-486): drop every freelist block
whose order equals its pool order, unmapping one pool of BSIZEOF(i) bytes per
dropped block; also reports the bytes returned. -/
def heap_gc_pass (h : Heap) (i : Nat) : Heap × Nat :=
  (((h.freelist i).filter fun b => decide (b.pool_order = i)).foldl
      (fun hh _ => heap_remove_pool hh (BSIZEOF i))
      { h with freelist := (updf h.freelist i
          ((h.freelist i).filter fun b => !decide (b.pool_order = i))) },
   ((h.freelist i).filter fun b => decide (b.pool_order = i)).length * BSIZEOF i)

/-- Accumulating step of the heap_gc sweep. -/
def heap_gc_step (p : Heap × Nat) (i : Nat) : Heap × Nat :=
  ((heap_gc_pass p.1 i).1, p.2 + (heap_gc_pass p.1 i).2)

/-- heap_gc (heap.c:461-487): flush the slab caches, then sweep the orders
MAX_BLOCK_ORDER..MAX_POOL_ORDER; yields the swept heap and the total bytes
returned to the system. -/
def heap_gc (h : Heap) : Heap × Nat :=
  (List.range' MAX_BLOCK_ORDER (MAX_POOL_ORDER + 1 - MAX_BLOCK_ORDER)).foldl
    heap_gc_step (heap_flush_slabs h, 0)

/-- memstat.free as recomputed by heap_memstat (heap.c:583-600): walking the
freelists and adding BLOCKSIZE(i) — the header size plus the order index, not
BSIZEOF(i) — per block of order i, and never counting slab-cached blocks. -/
def heap_memstat_free (h : Heap) : Nat :=
  ((List.range' MIN_BLOCK_ORDER (MAX_POOL_ORDER + 1 - MIN_BLOCK_ORDER)).map
    fun i => (h.freelist i).length * BLOCKSIZE i).sum

/- Sweep bookkeeping lemmas. -/

theorem foldl_remove_pool_freelist (s : Nat) :
    ∀ (l : List HBlock) (g : Heap),
      (l.foldl (fun hh (_ : HBlock) => heap_remove_pool hh s) g).freelist = g.freelist := by
  intro l
  induction l with
  | nil => intro g; rfl
  | cons b l ih => intro g; exact ih _

theorem foldl_remove_pool_slabs (s : Nat) :
    ∀ (l : List HBlock) (g : Heap),
      (l.foldl (fun hh (_ : HBlock) => heap_remove_pool hh s) g).slabs = g.slabs := by
  intro l
  induction l with
  | nil => intro g; rfl
  | cons b l ih => intro g; exact ih _

theorem foldl_remove_pool_system (s : Nat) :
    ∀ (l : List HBlock) (g : Heap),
      (l.foldl (fun hh (_ : HBlock) => heap_remove_pool hh s) g).system
        = g.system - (l.length * s : Nat) := by
  intro l
  induction l with
  | nil => intro g; simp
  | cons b l ih =>
      intro g
      show (l.foldl _ (heap_remove_pool g s)).system = _
      rw [ih]
      show g.system - (s : Int) - ((l.length * s : Nat) : Int)
          = g.system - (((l.length + 1) * s : Nat) : Int)
      push_cast
      ring

theorem gc_pass_freelist_self (g : Heap) (o : Nat) :
    (heap_gc_pass g o).1.freelist o
      = (g.freelist o).filter fun b => !decide (b.pool_order = o) := by
  show ((((g.freelist o).filter fun b => decide (b.pool_order = o)).foldl
      (fun hh (_ : HBlock) => heap_remove_pool hh (BSIZEOF o))
      { g with freelist := (updf g.freelist o
          ((g.freelist o).filter fun b => !decide (b.pool_order = o))) }).freelist) o = _
  rw [foldl_remove_pool_freelist]
  exact updf_self _ _ _

theorem gc_pass_freelist_ne (g : Heap) (o : Nat) {j : Nat} (hne : j ≠ o) :
    (heap_gc_pass g o).1.freelist j = g.freelist j := by
  show ((((g.freelist o).filter fun b => decide (b.pool_order = o)).foldl
      (fun hh (_ : HBlock) => heap_remove_pool hh (BSIZEOF o))
      { g with freelist := (updf g.freelist o
          ((g.freelist o).filter fun b => !decide (b.pool_order = o))) }).freelist) j = _
  rw [foldl_remove_pool_freelist]
  exact updf_ne _ _ _ hne

theorem gc_pass_slabs (g : Heap) (o : Nat) : (heap_gc_pass g o).1.slabs = g.slabs := by
  show (((g.freelist o).filter fun b => decide (b.pool_order = o)).foldl
      (fun hh (_ : HBlock) => heap_remove_pool hh (BSIZEOF o))
      { g with freelist := (updf g.freelist o
          ((g.freelist o).filter fun b => !decide (b.pool_order = o))) }).slabs = _
  rw [foldl_remove_pool_slabs]

theorem gc_pass_system (g : Heap) (o : Nat) :
    (heap_gc_pass g o).1.system
      = g.system - ((((g.freelist o).filter fun b => decide (b.pool_order = o)).length
          * BSIZEOF o : Nat) : Int) := by
  show (((g.freelist o).filter fun b => decide (b.pool_order = o)).foldl
      (fun hh (_ : HBlock) => heap_remove_pool hh (BSIZEOF o))
      { g with freelist := (updf g.freelist o
          ((g.freelist o).filter fun b => !decide (b.pool_order = o))) }).system = _
  rw [foldl_remove_pool_system]

theorem gc_pass_snd (g : Heap) (o : Nat) :
    (heap_gc_pass g o).2
      = ((g.freelist o).filter fun b => decide (b.pool_order = o)).length * BSIZEOF o := rfl

/-- The gc sweep over any duplicate-free list of orders: each listed order's
freelist is filtered by the pool_order test, all other freelists and the slab
stacks are untouched, memstat.system drops by exactly the reported byte total,
and that total sums the removed blocks' sizes per order. -/
theorem gc_fold_spec (l : List Nat) :
    ∀ (g : Heap) (t : Nat), l.Nodup →
    (∀ i ∈ l, (l.foldl heap_gc_step (g, t)).1.freelist i
        = (g.freelist i).filter fun b => !decide (b.pool_order = i))
    ∧ (∀ i, i ∉ l → (l.foldl heap_gc_step (g, t)).1.freelist i = g.freelist i)
    ∧ (l.foldl heap_gc_step (g, t)).1.slabs = g.slabs
    ∧ (l.foldl heap_gc_step (g, t)).1.system
        = g.system - (((l.map fun o =>
            ((g.freelist o).filter fun b => decide (b.pool_order = o)).length
              * BSIZEOF o).sum : Nat) : Int)
    ∧ (l.foldl heap_gc_step (g, t)).2
        = t + (l.map fun o =>
            ((g.freelist o).filter fun b => decide (b.pool_order = o)).length
              * BSIZEOF o).sum := by
  induction l with
  | nil =>
      intro g t _
      exact ⟨fun i hi => absurd hi (List.not_mem_nil i), fun i _ => rfl, rfl, by simp, by simp⟩
  | cons o l ih =>
      intro g t hnd
      obtain ⟨ho, hnd'⟩ := List.nodup_cons.mp hnd
      have hstep : heap_gc_step (g, t) o = ((heap_gc_pass g o).1, t + (heap_gc_pass g o).2) := rfl
      have hfold : (o :: l).foldl heap_gc_step (g, t)
          = l.foldl heap_gc_step ((heap_gc_pass g o).1, t + (heap_gc_pass g o).2) := by
        show l.foldl heap_gc_step (heap_gc_step (g, t) o) = _
        rw [hstep]
      have hg := ih (heap_gc_pass g o).1 (t + (heap_gc_pass g o).2) hnd'
      have hsum : (l.map fun o2 =>
            (((heap_gc_pass g o).1.freelist o2).filter fun b => decide (b.pool_order = o2)).length
              * BSIZEOF o2).sum
          = (l.map fun o2 =>
            ((g.freelist o2).filter fun b => decide (b.pool_order = o2)).length
              * BSIZEOF o2).sum := by
        refine congrArg List.sum (List.map_congr_left ?_)
        intro a ha
        rw [gc_pass_freelist_ne g o (fun he => ho (he ▸ ha))]
      refine ⟨?_, ?_, ?_, ?_, ?_⟩
      · intro i hi
        rw [hfold]
        rcases List.mem_cons.mp hi with hio | hil
        · subst hio
          rw [hg.2.1 i ho, gc_pass_freelist_self]
        · have hio : i ≠ o := fun he => ho (he ▸ hil)
          rw [hg.1 i hil, gc_pass_freelist_ne g o hio]
      · intro i hi
        rw [hfold]
        have hio : i ≠ o := fun he => hi (he ▸ List.mem_cons_self o l)
        have hil : i ∉ l := fun hm => hi (List.mem_cons_of_mem o hm)
        rw [hg.2.1 i hil, gc_pass_freelist_ne g o hio]
      · rw [hfold, hg.2.2.1, gc_pass_slabs]
      · rw [hfold, hg.2.2.2.1, hsum, gc_pass_system, List.map_cons, List.sum_cons]
        push_cast
        ring
      · rw [hfold, hg.2.2.2.2, hsum, gc_pass_snd, List.map_cons, List.sum_cons]
        omega

/-- C9 (amended): heap_gc (heap.c:461-487) first flushes the slab caches, then
sweeps only the orders MAX_BLOCK_ORDER..MAX_POOL_ORDER, removing exactly the
free-list blocks whose order equals their pool order and unmapping one pool of
BSIZEOF(order) bytes per removed block; memstat.system drops by exactly the
returned total, and free lists at lower orders — where fragmented pools keep
their split-off buddies — are left as flushed. The original claim's stronger
conclusion, that after a net-zero alloc/free history the heap's free byte
count equals its system byte count, is refuted by
`c9_net_zero_gc_free_ne_system`. -/
theorem c9_heap_gc_sweep (h : Heap) (i : Nat) :
    (MAX_BLOCK_ORDER ≤ i → i ≤ MAX_POOL_ORDER →
      (heap_gc h).1.freelist i
        = ((heap_flush_slabs h).freelist i).filter fun b => !decide (b.pool_order = i))
    ∧ (i < MAX_BLOCK_ORDER → (heap_gc h).1.freelist i = (heap_flush_slabs h).freelist i)
    ∧ (heap_gc h).1.system = (heap_flush_slabs h).system - ((heap_gc h).2 : Int)
    ∧ (heap_gc h).2
        = ((List.range' MAX_BLOCK_ORDER (MAX_POOL_ORDER + 1 - MAX_BLOCK_ORDER)).map fun o =>
            (((heap_flush_slabs h).freelist o).filter fun b => decide (b.pool_order = o)).length
              * BSIZEOF o).sum := by
  have hspec := gc_fold_spec
    (List.range' MAX_BLOCK_ORDER (MAX_POOL_ORDER + 1 - MAX_BLOCK_ORDER))
    (heap_flush_slabs h) 0 (by decide)
  have hgc : heap_gc h
      = (List.range' MAX_BLOCK_ORDER (MAX_POOL_ORDER + 1 - MAX_BLOCK_ORDER)).foldl
          heap_gc_step (heap_flush_slabs h, 0) := rfl
  refine ⟨?_, ?_, ?_, ?_⟩
  · intro h1 h2
    rw [hgc]
    exact hspec.1 i (List.mem_range'_1.mpr ⟨h1, by omega⟩)
  · intro h1
    rw [hgc]
    exact hspec.2.1 i (fun hmem => absurd (List.mem_range'_1.mp hmem).1 (by omega))
  · rw [hgc, hspec.2.2.2.1, hspec.2.2.2.2]
    norm_num
  · rw [hgc, hspec.2.2.2.2]
    omega

/-- A heap holding one whole free pool at order 27, one fragment of another
pool on the order-26 freelist, and one slab-cached block, for exercising the
gc sweep. -/
def c9SweepHeap : Heap :=
  { freelist := (updf (updf (fun _ => []) 27 [⟨1, 0, 27, 27, false, false⟩])
      26 [⟨0, 2 ^ 26, 26, 27, false, false⟩])
    slabs := fun _ => []
    system := 2 ^ 28
    heapBytes := 2 ^ 28
    nextPool := 2 }

/-- Witness for `c9_heap_gc_sweep` on `c9SweepHeap`, at a swept order (27) and
an unswept one (6). -/
theorem c9_heap_gc_sweep_witness :
    ((heap_gc c9SweepHeap).1.freelist 27
      = ((heap_flush_slabs c9SweepHeap).freelist 27).filter fun b => !decide (b.pool_order = 27))
    ∧ (heap_gc c9SweepHeap).1.freelist 6 = (heap_flush_slabs c9SweepHeap).freelist 6 :=
  ⟨(c9_heap_gc_sweep c9SweepHeap 27).1 (by decide) (by decide),
   (c9_heap_gc_sweep c9SweepHeap 6).2.1 (by decide)⟩

/-- C9 counterexample to the original claim: a single heap_alloc of 2^26 bytes
followed by heap_free of the returned block nets to zero live objects; the
allocation takes the direct-pool path, which double-counts the pool in
memstat.system (heap.c:306 on top of heap.c:170), and heap_gc then unmaps the
pool subtracting it only once — so after the sweep every freelist is empty
(free = 0) while memstat.system still reports 2^27 bytes: free ≠ system. -/
theorem c9_net_zero_gc_free_ne_system :
    (heap_alloc heap_init (2 ^ 26)).2 = some ⟨0, 0, 27, 27, false, true⟩
    ∧ heap_memstat_free
        (heap_gc (heap_free (heap_alloc heap_init (2 ^ 26)).1 ⟨0, 0, 27, 27, false, true⟩)).1 = 0
    ∧ (heap_gc (heap_free (heap_alloc heap_init (2 ^ 26)).1 ⟨0, 0, 27, 27, false, true⟩)).1.system
        = 2 ^ 27
    ∧ ((0 : Int) ≠ 2 ^ 27) := by
  exact ⟨by decide, by decide, by decide, by decide⟩

end Rayforce
